import Mathlib

/-!
Verification of the Surplus preprocessor (source-to-source compiler turning
inline markup expressions into runtime calls).  The definitions below are a
shallow embedding of the bundled preprocessor source: the tokenizer, the
recursive-descent parser, the AST transform pipeline, the code generator and
the source-map extractor, together with theorems settling the frozen claims.

Strings are modelled as `List Char` (named `Str`); JavaScript's implicit
mutation is made explicit by state passing; JS exceptions (parse errors,
the TypeError on reading a member of `undefined`) are modelled with `Except`.
-/

set_option maxHeartbeats 1000000

namespace Surplus

/-- Strings of the embedded program: lists of characters. -/
abbrev Str := List Char

/-- JavaScript `\s` character class (the whitespace characters of the
regexes `^\s*$`, `^\s+` and the code-terminator class). -/
def jsWs (c : Char) : Bool :=
  c = ' ' || c = '\t' || c = '\n' || c = '\x0b' || c = '\x0c' || c = '\r' ||
  c = '\xa0' || (0x2000 ≤ c.toNat && c.toNat ≤ 0x200a) ||
  c.toNat = 0x1680 || c.toNat = 0x2028 || c.toNat = 0x2029 || c.toNat = 0x202f ||
  c.toNat = 0x205f || c.toNat = 0x3000 || c.toNat = 0xfeff

/-- JavaScript `\w` character class. -/
def wordChar (c : Char) : Bool :=
  ('a' ≤ c && c ≤ 'z') || ('A' ≤ c && c ≤ 'Z') || ('0' ≤ c && c ≤ '9') || c = '_'

/-- JavaScript `[a-zA-Z]`. -/
def alphaChar (c : Char) : Bool :=
  ('a' ≤ c && c ≤ 'z') || ('A' ≤ c && c ≤ 'Z')

/-- `rx.upperStart = /^[A-Z]/`. -/
def upperStart (s : Str) : Bool :=
  match s with
  | [] => false
  | c :: _ => 'A' ≤ c && c ≤ 'Z'

/-- `rx.lowerStart = /^[a-z]/`. -/
def lowerStart (s : Str) : Bool :=
  match s with
  | [] => false
  | c :: _ => 'a' ≤ c && c ≤ 'z'

/-- `rx.ws = /^\s*$/` : the whole string is whitespace. -/
def allWs (s : Str) : Bool := s.all jsWs

/-- `rx.jsxEventProperty = /^on[A-Z]/`. -/
def jsxEventProperty (s : Str) : Bool :=
  match s with
  | 'o' :: 'n' :: c :: _ => 'A' ≤ c && c ≤ 'Z'
  | _ => false

/-- JavaScript `String.prototype.toLowerCase` restricted to ASCII (property
names are parsed by `/^[a-zA-Z]\w*/`, hence ASCII). -/
def jsToLower (s : Str) : Str :=
  s.map fun c => if 'A' ≤ c && c ≤ 'Z' then Char.ofNat (c.toNat + 32) else c

/-! ## Tokenizer

`rx.tokens` of the source, one alternative per branch, tried in the order of
the regex alternation.  The final "misc" alternative is a maximal run of
characters that do not begin any of the other alternatives. -/

/-- Characters excluded from the plain part of the misc token class
(`[^<>@=\/@=()[\]{}"'\n*-]` of `rx.tokens`). -/
def miscExcluded (c : Char) : Bool :=
  c = '<' || c = '>' || c = '@' || c = '=' || c = '/' || c = '(' || c = ')' ||
  c = '[' || c = ']' || c = '{' || c = '}' || c = '"' || c = '\'' ||
  c = '\n' || c = '*' || c = '-'

/-- Lookahead `<\/?\w|<!--` at a position starting with `<`. -/
def tagLookahead (s : Str) : Bool :=
  match s with
  | '<' :: '!' :: '-' :: '-' :: _ => true
  | '<' :: '/' :: c :: _ => wordChar c
  | '<' :: c :: _ => wordChar c
  | _ => false

/-- Length of one atom of the misc alternative at the head of `s`
(`0` when no atom matches). -/
def miscAtomLen (s : Str) : Nat :=
  match s with
  | [] => 0
  | c :: rest =>
    if !(miscExcluded c) then 1
    else if c = '-' then (match rest with
      | '-' :: '>' :: _ => 0
      | _ => 1)
    else if c = '/' then (match rest with
      | d :: _ => if d = '>' || d = '/' || d = '*' then 0 else 1
      | [] => 1)
    else if c = '*' then (match rest with
      | '/' :: _ => 0
      | _ => 1)
    else if c = '<' then
      if tagLookahead s then 0
      else (match rest with
        | '/' :: _ => 2
        | _ => 1)
    else 0

/-- Length of the maximal misc run at the head of `s` (fuelled so the
recursion is structural; each atom consumes at least one character, so
`s.length + 1` fuel always suffices). -/
def miscRunLenGo : Nat → Str → Nat
  | 0, _ => 0
  | fuel + 1, s =>
    if miscAtomLen s = 0 then 0
    else miscAtomLen s + miscRunLenGo fuel (s.drop (miscAtomLen s))

def miscRunLen (s : Str) : Nat := miscRunLenGo (s.length + 1) s

/-- Number of characters of the token starting at the head of `s`.
The regex alternatives cover every character, so on a nonempty string the
result is positive; `tokenize` guards with `max 1` only for termination. -/
def nextTokenLen (s : Str) : Nat :=
  match s with
  | [] => 0
  | c :: rest =>
    if c = '<' then
      (match rest with
       | '/' :: r2 => if (match r2 with | d :: _ => wordChar d | [] => false) then 2 else miscRunLen s
       | '!' :: '-' :: '-' :: _ => 4
       | d :: _ => if wordChar d then 1 else miscRunLen s
       | [] => miscRunLen s)
    else if c = '>' then 1
    else if c = '/' then
      (match rest with
       | '>' :: _ => 2
       | '/' :: _ => 2
       | '*' :: _ => 2
       | _ => miscRunLen s)
    else if c = '-' then
      (match rest with
       | '-' :: '>' :: _ => 3
       | _ => miscRunLen s)
    else if c = '@' || c = '=' then 1
    else if c = '{' then
      (match rest with
       | '.' :: '.' :: '.' :: _ => 4
       | _ => 1)
    else if c = '(' || c = ')' || c = '[' || c = ']' || c = '}' || c = '"' ||
            c = '\'' || c = '\n' then 1
    else if c = '*' then
      (match rest with
       | '/' :: _ => 2
       | _ => miscRunLen s)
    else miscRunLen s

/-- `tokenize` of the source: `str.match(rx.tokens)`, the list of tokens
tiling the input (fuelled; every token consumes at least one character, so
`s.length + 1` fuel always suffices). -/
def tokenizeGo : Nat → Str → List Str
  | 0, _ => []
  | fuel + 1, s =>
    match s with
    | [] => []
    | c :: rest =>
      (c :: rest).take (max 1 (nextTokenLen (c :: rest))) ::
        tokenizeGo fuel ((c :: rest).drop (max 1 (nextTokenLen (c :: rest))))

def tokenize (s : Str) : List Str := tokenizeGo (s.length + 1) s

/-! ## AST

The bundle's post-transform ("native") AST family: `CodeTopLevel`,
`CodeText`, `EmbeddedCode`, `HtmlElement`, `HtmlText`, `HtmlComment`,
`HtmlInsert`, `StaticProperty`, `DynamicProperty`, `Mixin`. -/

/-- `LOC`: (line, column, position) as tracked by the parser. -/
structure LOC where
  line : Nat
  col : Nat
  pos : Nat
deriving DecidableEq

mutual
inductive HtmlElement where
  | mk (tag : Str) (properties : List HtmlProperty) (content : List HtmlContent) (loc : LOC)
inductive HtmlProperty where
  | staticProperty (name : Str) (value : Str)
  | dynamicProperty (name : Str) (code : EmbeddedCode) (loc : LOC)
  | mixin (code : EmbeddedCode) (loc : LOC)
inductive HtmlContent where
  | htmlText (text : Str)
  | htmlComment (text : Str)
  | htmlInsert (code : EmbeddedCode) (loc : LOC)
  | element (e : HtmlElement)
inductive EmbeddedCode where
  | mk (segments : List CodeSegment)
inductive CodeSegment where
  | codeText (text : Str) (loc : LOC)
  | element (e : HtmlElement)
end

def HtmlElement.tag : HtmlElement → Str
  | .mk t _ _ _ => t

def HtmlElement.properties : HtmlElement → List HtmlProperty
  | .mk _ p _ _ => p

def HtmlElement.content : HtmlElement → List HtmlContent
  | .mk _ _ c _ => c

def HtmlElement.loc : HtmlElement → LOC
  | .mk _ _ _ l => l

def EmbeddedCode.segments : EmbeddedCode → List CodeSegment
  | .mk s => s

/-- Top level of a parsed file: a list of code/markup segments. -/
structure CodeTopLevel where
  segments : List CodeSegment

/-- Sourcemap mode of the options (`'extract'` / `'append'`; `none` = null). -/
inductive SourcemapMode where
  | extract
  | append
deriving DecidableEq

/-- The defaulted options record built by `preprocess`. -/
structure Params where
  sourcemap : Option SourcemapMode
  sourcefile : Str
  targetfile : Str
  jsx : Bool

/-! ## Parser

Recursive descent over the token stream.  The mutable cursor
(`i`/`TOK`/`EOF`/`LINE`/`COL`/`POS`) becomes a `PState` whose `toks` is the
not-yet-consumed suffix, the head being the (possibly partially `SPLIT`)
current token.  All functions are fuelled; `parse` supplies fuel ample for
the token stream, so a fuel error never occurs on the runs below. -/

structure PState where
  toks : List Str
  line : Nat
  col : Nat
  pos : Nat

/-- String literal helper. -/
def lit (s : String) : Str := s.toList

/-- The current token (`""` at end of stream). -/
def PState.tok (st : PState) : Str := st.toks.head?.getD []

/-- `EOF`. -/
def PState.eof (st : PState) : Bool := st.toks.isEmpty

/-- `LOC()`. -/
def PState.LOC (st : PState) : LOC := ⟨st.line, st.col, st.pos⟩

/-- `NEXT()`: advance past the current token, updating line/col/pos. -/
def PState.next (st : PState) : PState :=
  match st.toks with
  | [] => st
  | t :: r =>
    if t = ['\n'] then { toks := r, line := st.line + 1, col := 0, pos := st.pos + 1 }
    else { toks := r, line := st.line, col := st.col + t.length, pos := st.pos + t.length }

/-- `IS(t)`. -/
def PState.is (st : PState) (t : Str) : Bool := st.tok == t

/-- `rx.identifier = /^[a-zA-Z]\w*/` : the matched prefix (`[]` = no match). -/
def matchIdentifier (t : Str) : Str :=
  match t with
  | [] => []
  | c :: rest => if alphaChar c then c :: rest.takeWhile wordChar else []

/-- `rx.leadingWs = /^\s+/` : the matched prefix. -/
def matchLeadingWs (t : Str) : Str := t.takeWhile jsWs

/-- `rx.codeTerminator = /^[\s<>/,;)\]}]/` as a first-character test. -/
def matchCodeTerminator (t : Str) : Bool :=
  match t with
  | [] => false
  | c :: _ => jsWs c || c = '<' || c = '>' || c = '/' || c = ',' || c = ';' ||
      c = ')' || c = ']' || c = '}'

/-- `rx.codeContinuation = /^[^\s<>/,;)\]}]+/` : the matched prefix. -/
def matchCodeContinuation (t : Str) : Str :=
  t.takeWhile fun c => !(jsWs c || c = '<' || c = '>' || c = '/' || c = ',' ||
    c = ';' || c = ')' || c = ']' || c = '}')

/-- `rx.stringEscapedEnd = /[^\\](\\\\)*\\$/` : the accumulated string text
ends in an odd run of backslashes preceded by a non-backslash. -/
def stringEscapedEnd (text : Str) : Bool :=
  let run := (text.reverse.takeWhile (· = '\\')).length
  run % 2 = 1 && run < text.length

/-- `SPLIT(rx)`: split the matched prefix off the current token, advancing
to the next token when the remainder is empty. -/
def PState.split (st : PState) (f : Str → Str) : Str × PState :=
  let m := f st.tok
  match m with
  | [] => ([], st)
  | _ :: _ =>
    let rest := st.tok.drop m.length
    let toks' := match st.toks with
      | [] => []
      | _ :: r => if rest.isEmpty then r else rest :: r
    (m, { toks := toks', line := st.line, col := st.col + m.length,
          pos := st.pos + m.length })

/-- `parens`: the closer matching an opening bracket token. -/
def parensEnd (t : Str) : Option Str :=
  if t = lit "(" then some (lit ")")
  else if t = lit "[" then some (lit "]")
  else if t = lit "\x7b" then some (lit "\x7d")
  else if t = lit "\x7b..." then some (lit "\x7d")
  else none

/-- Message of a fuel-exhaustion error (never hit with `parse`'s fuel). -/
def fuelErr : Str := lit "__fuel"

mutual

/-- `SKIPWS()`. -/
def pSkipws : Nat → PState → Except Str PState
  | 0, _ => .error fuelErr
  | fuel + 1, st =>
    if st.is (lit "\n") then pSkipws fuel st.next
    else if !(matchLeadingWs st.tok).isEmpty then
      pSkipws fuel (st.split matchLeadingWs).2
    else .ok st

/-- Loop of `quotedString()`. -/
def pQuotedLoop : Nat → Str → Str → PState → Except Str (Str × PState)
  | 0, _, _, _ => .error fuelErr
  | fuel + 1, quote, text, st =>
    if !st.eof && (!(st.tok == quote) || stringEscapedEnd text) then
      pQuotedLoop fuel quote (text ++ st.tok) st.next
    else if st.eof then .error (lit "unterminated string")
    else .ok (text ++ st.tok, st.next)

/-- `quotedString()`. -/
def pQuotedString : Nat → PState → Except Str (Str × PState)
  | 0, _ => .error fuelErr
  | fuel + 1, st =>
    if !(st.is (lit "'")) && !(st.is (lit "\"")) then .error (lit "not in quoted string")
    else pQuotedLoop fuel st.tok st.tok st.next

/-- Loop of `codeSingleLineComment()`. -/
def pLineCommentLoop : Nat → Str → PState → Except Str (Str × PState)
  | 0, _, _ => .error fuelErr
  | fuel + 1, text, st =>
    if !st.eof && !(st.is (lit "\n")) then
      pLineCommentLoop fuel (text ++ st.tok) st.next
    else if !st.eof then .ok (text ++ st.tok, st.next)
    else .ok (text, st)

/-- `codeSingleLineComment()`. -/
def pLineComment : Nat → PState → Except Str (Str × PState)
  | 0, _ => .error fuelErr
  | fuel + 1, st =>
    if !(st.is (lit "//")) then .error (lit "not in code comment")
    else pLineCommentLoop fuel [] st

/-- Loop of `codeMultiLineComment()`. -/
def pBlockCommentLoop : Nat → Str → PState → Except Str (Str × PState)
  | 0, _, _ => .error fuelErr
  | fuel + 1, text, st =>
    if !st.eof && !(st.is (lit "*/")) then
      pBlockCommentLoop fuel (text ++ st.tok) st.next
    else if st.eof then .error (lit "unterminated multi-line comment")
    else .ok (text ++ st.tok, st.next)

/-- `codeMultiLineComment()`. -/
def pBlockComment : Nat → PState → Except Str (Str × PState)
  | 0, _ => .error fuelErr
  | fuel + 1, st =>
    if !(st.is (lit "/*")) then .error (lit "not in code comment")
    else pBlockCommentLoop fuel [] st

/-- Loop of `balancedParens(segments, text, loc)`. -/
def pBalancedLoop : Nat → Bool → Str → List CodeSegment → Str → LOC → PState →
    Except Str (Str × List CodeSegment × LOC × PState)
  | 0, _, _, _, _, _, _ => .error fuelErr
  | fuel + 1, jsx, endTok, segments, text, loc, st =>
    if !st.eof && !(st.tok == endTok) then
      if st.is (lit "'") || st.is (lit "\"") then do
        let (q, st) ← pQuotedString fuel st
        pBalancedLoop fuel jsx endTok segments (text ++ q) loc st
      else if st.is (lit "//") then do
        let (cm, st) ← pLineComment fuel st
        pBalancedLoop fuel jsx endTok segments (text ++ cm) loc st
      else if st.is (lit "/*") then do
        let (cm, st) ← pBlockComment fuel st
        pBalancedLoop fuel jsx endTok segments (text ++ cm) loc st
      else if st.is (lit "<") then do
        let segments := if text.isEmpty then segments
          else segments ++ [CodeSegment.codeText text ⟨loc.line, loc.col, loc.pos⟩]
        let (el, st) ← pHtmlElement fuel jsx st
        pBalancedLoop fuel jsx endTok (segments ++ [CodeSegment.element el]) [] st.LOC st
      else if (parensEnd st.tok).isSome then do
        let (text, segments, loc, st) ← pBalancedParens fuel jsx segments text loc st
        pBalancedLoop fuel jsx endTok segments text loc st
      else
        pBalancedLoop fuel jsx endTok segments (text ++ st.tok) loc st.next
    else if st.eof then .error (lit "unterminated parentheses")
    else .ok (text ++ st.tok, segments, loc, st.next)

/-- `balancedParens(segments, text, loc)`: returns the grown text and the
(`segments`, `loc`) the source mutates in place. -/
def pBalancedParens : Nat → Bool → List CodeSegment → Str → LOC → PState →
    Except Str (Str × List CodeSegment × LOC × PState)
  | 0, _, _, _, _, _ => .error fuelErr
  | fuel + 1, jsx, segments, text, loc, st =>
    match parensEnd st.tok with
    | none => .error (lit "not in parentheses")
    | some endTok => pBalancedLoop fuel jsx endTok segments (text ++ st.tok) loc st.next

/-- Loop of `embeddedCode()`. -/
def pEmbeddedLoop : Nat → Bool → List CodeSegment → Str → LOC → PState →
    Except Str (List CodeSegment × Str × LOC × PState)
  | 0, _, _, _, _, _ => .error fuelErr
  | fuel + 1, jsx, segments, text, loc, st =>
    if !st.eof && !(matchCodeTerminator st.tok) then
      if (parensEnd st.tok).isSome then do
        let (text, segments, loc, st) ← pBalancedParens fuel jsx segments text loc st
        pEmbeddedLoop fuel jsx segments text loc st
      else if st.is (lit "'") || st.is (lit "\"") then do
        let (q, st) ← pQuotedString fuel st
        pEmbeddedLoop fuel jsx segments (text ++ q) loc st
      else
        let (m, st') := st.split matchCodeContinuation
        pEmbeddedLoop fuel jsx segments (text ++ m) loc st'
    else .ok (segments, text, loc, st)

/-- `embeddedCode()` (native dialect). -/
def pEmbeddedCode : Nat → Bool → PState → Except Str (EmbeddedCode × PState)
  | 0, _, _ => .error fuelErr
  | fuel + 1, jsx, st => do
    let loc := st.LOC
    let (segments, text, loc', st) ← pEmbeddedLoop fuel jsx [] [] loc st
    let segments := if text.isEmpty then segments
      else segments ++ [CodeSegment.codeText text loc']
    if segments.isEmpty then .error (lit "not in embedded code")
    else .ok (EmbeddedCode.mk segments, st)

/-- `jsxEmbeddedCode()`. -/
def pJsxEmbeddedCode : Nat → Bool → PState → Except Str (EmbeddedCode × PState)
  | 0, _, _ => .error fuelErr
  | fuel + 1, jsx, st =>
    if !(st.is (lit "\x7b")) && !(st.is (lit "\x7b...")) then
      .error (lit "not at start of JSX embedded code")
    else do
      let prefixLength := st.tok.length
      let loc := st.LOC
      let (last, segments, loc', st) ← pBalancedParens fuel jsx [] [] loc st
      -- remove closing brace, push the trailing text
      let segments := segments ++ [CodeSegment.codeText (last.dropLast) loc']
      -- remove the opening brace(s) from the first segment, adjusting its loc
      match segments with
      | CodeSegment.codeText t l :: rest =>
        .ok (EmbeddedCode.mk (CodeSegment.codeText (t.drop prefixLength)
          ⟨l.line, l.col + prefixLength, l.pos⟩ :: rest), st)
      | _ => .error (lit "TypeError")

/-- `htmlText()`. -/
def pHtmlText : Nat → Bool → Str → PState → Except Str (Str × PState)
  | 0, _, _, _ => .error fuelErr
  | fuel + 1, jsx, text, st =>
    if !st.eof && !(st.is (lit "<")) && !(st.is (lit "<!--")) &&
        (if jsx then !(st.is (lit "\x7b")) else !(st.is (lit "@"))) &&
        !(st.is (lit "</")) then
      pHtmlText fuel jsx (text ++ st.tok) st.next
    else .ok (text, st)

/-- Loop of `htmlComment()`. -/
def pHtmlCommentLoop : Nat → Str → PState → Except Str (Str × PState)
  | 0, _, _ => .error fuelErr
  | fuel + 1, text, st =>
    if !st.eof && !(st.is (lit "-->")) then
      pHtmlCommentLoop fuel (text ++ st.tok) st.next
    else if st.eof then .error (lit "unterminated html comment")
    else .ok (text, st.next)

/-- `htmlComment()`. -/
def pHtmlComment : Nat → PState → Except Str (Str × PState)
  | 0, _ => .error fuelErr
  | fuel + 1, st =>
    if !(st.is (lit "<!--")) then .error (lit "not in HTML comment")
    else pHtmlCommentLoop fuel [] st.next

/-- `htmlInsert()` (native dialect). -/
def pHtmlInsert : Nat → Bool → PState → Except Str (HtmlContent × PState)
  | 0, _, _ => .error fuelErr
  | fuel + 1, jsx, st =>
    if !(st.is (lit "@")) then .error (lit "not at start of code insert")
    else do
      let loc := st.LOC
      let (code, st) ← pEmbeddedCode fuel jsx st.next
      .ok (HtmlContent.htmlInsert code loc, st)

/-- `jsxHtmlInsert()`. -/
def pJsxHtmlInsert : Nat → Bool → PState → Except Str (HtmlContent × PState)
  | 0, _, _ => .error fuelErr
  | fuel + 1, jsx, st => do
    let loc := st.LOC
    let (code, st) ← pJsxEmbeddedCode fuel jsx st
    .ok (HtmlContent.htmlInsert code loc, st)

/-- `property()`. -/
def pProperty : Nat → Bool → PState → Except Str (HtmlProperty × PState)
  | 0, _, _ => .error fuelErr
  | fuel + 1, jsx, st =>
    if (matchIdentifier st.tok).isEmpty then
      .error (lit "not at start of property declaration")
    else do
      let loc := st.LOC
      let (name, st) := st.split matchIdentifier
      let st ← pSkipws fuel st
      if !(st.is (lit "=")) then .error (lit "expected equals sign after property name")
      else do
        let st ← pSkipws fuel st.next
        if st.is (lit "\"") || st.is (lit "'") then do
          let (value, st) ← pQuotedString fuel st
          .ok (HtmlProperty.staticProperty name value, st)
        else if jsx && st.is (lit "\x7b") then do
          let (code, st) ← pJsxEmbeddedCode fuel jsx st
          .ok (HtmlProperty.dynamicProperty name code loc, st)
        else if !jsx then do
          let (code, st) ← pEmbeddedCode fuel jsx st
          .ok (HtmlProperty.dynamicProperty name code loc, st)
        else .error (lit "unexepected value for JSX property")

/-- `mixin()` (native dialect). -/
def pMixin : Nat → Bool → PState → Except Str (HtmlProperty × PState)
  | 0, _, _ => .error fuelErr
  | fuel + 1, jsx, st =>
    if !(st.is (lit "@")) then .error (lit "not at start of mixin")
    else do
      let loc := st.LOC
      let (code, st) ← pEmbeddedCode fuel jsx st.next
      .ok (HtmlProperty.mixin code loc, st)

/-- `jsxMixin()`. -/
def pJsxMixin : Nat → Bool → PState → Except Str (HtmlProperty × PState)
  | 0, _, _ => .error fuelErr
  | fuel + 1, jsx, st =>
    if !(st.is (lit "\x7b...")) then .error (lit "not at start of JSX mixin")
    else do
      let loc := st.LOC
      let (code, st) ← pJsxEmbeddedCode fuel jsx st
      .ok (HtmlProperty.mixin code loc, st)

/-- Property loop of `htmlElement()` (scan until end of opening tag). -/
def pPropsLoop : Nat → Bool → List HtmlProperty → PState →
    Except Str (List HtmlProperty × PState)
  | 0, _, _, _ => .error fuelErr
  | fuel + 1, jsx, props, st =>
    if !st.eof && !(st.is (lit ">")) && !(st.is (lit "/>")) then do
      let (p, st) ←
        if !(matchIdentifier st.tok).isEmpty then pProperty fuel jsx st
        else if !jsx && st.is (lit "@") then pMixin fuel jsx st
        else if jsx && st.is (lit "\x7b...") then pJsxMixin fuel jsx st
        else .error (lit "unrecognized content in begin tag")
      let st ← pSkipws fuel st
      pPropsLoop fuel jsx (props ++ [p]) st
    else .ok (props, st)

/-- Content loop of `htmlElement()` (children until the close tag). -/
def pContentLoop : Nat → Bool → List HtmlContent → PState →
    Except Str (List HtmlContent × PState)
  | 0, _, _, _ => .error fuelErr
  | fuel + 1, jsx, content, st =>
    if !st.eof && !(st.is (lit "</")) then do
      let (c, st) ←
        if st.is (lit "<") then do
          let (el, st) ← pHtmlElement fuel jsx st
          pure (HtmlContent.element el, st)
        else if !jsx && st.is (lit "@") then pHtmlInsert fuel jsx st
        else if jsx && st.is (lit "\x7b") then pJsxHtmlInsert fuel jsx st
        else if st.is (lit "<!--") then do
          let (t, st) ← pHtmlComment fuel st
          pure (HtmlContent.htmlComment t, st)
        else do
          let (t, st) ← pHtmlText fuel jsx [] st
          pure (HtmlContent.htmlText t, st)
      pContentLoop fuel jsx (content ++ [c]) st
    else .ok (content, st)

/-- `htmlElement()`. -/
def pHtmlElement : Nat → Bool → PState → Except Str (HtmlElement × PState)
  | 0, _, _ => .error fuelErr
  | fuel + 1, jsx, st =>
    if !(st.is (lit "<")) then .error (lit "not at start of html element")
    else do
      let start := st.LOC
      let st := st.next -- pass '<'
      let (tag, st) := st.split matchIdentifier
      if tag.isEmpty then .error (lit "bad element name")
      else do
        let st ← pSkipws fuel st
        let (properties, st) ← pPropsLoop fuel jsx [] st
        if st.eof then .error (lit "unterminated start node")
        else do
          let hasContent := st.is (lit ">")
          let st := st.next -- pass '>' or '/>'
          if hasContent then do
            let (content, st) ← pContentLoop fuel jsx [] st
            if st.eof then .error (lit "element missing close tag")
            else do
              let st := st.next -- pass '</'
              let (tag2, st) := st.split matchIdentifier
              if !(tag == tag2) then .error (lit "mismatched open and close tags")
              else if !(st.is (lit ">")) then .error (lit "malformed close tag")
              else .ok (HtmlElement.mk tag properties content start, st.next)
          else .ok (HtmlElement.mk tag properties [] start, st)

/-- `codeTopLevel()` (its accumulation loop). -/
def pCodeTopLevel : Nat → Bool → List CodeSegment → Str → LOC → PState →
    Except Str CodeTopLevel
  | 0, _, _, _, _, _ => .error fuelErr
  | fuel + 1, jsx, segments, text, loc, st =>
    if !st.eof then
      if st.is (lit "<") then do
        let segments := if text.isEmpty then segments
          else segments ++ [CodeSegment.codeText text loc]
        let (el, st) ← pHtmlElement fuel jsx st
        pCodeTopLevel fuel jsx (segments ++ [CodeSegment.element el]) [] st.LOC st
      else if st.is (lit "\"") || st.is (lit "'") then do
        let (q, st) ← pQuotedString fuel st
        pCodeTopLevel fuel jsx segments (text ++ q) loc st
      else if st.is (lit "//") then do
        let (cm, st) ← pLineComment fuel st
        pCodeTopLevel fuel jsx segments (text ++ cm) loc st
      else if st.is (lit "/*") then do
        let (cm, st) ← pBlockComment fuel st
        pCodeTopLevel fuel jsx segments (text ++ cm) loc st
      else
        pCodeTopLevel fuel jsx segments (text ++ st.tok) loc st.next
    else
      .ok ⟨if text.isEmpty then segments else segments ++ [CodeSegment.codeText text loc]⟩

end

/-- Total size of a token stream (for choosing ample parse fuel). -/
def toksSize (toks : List Str) : Nat :=
  toks.foldr (fun t acc => t.length + 1 + acc) 0

/-- `parse(TOKS, opts)`: run `codeTopLevel()` from the initial cursor.  The
fuel is ample: parsing consumes at least one token every few steps. -/
def parse (toks : List Str) (opts : Params) : Except Str CodeTopLevel :=
  pCodeTopLevel (16 * (toksSize toks + 2)) opts.jsx [] [] ⟨0, 0, 0⟩
    ⟨toks, 0, 0, 0⟩

/-! ## String helpers of the code generator -/

/-- `.replace(rx.backslashes, "\\\\")`. -/
def replaceBackslashes (s : Str) : Str :=
  s.flatMap fun c => if c = '\\' then ['\\', '\\'] else [c]

/-- `.replace(rx.singleQuotes, "\\'")`. -/
def replaceSingleQuotes (s : Str) : Str :=
  s.flatMap fun c => if c = '\'' then ['\\', '\''] else [c]

/-- `.replace(rx.newlines, "\\\n")` with `rx.newlines = /\r?\n/g`. -/
def replaceNewlines (s : Str) : Str :=
  match s with
  | [] => []
  | '\r' :: '\n' :: rest => '\\' :: '\n' :: replaceNewlines rest
  | '\n' :: rest => '\\' :: '\n' :: replaceNewlines rest
  | c :: rest => c :: replaceNewlines rest

/-- `codeStr` of the code generator: single-quote a text literal. -/
def codeStr (s : Str) : Str :=
  '\'' :: (replaceNewlines (replaceSingleQuotes (replaceBackslashes s))) ++ ['\'']

/-- `rx.hasParen = /\(/`. -/
def hasParen (s : Str) : Bool := s.contains '('

/-- `rx.loneFunction = /^function |^\(\w*\) =>|^\w+ =>/`. -/
def loneFunction (s : Str) : Bool :=
  (lit "function ").isPrefixOf s ||
  (match s with
   | '(' :: rest =>
     let ws := rest.takeWhile wordChar
     (lit ") =>").isPrefixOf (rest.drop ws.length)
   | _ => false) ||
  (let ws := s.takeWhile wordChar
   !ws.isEmpty && (lit " =>").isPrefixOf (s.drop ws.length))

/-- `noApparentSignals`. -/
def noApparentSignals (code : Str) : Bool :=
  !hasParen code || loneFunction code

/-- `indent(previousCode)`: `rx.indent = /\n(?=[^\n]+$)([ \t]*)/` — the
leading spaces/tabs of the last line when it is nonempty. -/
def indentOf (previousCode : Str) : Str :=
  let rev := previousCode.reverse
  let afterRev := rev.takeWhile (· ≠ '\n')
  if afterRev.length = rev.length then []
  else if afterRev.isEmpty then []
  else afterRev.reverse.takeWhile fun c => c = ' ' || c = '\t'

/-- JavaScript `String.prototype.trim`. -/
def jsTrim (s : Str) : Str :=
  ((s.dropWhile jsWs).reverse.dropWhile jsWs).reverse

/-- Decimal rendering of a number (`"" + n` of JS). -/
def natToStr (n : Nat) : Str := Nat.toDigits 10 n

/-! ## Transforms

The pipeline `preprocess` applies (bundle lines 889-895):
`removeWhitespaceTextNodes`, `translateJSXPropertyNames`,
`promoteInitialTextNodesToTextContentProperties`,
`removeDuplicateProperties`, layered over the identity `Copy` traversal.
The composed overlay runs the four node operations in that order on each
element and then recurses into its properties and children (the `Copy`
layer).  `transformElement` below performs the recursion first and the node
operations second, which yields the same result as the source's order: the
node operations only inspect attributes the recursion preserves (the
commutation is used in the C10 proof through `filter_transformContent`). -/

/-- `translateJSXPropertyName`. -/
def translateJSXPropertyName (name : Str) : Str :=
  if jsxEventProperty name then
    (if name = lit "onDoubleClick" then lit "ondblclick" else jsToLower name)
  else name

/-- A whitespace-only text child (the filter of `removeWhitespaceTextNodes`). -/
def isWsText : HtmlContent → Bool
  | .htmlText t => allWs t
  | _ => false

/-- `removeWhitespaceTextNodes`, the single-node operation. -/
def removeWhitespaceTextNodesEl : HtmlElement → HtmlElement
  | .mk tag props content loc => .mk tag props (content.filter fun c => !isWsText c) loc

/-- Rename one property as `translateJSXPropertyNames` does (DynamicProperty
only). -/
def translateProp : HtmlProperty → HtmlProperty
  | .dynamicProperty n c l => .dynamicProperty (translateJSXPropertyName n) c l
  | p => p

/-- The property-list effect of `translateJSXPropertyNames` on an element
with the given tag. -/
def translatePropsIfHtml (tag : Str) (props : List HtmlProperty) : List HtmlProperty :=
  if lowerStart tag then props.map translateProp else props

/-- `translateJSXPropertyNames`, the single-node operation. -/
def translateJSXPropertyNamesEl : HtmlElement → HtmlElement
  | .mk tag props content loc => .mk tag (translatePropsIfHtml tag props) content loc

/-- `promoteInitialTextNodesToTextContentProperties`, the single-node
operation. -/
def promoteInitialTextNodesEl : HtmlElement → HtmlElement
  | .mk tag props content loc =>
    match content with
    | .htmlText t :: rest =>
      if lowerStart tag then
        .mk tag (props ++ [.staticProperty (lit "textContent") (codeStr t)]) rest loc
      else .mk tag props content loc
    | _ => .mk tag props content loc

/-- Indexed enumeration (the `(p, i)` pairs of `forEach`/`filter` callbacks). -/
def enumF (k : Nat) : List HtmlProperty → List (Nat × HtmlProperty)
  | [] => []
  | p :: rest => (k, p) :: enumF (k + 1) rest

/-- The name a property registers in `lastid` (`none` for Mixins). -/
def propName? : HtmlProperty → Option Str
  | .staticProperty n _ => some n
  | .dynamicProperty n _ _ => some n
  | .mixin _ _ => none

/-- JS-object style association update: overwrite in place, append if new. -/
def assocSet (m : List (Str × Nat)) (k : Str) (v : Nat) : List (Str × Nat) :=
  match m with
  | [] => [(k, v)]
  | (k', v') :: rest => if k' = k then (k', v) :: rest else (k', v') :: assocSet rest k v

/-- Association lookup. -/
def assocGet (m : List (Str × Nat)) (k : Str) : Option Nat :=
  match m with
  | [] => none
  | (k', v') :: rest => if k' = k then some v' else assocGet rest k

/-- `lastid`: for each non-Mixin name the index of its last occurrence. -/
def lastid (props : List HtmlProperty) : List (Str × Nat) :=
  (enumF 0 props).foldl (fun m iv => match propName? iv.2 with
    | some n => assocSet m n iv.1
    | none => m) []

/-- The property filter of `removeDuplicateProperties`: keep Mixins, and
keep a named property only at its `lastid` index. -/
def removeDuplicateProps (props : List HtmlProperty) : List HtmlProperty :=
  ((enumF 0 props).filter fun iv => match propName? iv.2 with
    | none => true
    | some n => assocGet (lastid props) n = some iv.1).map (·.2)

/-- `removeDuplicateProperties`, the single-node operation. -/
def removeDuplicatePropertiesEl : HtmlElement → HtmlElement
  | .mk tag props content loc => .mk tag (removeDuplicateProps props) content loc

/-- The four per-node operations in pipeline order. -/
def nodeOps (e : HtmlElement) : HtmlElement :=
  removeDuplicatePropertiesEl (promoteInitialTextNodesEl
    (translateJSXPropertyNamesEl (removeWhitespaceTextNodesEl e)))

mutual

def transformElement : HtmlElement → HtmlElement
  | .mk tag props content loc =>
    nodeOps (.mk tag (transformProps props) (transformContent content) loc)

def transformProps : List HtmlProperty → List HtmlProperty
  | [] => []
  | p :: ps => transformProp p :: transformProps ps

def transformProp : HtmlProperty → HtmlProperty
  | .staticProperty n v => .staticProperty n v
  | .dynamicProperty n c l => .dynamicProperty n (transformEC c) l
  | .mixin c l => .mixin (transformEC c) l

def transformContent : List HtmlContent → List HtmlContent
  | [] => []
  | c :: cs => transformChild c :: transformContent cs

def transformChild : HtmlContent → HtmlContent
  | .htmlText t => .htmlText t
  | .htmlComment t => .htmlComment t
  | .htmlInsert c l => .htmlInsert (transformEC c) l
  | .element e => .element (transformElement e)

def transformEC : EmbeddedCode → EmbeddedCode
  | .mk segs => .mk (transformSegments segs)

def transformSegments : List CodeSegment → List CodeSegment
  | [] => []
  | s :: ss => transformSegment s :: transformSegments ss

def transformSegment : CodeSegment → CodeSegment
  | .codeText t l => .codeText t l
  | .element e => .element (transformElement e)

end

/-- `transform(ast, opts)` of the bundle: apply the composed overlay from
`CodeTopLevel`. -/
def transform (ctl : CodeTopLevel) : CodeTopLevel :=
  ⟨transformSegments ctl.segments⟩

/-! ## Source-map marks (used by the code generator) -/

/-- `locationMark(loc)`: `"\u0000" + line + "," + col + "\u0000"`. -/
def locationMark (loc : LOC) : Str :=
  '\x00' :: natToStr loc.line ++ [','] ++ natToStr loc.col ++ ['\x00']

/-- `markLoc(str, loc, opts)`. -/
def markLoc (opts : Params) (s : Str) (loc : LOC) : Str :=
  if opts.sourcemap.isSome then locationMark loc ++ s else s

/-- Split on `'\n'` (JavaScript `str.split('\n')`). -/
def splitNl (s : Str) : List Str :=
  match s with
  | [] => [[]]
  | c :: rest =>
    let tail := splitNl rest
    if c = '\n' then [] :: tail
    else match tail with
      | [] => [[c]]
      | l :: ls => (c :: l) :: ls

/-- The loop of `markBlockLocs`: mark lines `1..` with their own loc. -/
def markBlockLines (loc : LOC) (i : Nat) (offset : Nat) : List Str → List Str
  | [] => []
  | l :: ls =>
    let offset' := offset + l.length
    (locationMark ⟨loc.line + i, 0, loc.pos + offset' + i⟩ ++ l)
      :: markBlockLines loc (i + 1) offset' ls

/-- `markBlockLocs(str, loc, opts)`. -/
def markBlockLocs (opts : Params) (s : Str) (loc : LOC) : Str :=
  if opts.sourcemap.isNone then s
  else
    match splitNl s with
    | [] => locationMark loc ++ s
    | first :: rest =>
      locationMark loc ++
        (List.intercalate (lit "\n") (first :: markBlockLines loc 1 0 rest))

/-! ## Code generator -/

/-- One property group of a subcomponent: a Mixin's compiled expression, or
an object of named values (JS object modelled as an insertion-ordered
association list, overwritten in place). -/
inductive PropGroup where
  | str (s : Str)
  | obj (entries : List (Str × Str))

/-- JS-object style association update for string values. -/
def objSet (o : List (Str × Str)) (k : Str) (v : Str) : List (Str × Str) :=
  match o with
  | [] => [(k, v)]
  | (k', v') :: rest => if k' = k then (k', v) :: rest else (k', v') :: objSet rest k v

structure SubComponent where
  name : Str
  properties : List PropGroup
  children : List Str

structure Computation where
  statements : List Str
  loc : LOC
  stateVar : Option Str
  seed : Option Str

structure DOMExpression where
  ids : List Str
  statements : List Str
  computations : List Computation

/-- `addId(parent, tag, n)`: make the fresh identifier and push it. -/
def addId (parent : Str) (tag : Str) (n : Nat) (dom : DOMExpression) :
    Str × DOMExpression :=
  let id := if parent.isEmpty then lit "__"
    else parent ++ (if parent.getLast? = some '_' then [] else ['_']) ++ tag ++ natToStr (n + 1)
  (id, { dom with ids := dom.ids ++ [id] })

def addStatement (stmt : Str) (dom : DOMExpression) : DOMExpression :=
  { dom with statements := dom.statements ++ [stmt] }

def addComputation (body : List Str) (stateVar : Option Str) (seed : Option Str)
    (loc : LOC) (dom : DOMExpression) : DOMExpression :=
  { dom with computations := dom.computations ++ [⟨body, loc, stateVar, seed⟩] }

/-- Replace the last element of a list. -/
def setLast (l : List Str) (f : Str → Str) : List Str :=
  match l with
  | [] => []
  | [x] => [f x]
  | x :: rest => x :: setLast rest f

/-- The children array expression of `emitSubComponent` (`'[]'` when there
are no children). -/
def childrenExpr (ind : Str) (children : List Str) : Str :=
  let nl := '\r' :: '\n' :: ind
  let nli := nl ++ lit "    "
  let nlii := nli ++ lit "    "
  if children.isEmpty then lit "[]"
  else lit "[" ++ nlii ++ List.intercalate (lit "," ++ nlii) children ++ nli ++ lit "]"

/-- Render one property group as `emitSubComponent` does: a Mixin's compiled
expression verbatim, an object group as an object literal. -/
def renderGroup (ind : Str) : PropGroup → Str
  | PropGroup.str s => s
  | PropGroup.obj o =>
    let nl := '\r' :: '\n' :: ind
    let nli := nl ++ lit "    "
    lit "\x7b" ++ List.intercalate (lit ",")
      (o.map fun kv => nli ++ kv.1 ++ lit ": " ++ kv.2) ++ nl ++ lit "\x7d"

/-- Attach the children array to the first property group: prepend a fresh
`{ children }` group when the first group is a Mixin string, otherwise set
`children` on the first object (JS mutation of `properties0`).  `none` when
the property list is empty (JS reads `undefined`). -/
def attachChildren (groups : List PropGroup) (children : Str) :
    Option (List PropGroup) :=
  match groups with
  | [] => none
  | PropGroup.str s :: rest =>
    some (PropGroup.obj [(lit "children", children)] :: PropGroup.str s :: rest)
  | PropGroup.obj o :: rest =>
    some (PropGroup.obj (objSet o (lit "children") children) :: rest)

/-- `emitSubComponent(expr, indent)`.  Reading `expr.properties[0]` of an
empty property list gives `undefined` in JS and the subsequent
`properties0['children'] = …` throws a TypeError: modelled as an error. -/
def emitSubComponent (expr : SubComponent) (ind : Str) : Except Str Str :=
  match attachChildren expr.properties (childrenExpr ind expr.children) with
  | none => .error (lit "TypeError: cannot set property of undefined")
  | some groups =>
    let rendered := groups.map (renderGroup ind)
    -- needLibrary (computed after the children attachment, as in the source)
    let needLibrary := decide (groups.length > 1) ||
      (match groups.head? with
       | some (PropGroup.str _) => true
       | _ => false)
    if needLibrary then
      .ok (lit "Surplus.subcomponent(" ++ expr.name ++ lit ", [" ++
        List.intercalate (lit ", ") rendered ++ lit "])")
    else
      .ok (expr.name ++ lit "(" ++ (rendered.head?.getD []) ++ lit ")")

/-- `emitDOMExpression(code, indent)`. -/
def emitDOMExpression (opts : Params) (code : DOMExpression) (ind : Str) : Str :=
  let nl := '\r' :: '\n' :: ind
  let nli := nl ++ lit "    "
  let nlii := nli ++ lit "    "
  lit "(function () \x7b" ++ nli
    ++ lit "var " ++ List.intercalate (lit ", ") code.ids ++ lit ";" ++ nli
    ++ List.intercalate nli code.statements ++ nli
    ++ List.intercalate nli (code.computations.map fun comp =>
        let statements := if comp.stateVar.isSome then
            setLast comp.statements (fun s => lit "return " ++ s)
          else comp.statements
        let body := match statements with
          | [s] => ' ' :: s ++ [' ']
          | _ => nlii ++ List.intercalate nlii statements ++ nlii
        let code := lit "Surplus.S(function (" ++ (comp.stateVar.getD []) ++ lit ") \x7b"
          ++ body ++ lit "\x7d"
          ++ (match comp.seed with
              | some s => lit ", " ++ s
              | none => []) ++ lit ");"
        markLoc opts code comp.loc) ++ nli
    ++ lit "return __;" ++ nl
    ++ lit "\x7d)()"

/-- `buildStaticProperty(node, id)` (bundle form: no space before `;`). -/
def buildStaticProperty (name value id : Str) : Str :=
  id ++ lit "." ++ name ++ lit " = " ++ value ++ lit ";"

/-- `buildDynamicProperty(node, id, expr)`. -/
def buildDynamicProperty (name id expr : Str) : Str :=
  if name = lit "ref" then expr ++ lit " = " ++ id ++ lit ";"
  else id ++ lit "." ++ name ++ lit " = " ++ expr ++ lit ";"

/-- Index of the last `Mixin` in a property list (`mixins[mixins.length-1]`,
by reference identity, i.e. by position). -/
def lastMixinIdx (props : List HtmlProperty) : Option Nat :=
  ((enumF 0 props).filter fun iv => match iv.2 with
    | HtmlProperty.mixin _ _ => true
    | _ => false).getLast?.map (·.1)

/-- The `stmts` array (`properties.map`), with `buildMixin`'s id pushes. -/
def domStmtsGo (pes : List (HtmlProperty × Str)) (i : Nat) (id : Str) (n : Nat)
    (lastMix : Option Nat) (finalMixin : Bool) (dom : DOMExpression) :
    List Str × DOMExpression :=
  match pes with
  | [] => ([], dom)
  | (p, ex) :: rest =>
    let (stmt, dom) := match p with
      | .staticProperty name value => (buildStaticProperty name value id, dom)
      | .dynamicProperty name _ _ => (buildDynamicProperty name id ex, dom)
      | .mixin _ _ =>
        let isLast := lastMix = some i
        let (state, dom) := if isLast then (lit "__state", dom) else addId id (lit "mixin") n dom
        let setter := if isLast && finalMixin then [] else state ++ lit " = "
        (setter ++ lit "Surplus.spread(" ++ ex ++ lit ", " ++ id ++ lit ", " ++ state ++ lit ");",
          dom)
    let (tl, dom) := domStmtsGo rest (i + 1) id n lastMix finalMixin dom
    (stmt :: tl, dom)

/-! Structural size of the AST, used to pick ample fuel for the code
generator (whose recursion is fuelled so that the kernel can evaluate it). -/

mutual

def sizeEl : HtmlElement → Nat
  | .mk _ ps cs _ => 1 + sizeProps ps + sizeContent cs

def sizeProps : List HtmlProperty → Nat
  | [] => 0
  | p :: rest => sizeProp p + sizeProps rest

def sizeProp : HtmlProperty → Nat
  | .staticProperty _ _ => 1
  | .dynamicProperty _ c _ => 1 + sizeEC c
  | .mixin c _ => 1 + sizeEC c

def sizeContent : List HtmlContent → Nat
  | [] => 0
  | c :: rest => sizeChild c + sizeContent rest

def sizeChild : HtmlContent → Nat
  | .htmlText _ => 1
  | .htmlComment _ => 1
  | .htmlInsert c _ => 1 + sizeEC c
  | .element e => 1 + sizeEl e

def sizeEC : EmbeddedCode → Nat
  | .mk segs => 1 + sizeSegs segs

def sizeSegs : List CodeSegment → Nat
  | [] => 0
  | s :: rest => sizeSeg s + sizeSegs rest

def sizeSeg : CodeSegment → Nat
  | .codeText _ _ => 1
  | .element e => 1 + sizeEl e

end

mutual

/-- The `reduce` of `compileSegments`: each segment is compiled with the
code emitted so far as `previousCode`. -/
def compileSegmentsGo : Nat → Params → List CodeSegment → Str → Except Str Str
  | 0, _, _, _ => .error fuelErr
  | fuel + 1, opts, segs, res =>
    match segs with
    | [] => .ok res
    | s :: rest => do
      let piece ← compileSegment fuel opts s res
      compileSegmentsGo fuel opts rest (res ++ piece)

/-- `compileSegment(node, previousCode)`. -/
def compileSegment : Nat → Params → CodeSegment → Str → Except Str Str
  | 0, _, _, _ => .error fuelErr
  | fuel + 1, opts, seg, previousCode =>
    match seg with
    | .codeText t l => .ok (markBlockLocs opts t l)
    | .element e => compileHtmlElement fuel opts e (indentOf previousCode)

/-- `compileHtmlElement(node, indent)`. -/
def compileHtmlElement : Nat → Params → HtmlElement → Str → Except Str Str
  | 0, _, _, _ => .error fuelErr
  | fuel + 1, opts, e, ind =>
    match e with
    | .mk tag props content loc =>
      if upperStart tag then do
        let sc ← buildSubComponent fuel opts (.mk tag props content loc)
        let code ← emitSubComponent sc ind
        .ok (markLoc opts code loc)
      else if props.isEmpty && content.isEmpty then
        .ok (markLoc opts (lit "Surplus.createRootElement(\"" ++ tag ++ lit "\")") loc)
      else do
        let dom ← buildDOMExpression fuel opts (.mk tag props content loc)
        .ok (markLoc opts (emitDOMExpression opts dom ind) loc)

/-- `buildSubComponent(node)`. -/
def buildSubComponent : Nat → Params → HtmlElement → Except Str SubComponent
  | 0, _, _ => .error fuelErr
  | fuel + 1, opts, e =>
    match e with
    | .mk tag props content _ => do
      let groups ← subPropsGo fuel opts props []
      let children ← subChildrenGo fuel opts content []
      .ok ⟨tag, groups, children⟩

/-- The property-grouping `reduce` of `buildSubComponent`. -/
def subPropsGo : Nat → Params → List HtmlProperty → List PropGroup →
    Except Str (List PropGroup)
  | 0, _, _, _ => .error fuelErr
  | fuel + 1, opts, props, acc =>
    match props with
    | [] => .ok acc
    | p :: rest => do
      let value ← match p with
        | .staticProperty _ v => pure v
        | .dynamicProperty _ (.mk segs) _ => compileSegmentsGo fuel opts segs []
        | .mixin (.mk segs) _ => compileSegmentsGo fuel opts segs []
      let acc' := match p with
        | .mixin _ _ => acc ++ [PropGroup.str value]
        | _ =>
          let name := (propName? p).getD []
          match acc.getLast? with
          | none => acc ++ [PropGroup.obj [(name, value)]]
          | some (PropGroup.str _) => acc ++ [PropGroup.obj [(name, value)]]
          | some (PropGroup.obj o) => acc.dropLast ++ [PropGroup.obj (objSet o name value)]
      subPropsGo fuel opts rest acc'

/-- The children mapping of `buildSubComponent` (`filter(Boolean)` drops
empty strings at the end). -/
def subChildrenGo : Nat → Params → List HtmlContent → List Str →
    Except Str (List Str)
  | 0, _, _, _ => .error fuelErr
  | fuel + 1, opts, content, acc =>
    match content with
    | [] => .ok (acc.filter fun s => !s.isEmpty)
    | c :: rest => do
      let value ← match c with
        | .element e => compileHtmlElement fuel opts e []
        | .htmlText t => pure (codeStr (jsTrim t))
        | .htmlInsert (.mk segs) _ => compileSegmentsGo fuel opts segs []
        | .htmlComment t => pure (lit "document.createComment(" ++ codeStr t ++ lit ")")
      subChildrenGo fuel opts rest (acc ++ [value])

/-- `buildDOMExpression(top)`. -/
def buildDOMExpression : Nat → Params → HtmlElement → Except Str DOMExpression
  | 0, _, _ => .error fuelErr
  | fuel + 1, opts, e => buildHtmlElementB fuel opts e [] 0 ⟨[], [], []⟩

/-- `buildHtmlElement(node, parent, n)` of `buildDOMExpression`, threading
the mutated `ids`/`statements`/`computations`. -/
def buildHtmlElementB : Nat → Params → HtmlElement → Str → Nat → DOMExpression →
    Except Str DOMExpression
  | 0, _, _, _, _, _ => .error fuelErr
  | fuel + 1, opts, e, parent, n, dom =>
    match e with
    | .mk tag props content loc =>
      let (id, dom) := addId parent tag n dom
      if upperStart tag then do
        -- buildHtmlInsert(new HtmlInsert(new EmbeddedCode([node]), loc), parent, n):
        -- compileSegments of that one-element code equals
        -- compileHtmlElement(node, indent("")) and, the tag being uppercase,
        -- emitSubComponent(buildSubComponent(node), ""), inlined here.
        let (iid, dom) := addId parent (lit "insert") n dom
        let sc ← buildSubComponent fuel opts (.mk tag props content loc)
        let code ← emitSubComponent sc (indentOf [])
        let ins := markLoc opts code loc
        let range := lit "\x7b start: " ++ iid ++ lit ", end: " ++ iid ++ lit " \x7d"
        let dom := addStatement (iid ++ lit " = Surplus.createTextNode('', " ++ parent ++ lit ")") dom
        let dom := addComputation [lit "Surplus.insert(range, " ++ ins ++ lit ");"]
          (some (lit "range")) (some range) loc dom
        .ok dom
      else do
        let dom := addStatement (if parent.isEmpty then
            id ++ lit " = Surplus.createRootElement('" ++ tag ++ lit "')"
          else
            id ++ lit " = Surplus.createElement('" ++ tag ++ lit "', " ++ parent ++ lit ")") dom
        let exprs ← domExprsGo fuel opts props
        let lastMix := lastMixinIdx props
        let finalMixin := match lastMix with
          | some i => decide (i = props.length - 1)
          | none => props.isEmpty
        let dynamic := !(lastMix = none) || exprs.any fun ex => !noApparentSignals ex
        let (stmts, dom) := domStmtsGo (props.zip exprs) 0 id n lastMix finalMixin dom
        let dom := if !dynamic then stmts.foldl (fun d s => addStatement s d) dom else dom
        let dom ← buildChildrenGo fuel opts content id 0 dom
        if dynamic then
          let dom := if content.length > 0 then addStatement (lit "\n") dom else dom
          let stmts := if !(lastMix = none) && !finalMixin then stmts ++ [lit "__state"] else stmts
          .ok (addComputation stmts (if lastMix = none then none else some (lit "__state"))
            none loc dom)
        else .ok dom

/-- The `exprs` array: `''` for static properties, compiled code otherwise. -/
def domExprsGo : Nat → Params → List HtmlProperty → Except Str (List Str)
  | 0, _, _ => .error fuelErr
  | fuel + 1, opts, props =>
    match props with
    | [] => .ok []
    | p :: rest => do
      let ex ← match p with
        | .staticProperty _ _ => pure []
        | .dynamicProperty _ (.mk segs) _ => compileSegmentsGo fuel opts segs []
        | .mixin (.mk segs) _ => compileSegmentsGo fuel opts segs []
      let tl ← domExprsGo fuel opts rest
      .ok (ex :: tl)

/-- `content.forEach((c, i) => buildChild(c, id, i))`. -/
def buildChildrenGo : Nat → Params → List HtmlContent → Str → Nat → DOMExpression →
    Except Str DOMExpression
  | 0, _, _, _, _, _ => .error fuelErr
  | fuel + 1, opts, content, parent, i, dom =>
    match content with
    | [] => .ok dom
    | c :: rest => do
      let dom ← match c with
        | .element e => buildHtmlElementB fuel opts e parent i dom
        | .htmlComment t =>
          pure (addStatement (lit "Surplus.createComment(" ++ codeStr t ++ lit ", " ++
            parent ++ lit ")") dom)
        | .htmlText t =>
          pure (addStatement (lit "Surplus.createTextNode(" ++ codeStr t ++ lit ", " ++
            parent ++ lit ")") dom)
        | .htmlInsert (.mk segs) loc => do
          -- buildHtmlInsert(node, parent, n)
          let (iid, dom) := addId parent (lit "insert") i dom
          let ins ← compileSegmentsGo fuel opts segs []
          let range := lit "\x7b start: " ++ iid ++ lit ", end: " ++ iid ++ lit " \x7d"
          let dom := addStatement (iid ++ lit " = Surplus.createTextNode('', " ++ parent ++ lit ")") dom
          pure (addComputation [lit "Surplus.insert(range, " ++ ins ++ lit ");"]
            (some (lit "range")) (some range) loc dom)
      buildChildrenGo fuel opts rest parent (i + 1) dom

end

/-- `compile(ctl, opts)`: run the fuelled generator with ample fuel (the
call depth is bounded by a small multiple of the AST size). -/
def compile (opts : Params) (ctl : CodeTopLevel) : Except Str Str :=
  compileSegmentsGo (8 * (sizeSegs ctl.segments + 2)) opts ctl.segments []

/-! ## Source-map extraction -/

def vlqFinalDigits : Str := lit "ABCDEFGHIJKLMNOPQRSTUVWXYZabcdef"
def vlqContinuationDigits : Str := lit "ghijklmnopqrstuvwxyz0123456789+/"

/-- Base-32 digits of a number, least significant first (`num.toString(32)`
read in reverse).  Fuelled (`n + 1` always suffices: the quotient strictly
decreases). -/
def toDigits32Go : Nat → Nat → List Nat
  | 0, n => [n]
  | fuel + 1, n =>
    if n < 32 then [n]
    else n % 32 :: toDigits32Go fuel (n / 32)

def toDigits32 (n : Nat) : List Nat := toDigits32Go (n + 1) n

/-- `vlq(num)`: sign bit into the lsb, then base-32 digits least significant
first, continuation alphabet for all but the most significant digit. -/
def vlq (num : Int) : Str :=
  let m : Nat := if num < 0 then 2 * (-num).toNat + 1 else 2 * num.toNat
  let ds := toDigits32 m
  ds.dropLast.map (fun d => vlqContinuationDigits.getD d ' ') ++
    [vlqFinalDigits.getD (ds.getLast?.getD 0) ' ']

/-- One segment record of `extractMappings`.  `genColDelta`/`srcLineDelta`/
`srcColDelta` are the numbers the source vlq-encodes into the pushed segment
string; `genCol` is the source's local `generatedCol`; `commentCol` is an
observer (not in the source) recording the column in the output line at
which the replacement comment was inserted, for stating the bookkeeping
consistency claim. -/
structure SegmentRec where
  genColDelta : Int
  srcLineDelta : Int
  srcColDelta : Int
  genCol : Int
  commentCol : Nat

/-- Scanner state of `extractMappings`'s `replace` callback. -/
structure EMState where
  line : List SegmentRec
  lines : List (List SegmentRec)
  lastGeneratedCol : Int
  lastSourceLine : Int
  lastSourceCol : Int
  lineStartPos : Int
  lineMarksLength : Int
  pos : Nat
  out : Str
  outLineLen : Nat

def emInit : EMState := ⟨[], [], 0, 0, 0, 0, 0, 0, [], 0⟩

def isDigitCh (c : Char) : Bool := '0' ≤ c && c ≤ '9'

def natOfDigits (ds : Str) : Nat :=
  ds.foldl (fun a c => a * 10 + (c.toNat - 48)) 0

/-- Match `\u0000(\d+),(\d+)\u0000` at the head: `(line, col, match length)`. -/
def parseMark (s : Str) : Option (Nat × Nat × Nat) :=
  match s with
  | '\x00' :: rest =>
    if (rest.takeWhile isDigitCh).isEmpty then none
    else match rest.drop (rest.takeWhile isDigitCh).length with
      | ',' :: rest2 =>
        if (rest2.takeWhile isDigitCh).isEmpty then none
        else match rest2.drop (rest2.takeWhile isDigitCh).length with
          | '\x00' :: _ => some (natOfDigits (rest.takeWhile isDigitCh),
              natOfDigits (rest2.takeWhile isDigitCh),
              (rest.takeWhile isDigitCh).length + (rest2.takeWhile isDigitCh).length + 3)
          | _ => none
      | _ => none
  | _ => none

/-- The `replace(rx$4.locs, …)` scan: newlines close a line, marks emit one
segment each and are replaced by a `/*line,col*/` comment.  Fuelled (each
step consumes at least one character, so `s.length + 1` suffices). -/
def emScanGo : Nat → Str → EMState → EMState
  | 0, _, st => st
  | fuel + 1, s, st =>
    match s with
    | [] => st
    | c :: rest =>
      if c = '\n' then
        emScanGo fuel rest { st with
          lines := st.lines ++ [st.line], line := [],
          lineStartPos := (st.pos : Int) + 1, lineMarksLength := 0, lastGeneratedCol := 0,
          pos := st.pos + 1, out := st.out ++ ['\n'], outLineLen := 0 }
      else match parseMark (c :: rest) with
        | some (sourceLine, sourceCol, len) =>
          let generatedCol : Int := (st.pos : Int) - st.lineStartPos - st.lineMarksLength
          let seg : SegmentRec := {
            genColDelta := generatedCol - st.lastGeneratedCol,
            srcLineDelta := (sourceLine : Int) - st.lastSourceLine,
            srcColDelta := (sourceCol : Int) - st.lastSourceCol,
            genCol := generatedCol,
            commentCol := st.outLineLen }
          let comment := lit "/*" ++ natToStr sourceLine ++ [','] ++ natToStr sourceCol ++ lit "*/"
          emScanGo fuel ((c :: rest).drop len) { st with
            line := st.line ++ [seg],
            lineMarksLength := st.lineMarksLength - 2,
            lastGeneratedCol := generatedCol,
            lastSourceLine := (sourceLine : Int), lastSourceCol := (sourceCol : Int),
            pos := st.pos + len,
            out := st.out ++ comment,
            outLineLen := st.outLineLen + comment.length }
        | none =>
          emScanGo fuel rest { st with
            pos := st.pos + 1
            out := st.out ++ [c]
            outLineLen := st.outLineLen + 1 }

def emScan (s : Str) (st : EMState) : EMState := emScanGo (s.length + 1) s st

/-- Result of `extractMappings`: the stripped source, the rendered
`mappings`, and (for the claims) the structured segment lines. -/
structure ExtractResult where
  src : Str
  mappings : Str
  segLines : List (List SegmentRec)

/-- Render one pushed segment string
(`vlq(Δgen) + "A" + vlq(Δline) + vlq(Δcol)`). -/
def renderSeg (seg : SegmentRec) : Str :=
  vlq seg.genColDelta ++ lit "A" ++ vlq seg.srcLineDelta ++ vlq seg.srcColDelta

/-- `extractMappings(embedded)`. -/
def extractMappings (embedded : Str) : ExtractResult :=
  let st := emScan embedded emInit
  let lines := st.lines ++ [st.line]
  let mappings := List.intercalate [';']
    (lines.map fun l => List.intercalate [','] (l.map renderSeg))
  ⟨st.out, mappings, lines⟩

/-! Observers on the marked string, mirroring the scan structure of the
`replace(rx$4.locs, …)` callback: the number of location marks, the string
with every mark replaced by its `/*line,col*/` comment, and a canonicality
check (the digits of a mark are in the form `locationMark` writes them —
no leading zeros — so the replacement comment is exactly two characters
longer than the mark, as the `lineMarksLength -= 2` bookkeeping assumes). -/

/-- Number of `\u0000line,col\u0000` marks in the string. -/
def countMarksGo : Nat → Str → Nat
  | 0, _ => 0
  | fuel + 1, s =>
    match s with
    | [] => 0
    | c :: rest =>
      if c = '\n' then countMarksGo fuel rest
      else match parseMark (c :: rest) with
        | some (_, _, len) => 1 + countMarksGo fuel ((c :: rest).drop len)
        | none => countMarksGo fuel rest

def countMarks (s : Str) : Nat := countMarksGo (s.length + 1) s

/-- The string with every mark replaced by its `/*line,col*/` comment. -/
def replaceMarksGo : Nat → Str → Str
  | 0, _ => []
  | fuel + 1, s =>
    match s with
    | [] => []
    | c :: rest =>
      if c = '\n' then '\n' :: replaceMarksGo fuel rest
      else match parseMark (c :: rest) with
        | some (l, col, len) =>
          (lit "/*" ++ natToStr l ++ [','] ++ natToStr col ++ lit "*/") ++
            replaceMarksGo fuel ((c :: rest).drop len)
        | none => c :: replaceMarksGo fuel rest

def replaceMarks (s : Str) : Str := replaceMarksGo (s.length + 1) s

/-- Every mark's digits are written as `locationMark` writes them. -/
def canonicalMarksGo : Nat → Str → Bool
  | 0, _ => true
  | fuel + 1, s =>
    match s with
    | [] => true
    | c :: rest =>
      if c = '\n' then canonicalMarksGo fuel rest
      else match parseMark (c :: rest) with
        | some (l, col, len) =>
          (len == (natToStr l).length + (natToStr col).length + 3) &&
            canonicalMarksGo fuel ((c :: rest).drop len)
        | none => canonicalMarksGo fuel rest

def canonicalMarks (s : Str) : Bool := canonicalMarksGo (s.length + 1) s

/-- Each segment's encoded generated-column delta is the difference of its
generated column from the previous segment's (from `prev` for the first). -/
def deltasOk (prev : Int) : List SegmentRec → Bool
  | [] => true
  | seg :: rest => (seg.genColDelta == seg.genCol - prev) && deltasOk seg.genCol rest

/-- The per-line claims of C8: every segment's generated column equals the
output column of its replacement comment and is non-negative, the columns
strictly increase along the line, and the encoded deltas are consistent
with them. -/
def lineOk (l : List SegmentRec) : Prop :=
  (∀ seg ∈ l, seg.genCol = (seg.commentCol : Int) ∧ 0 ≤ seg.genCol) ∧
  List.Chain' (fun a b => a.genCol < b.genCol) l ∧
  deltasOk 0 l = true

/-- A concrete marked string (for the C8 witness): two generated lines,
three marks. -/
def C8example : Str := lit "ab\x001,2\x00c\nde\x003,4\x00\x005,6\x00f"

/-- The source map object (`createMap`). -/
structure SourceMap where
  version : Nat
  file : Str
  sources : List Str
  sourcesContent : List Str
  names : List Str
  mappings : Str

def createMap (mappings : Str) (original : Str) (opts : Params) : SourceMap :=
  ⟨3, opts.targetfile, [opts.sourcefile], [original], [], mappings⟩

/-- `extractMap(src, original, opts)`. -/
def extractMap (src original : Str) (opts : Params) : Str × SourceMap :=
  let ex := extractMappings src
  (ex.src, createMap ex.mappings original opts)

/-- Four lowercase hex digits. -/
def hex4 (n : Nat) : Str :=
  let dig := fun d => (lit "0123456789abcdef").getD d ' '
  [dig (n / 4096 % 16), dig (n / 256 % 16), dig (n / 16 % 16), dig (n % 16)]

/-- JSON string escaping (`JSON.stringify` on a string). -/
def jsonEscape (s : Str) : Str :=
  s.flatMap fun c =>
    if c = '"' then ['\\', '"']
    else if c = '\\' then ['\\', '\\']
    else if c = '\n' then ['\\', 'n']
    else if c = '\r' then ['\\', 'r']
    else if c = '\t' then ['\\', 't']
    else if c = '\x08' then ['\\', 'b']
    else if c = '\x0c' then ['\\', 'f']
    else if c.toNat < 0x20 then lit "\\u" ++ hex4 c.toNat
    else [c]

def jsonStr (s : Str) : Str := '"' :: jsonEscape s ++ ['"']

/-- `JSON.stringify` of the source-map object. -/
def jsonStringifyMap (m : SourceMap) : Str :=
  lit "\x7b\"version\":" ++ natToStr m.version ++
  lit ",\"file\":" ++ jsonStr m.file ++
  lit ",\"sources\":[" ++ List.intercalate [','] (m.sources.map jsonStr) ++
  lit "],\"sourcesContent\":[" ++ List.intercalate [','] (m.sourcesContent.map jsonStr) ++
  lit "],\"names\":[" ++ List.intercalate [','] (m.names.map jsonStr) ++
  lit "],\"mappings\":" ++ jsonStr m.mappings ++ lit "\x7d"

/-- `encodeURIComponent` (unreserved set `A-Za-z0-9-_.!~*'()`). -/
def encodeURIComponent (s : Str) : Str :=
  let unreserved := fun c => alphaChar c || ('0' ≤ c && c ≤ '9') || c = '-' ||
    c = '_' || c = '.' || c = '!' || c = '~' || c = '*' || c = '\'' ||
    c = '(' || c = ')'
  let hexU := fun d => (lit "0123456789ABCDEF").getD d ' '
  s.flatMap fun c =>
    if unreserved c then [c]
    else (String.utf8EncodeChar c).flatMap fun b =>
      ['%', hexU (b.toNat / 16), hexU (b.toNat % 16)]

/-- `appendMap(src, original, opts)`. -/
def appendMap (src original : Str) (opts : Params) : Str :=
  let ex := extractMap src original opts
  ex.1 ++ lit "\n//# sourceMappingURL=data:application/json," ++
    encodeURIComponent (jsonStringifyMap ex.2)

/-! ## Driver -/

/-- Result of `preprocess`: a plain string, or `{ src, map }` in extract
mode. -/
inductive POut where
  | str (s : Str)
  | withMap (src : Str) (map : SourceMap)

/-- `preprocess(str, opts)` with the options already defaulted into
`Params`. -/
def preprocess (str : Str) (opts : Params) : Except Str POut := do
  let toks := tokenize str
  let ast ← parse toks opts
  let ast2 := transform ast
  let code ← compile opts ast2
  match opts.sourcemap with
  | some SourcemapMode.extract =>
    let ex := extractMap code str opts
    .ok (POut.withMap ex.1 ex.2)
  | some SourcemapMode.append => .ok (POut.str (appendMap code str opts))
  | none => .ok (POut.str code)

/-- The defaulted options for a call `preprocess(str)` with no options:
jsx dialect, no sourcemap. -/
def jsxParams : Params := ⟨none, lit "in.js", lit "out.js", true⟩

/-- Defaulted options with `jsx: false` (native dialect), no sourcemap. -/
def nativeParams : Params := ⟨none, lit "in.js", lit "out.js", false⟩

/-! ## Observers used by the claim theorems -/

/-- The string result of a successful `preprocess` run (`[]` otherwise). -/
def outStr (r : Except Str POut) : Str :=
  match r with
  | .ok (POut.str s) => s
  | _ => []

/-- Substring occurrence. -/
def containsSub (s pat : Str) : Bool :=
  match s with
  | [] => pat.isEmpty
  | c :: rest => pat.isPrefixOf (c :: rest) || containsSub rest pat

/-! ## Property-uniqueness observers (for the post-transform invariant) -/

/-- Is the property a Mixin (spread)? -/
def isMixinProp : HtmlProperty → Bool
  | .mixin _ _ => true
  | _ => false

/-- The names of the non-Mixin properties, in order. -/
def nonMixinNames (props : List HtmlProperty) : List Str :=
  props.filterMap propName?

/-- No name occurs twice. -/
def nodupNames : List Str → Bool
  | [] => true
  | n :: rest => !(rest.contains n) && nodupNames rest

mutual

def elemPropsUnique : HtmlElement → Bool
  | .mk _ ps cs _ => nodupNames (nonMixinNames ps) && propsPropsUnique ps && contentPropsUnique cs

def propsPropsUnique : List HtmlProperty → Bool
  | [] => true
  | p :: rest => propPropsUnique p && propsPropsUnique rest

def propPropsUnique : HtmlProperty → Bool
  | .staticProperty _ _ => true
  | .dynamicProperty _ c _ => ecPropsUnique c
  | .mixin c _ => ecPropsUnique c

def contentPropsUnique : List HtmlContent → Bool
  | [] => true
  | c :: rest => childPropsUnique c && contentPropsUnique rest

def childPropsUnique : HtmlContent → Bool
  | .htmlText _ => true
  | .htmlComment _ => true
  | .htmlInsert c _ => ecPropsUnique c
  | .element e => elemPropsUnique e

def ecPropsUnique : EmbeddedCode → Bool
  | .mk segs => segsPropsUnique segs

def segsPropsUnique : List CodeSegment → Bool
  | [] => true
  | s :: rest => segPropsUnique s && segsPropsUnique rest

def segPropsUnique : CodeSegment → Bool
  | .codeText _ _ => true
  | .element e => elemPropsUnique e

end

/-- Every element anywhere in the tree has pairwise-distinct non-Mixin
property names. -/
def ctlPropsUnique (ctl : CodeTopLevel) : Bool := segsPropsUnique ctl.segments

/-! ## Parser-shape observers (for transform idempotence)

The parser reads each run of text tokens as one `HtmlText` child (the
`htmlText` loop stops only at a token that starts a non-text child or ends
the content), so no content list it produces holds two adjacent `HtmlText`
nodes.  `noAdjTexts` states that shape; the `elOk` family states it for
every content list in the tree. -/

/-- Is the child a Text node? -/
def isTextChild : HtmlContent → Bool
  | .htmlText _ => true
  | _ => false

/-- Is the head of the list a Text node? -/
def headText (l : List HtmlContent) : Bool :=
  match l.head? with
  | some c => isTextChild c
  | none => false

/-- No two adjacent Text nodes. -/
def noAdjTexts : List HtmlContent → Bool
  | [] => true
  | [_] => true
  | c1 :: c2 :: rest => !(isTextChild c1 && isTextChild c2) && noAdjTexts (c2 :: rest)

/-- The tokens at which the `htmlText` loop stops (besides end of stream
and the close tag): the next child is an element, a comment or an insert. -/
def textStop (jsx : Bool) (st : PState) : Bool :=
  st.eof || st.is (lit "<") || st.is (lit "<!--") || st.is (lit "</") ||
    (if jsx then st.is (lit "\x7b") else st.is (lit "@"))

mutual

def elOkEl : HtmlElement → Bool
  | .mk _ ps cs _ => elOkProps ps && elOkContent cs && noAdjTexts cs

def elOkProps : List HtmlProperty → Bool
  | [] => true
  | p :: rest => elOkProp p && elOkProps rest

def elOkProp : HtmlProperty → Bool
  | .staticProperty _ _ => true
  | .dynamicProperty _ c _ => elOkEC c
  | .mixin c _ => elOkEC c

def elOkContent : List HtmlContent → Bool
  | [] => true
  | c :: rest => elOkChild c && elOkContent rest

def elOkChild : HtmlContent → Bool
  | .htmlText _ => true
  | .htmlComment _ => true
  | .htmlInsert c _ => elOkEC c
  | .element e => elOkEl e

def elOkEC : EmbeddedCode → Bool
  | .mk segs => elOkSegs segs

def elOkSegs : List CodeSegment → Bool
  | [] => true
  | s :: rest => elOkSeg s && elOkSegs rest

def elOkSeg : CodeSegment → Bool
  | .codeText _ _ => true
  | .element e => elOkEl e

end

/-- Every content list anywhere in the tree has no adjacent Text nodes. -/
def ctlOk (ctl : CodeTopLevel) : Bool := elOkSegs ctl.segments

/-- Is the last child a Text node? -/
def lastTextChild (l : List HtmlContent) : Bool :=
  match l.getLast? with
  | some c => isTextChild c
  | none => false

/-! ## Grouping observers (subcomponent property groups) -/

/-- Is the group a standalone Mixin expression? -/
def isStrGroup : PropGroup → Bool
  | PropGroup.str _ => true
  | _ => false

/-- Does the group list end with an object group? -/
def endsWithObj (groups : List PropGroup) : Bool :=
  match groups.getLast? with
  | some (PropGroup.obj _) => true
  | _ => false

/-- Number of maximal runs of consecutive non-Mixin properties
(`prevNonMix`: the previous property was a non-Mixin). -/
def nonMixinRunCountGo (prevNonMix : Bool) : List HtmlProperty → Nat
  | [] => 0
  | p :: rest =>
    if isMixinProp p then nonMixinRunCountGo false rest
    else (if prevNonMix then 0 else 1) + nonMixinRunCountGo true rest

def nonMixinRunCount (ps : List HtmlProperty) : Nat := nonMixinRunCountGo false ps

/-! Token-stream scanners mirroring the mode structure of `codeTopLevel`:
the portion of the stream a quoted string / line comment / block comment
consumes, and a whole-stream check that no `<` token occurs outside those
modes and every string and block comment is terminated. -/

/-- Tokens a quoted string consumes (the loop of `quotedString`): the
accumulated text and the remaining stream; `none` when the stream ends
before an unescaped closing quote. -/
def strSplit : Str → Str → List Str → Option (Str × List Str)
  | _, _, [] => none
  | quote, text, t :: rest =>
    if t == quote && !stringEscapedEnd text then some (text ++ t, rest)
    else strSplit quote (text ++ t) rest

/-- Tokens a single-line comment consumes (ending at `"\n"` or at the end
of the stream, which is allowed). -/
def lcSplit : Str → List Str → Str × List Str
  | text, [] => (text, [])
  | text, t :: rest =>
    if t == lit "\n" then (text ++ t, rest)
    else lcSplit (text ++ t) rest

/-- Tokens a multi-line comment consumes; `none` when the stream ends
before `"*/"`. -/
def bcSplit : Str → List Str → Option (Str × List Str)
  | _, [] => none
  | text, t :: rest =>
    if t == lit "*/" then some (text ++ t, rest)
    else bcSplit (text ++ t) rest

/-- Top-mode scan of the token stream: fails on a `"<"` token outside
strings and comments and on an unterminated string or multi-line comment;
consumes strings and comments with the splitters above. -/
def plainScanGo : Nat → List Str → Bool
  | 0, _ => false
  | _ + 1, [] => true
  | fuel + 1, t :: rest =>
    if t == lit "<" then false
    else if t == lit "'" || t == lit "\"" then
      match strSplit t t rest with
      | none => false
      | some (_, rest2) => plainScanGo fuel rest2
    else if t == lit "//" then plainScanGo fuel (lcSplit t rest).2
    else if t == lit "/*" then
      match bcSplit t rest with
      | none => false
      | some (_, rest2) => plainScanGo fuel rest2
    else plainScanGo fuel rest

/-- A token stream is plain code: no element-opening `"<"` token outside
quoted strings and comments, and all strings and multi-line comments are
terminated (the fuel is ample: every step consumes at least one token). -/
def plainCodeOk (toks : List Str) : Bool := plainScanGo (toks.length + 1) toks

/-! ## Concrete inputs and outputs of the end-to-end scenarios -/

/-- `let x = <Foo a="1" {...m} b={y}/>;` -/
def C2input : Str := lit "let x = <Foo a=\"1\" \x7b...m\x7d b=\x7by\x7d/>;"

/-- What `preprocess` emits for `C2input` under the default options. -/
def C2output : Str :=
  lit "let x = Surplus.subcomponent(Foo, [\x7b\r\n    a: \"1\",\r\n    children: []\r\n\x7d, m, \x7b\r\n    b: y\r\n\x7d]);"

/-- `let x = <div onClick={f}>hi</div>;` -/
def C1input : Str := lit "let x = <div onClick=\x7bf\x7d>hi</div>;"

/-- What `preprocess` emits for `C1input` under the default options. -/
def C1output : Str :=
  lit "let x = (function () \x7b\r\n    var __;\r\n    __ = Surplus.createRootElement(\x27div\x27)\r\n    __.onclick = f;\r\n    __.textContent = \x27hi\x27;\r\n    \r\n    return __;\r\n\x7d)();"

/-- `let x = <div>&amp;&#65;</div>;` -/
def C5input : Str := lit "let x = <div>&amp;&#65;</div>;"

/-- What `preprocess` emits for `C5input` in the native dialect. -/
def C5output : Str :=
  lit "let x = (function () \x7b\r\n    var __;\r\n    __ = Surplus.createRootElement(\x27div\x27)\r\n    __.textContent = \x27&amp;&#65;\x27;\r\n    \r\n    return __;\r\n\x7d)();"

/-- An element whose first child is a whitespace-only text followed by a
nested element. -/
def C10element : HtmlElement :=
  .mk (lit "div") [] [HtmlContent.htmlText (lit " "),
    HtmlContent.element (.mk (lit "span") [] [] ⟨0, 0, 0⟩)] ⟨0, 0, 0⟩

/-! # Theorems -/

theorem tokenizeGo_join (fuel : Nat) (s : Str) (h : s.length < fuel) :
    (tokenizeGo fuel s).flatten = s := by
  induction fuel generalizing s with
  | zero => omega
  | succ fuel ih =>
    match s with
    | [] => simp [tokenizeGo]
    | c :: rest =>
      rw [tokenizeGo]
      simp only [List.flatten_cons]
      rw [ih]
      · exact List.take_append_drop _ _
      · simp only [List.length_drop, List.length_cons]
        simp only [List.length_cons] at h
        omega

/-- The tokens tile the input: concatenating them restores the string. -/
theorem tokenize_join (s : Str) : (tokenize s).flatten = s :=
  tokenizeGo_join _ s (Nat.lt_succ_self _)

/-! ## C4 : helper lemmas on `lastid` and `removeDuplicateProps` -/

theorem assocGet_assocSet_self (m : List (Str × Nat)) (k : Str) (v : Nat) :
    assocGet (assocSet m k v) k = some v := by
  induction m with
  | nil => simp [assocSet, assocGet]
  | cons kv rest ih =>
    by_cases h : kv.1 = k
    · simp [assocSet, assocGet, h]
    · simp [assocSet, assocGet, h, ih]

theorem assocGet_assocSet_ne (m : List (Str × Nat)) (k k' : Str) (v : Nat)
    (h : k' ≠ k) : assocGet (assocSet m k v) k' = assocGet m k' := by
  induction m with
  | nil => simp [assocSet, assocGet, Ne.symm h]
  | cons kv rest ih =>
    by_cases h1 : kv.1 = k
    · simp [assocSet, assocGet, h1, Ne.symm h]
    · by_cases h2 : kv.1 = k'
      · simp [assocSet, assocGet, h1, h2, h]
      · simp [assocSet, assocGet, h1, h2, ih]

theorem enumF_append (k : Nat) (l1 l2 : List HtmlProperty) :
    enumF k (l1 ++ l2) = enumF k l1 ++ enumF (k + l1.length) l2 := by
  induction l1 generalizing k with
  | nil => simp [enumF]
  | cons p rest ih =>
    simp only [List.cons_append, enumF, List.length_cons, List.append_eq]
    rw [ih (k + 1)]
    have harith : k + (rest.length + 1) = k + 1 + rest.length := by omega
    rw [harith]

theorem enumF_map_snd (k : Nat) (l : List HtmlProperty) :
    (enumF k l).map (·.2) = l := by
  induction l generalizing k with
  | nil => rfl
  | cons p rest ih => simp [enumF, ih]

theorem mem_enumF_lt (k : Nat) (l : List HtmlProperty) (iv : Nat × HtmlProperty)
    (h : iv ∈ enumF k l) : k ≤ iv.1 ∧ iv.1 < k + l.length := by
  induction l generalizing k with
  | nil => simp [enumF] at h
  | cons p rest ih =>
    simp only [enumF, List.mem_cons] at h
    rcases h with h | h
    · subst h; simp
    · have := ih (k + 1) h
      simp only [List.length_cons]
      omega

theorem lastid_snoc (props : List HtmlProperty) (p : HtmlProperty) :
    lastid (props ++ [p]) =
      (match propName? p with
       | some n => assocSet (lastid props) n props.length
       | none => lastid props) := by
  unfold lastid
  rw [enumF_append, List.foldl_append]
  simp only [enumF, List.foldl_cons, List.foldl_nil, Nat.zero_add]

theorem filter_map_snd (l : List (Nat × HtmlProperty)) (p : HtmlProperty → Bool) :
    (l.map (·.2)).filter p = (l.filter fun iv => p iv.2).map (·.2) := by
  induction l with
  | nil => rfl
  | cons iv rest ih =>
    by_cases h : p iv.2
    · simp [List.filter_cons, h, ih]
    · simp [List.filter_cons, h, ih]

/-- The snoc characterization of `removeDuplicateProperties`: appending a
property keeps it and erases any earlier non-Mixin bearing its name. -/
theorem dedup_snoc (props : List HtmlProperty) (p : HtmlProperty) :
    removeDuplicateProps (props ++ [p]) =
      (match propName? p with
       | some n => (removeDuplicateProps props).filter fun q => decide (propName? q ≠ some n)
       | none => removeDuplicateProps props) ++ [p] := by
  unfold removeDuplicateProps
  rw [enumF_append, List.filter_append, List.map_append, lastid_snoc]
  match hp : propName? p with
  | none =>
    simp only [hp]
    congr 1
    simp [enumF, hp]
  | some n =>
    simp only [hp]
    congr 1
    · rw [filter_map_snd, List.filter_filter]
      apply congrArg
      apply List.filter_congr
      intro iv hiv
      have hlt := (mem_enumF_lt 0 props iv hiv).2
      simp only [Nat.zero_add] at hlt
      match hq : propName? iv.2 with
      | none => simp
      | some m =>
        by_cases hmn : m = n
        · subst hmn
          have hne : ¬(assocGet (assocSet (lastid props) m props.length) m = some iv.1) := by
            rw [assocGet_assocSet_self]
            intro hc
            injection hc with hc
            omega
          simp [hne]
        · have hgets := assocGet_assocSet_ne (lastid props) n m props.length hmn
          simp [hgets, hmn]
    · simp [enumF, hp, assocGet_assocSet_self]

theorem dedup_snoc_named (props : List HtmlProperty) (p : HtmlProperty) (n : Str)
    (hp : propName? p = some n) :
    removeDuplicateProps (props ++ [p]) =
      (removeDuplicateProps props).filter (fun q => decide (propName? q ≠ some n)) ++ [p] := by
  have h := dedup_snoc props p
  rw [hp] at h
  exact h

theorem dedup_snoc_mixin (props : List HtmlProperty) (p : HtmlProperty)
    (hp : propName? p = none) :
    removeDuplicateProps (props ++ [p]) = removeDuplicateProps props ++ [p] := by
  have h := dedup_snoc props p
  rw [hp] at h
  exact h

theorem filter_filter_of_imp (l : List HtmlProperty) (f g : HtmlProperty → Bool)
    (h : ∀ x, g x = true → f x = true) : (l.filter f).filter g = l.filter g := by
  induction l with
  | nil => rfl
  | cons x rest ih =>
    by_cases hf : f x
    · by_cases hg : g x <;> simp [List.filter_cons, hf, hg, ih]
    · have hg : g x = false := by
        cases hgx : g x
        · rfl
        · exact absurd (h x hgx) (by simp [hf])
      simp [List.filter_cons, hf, hg, ih]

theorem filter_filter_of_incompat (l : List HtmlProperty) (f g : HtmlProperty → Bool)
    (h : ∀ x, f x = true → g x = false) : (l.filter f).filter g = [] := by
  induction l with
  | nil => rfl
  | cons x rest ih =>
    by_cases hf : f x
    · simp [List.filter_cons, hf, h x hf, ih]
    · simp [List.filter_cons, hf, ih]

theorem dedup_nil : removeDuplicateProps [] = [] := rfl

/-- C4 helper: filtering the deduplicated list by one name yields exactly the
last occurrence of that name. -/
theorem dedup_keeps_last (props : List HtmlProperty) (n : Str) :
    (removeDuplicateProps props).filter (fun q => decide (propName? q = some n)) =
      ((props.filter fun q => decide (propName? q = some n)).getLast?).toList := by
  induction props using List.reverseRecOn with
  | nil => simp [dedup_nil]
  | append_singleton ps p ih =>
    match hp : propName? p with
    | none =>
      rw [dedup_snoc_mixin ps p hp]
      have hpn : (decide (propName? p = some n)) = false := by simp [hp]
      simp [List.filter_append, List.filter_cons, hpn, ih]
    | some m =>
      by_cases hmn : m = n
      · subst hmn
        rw [dedup_snoc_named ps p m hp]
        have hpn : (decide (propName? p = some m)) = true := by simp [hp]
        simp only [List.filter_append, List.filter_cons, List.filter_nil, hpn, if_pos trivial]
        rw [filter_filter_of_incompat]
        · simp [List.getLast?_concat]
        · intro x hx
          simp only [decide_eq_true_eq] at hx ⊢
          simp [hx]
      · rw [dedup_snoc_named ps p m hp]
        have hpn : (decide (propName? p = some n)) = false := by simp [hp, hmn]
        rw [List.filter_append, filter_filter_of_imp]
        · simp [List.filter_cons, hpn, ih]
        · intro x hx
          simp only [decide_eq_true_eq] at hx ⊢
          rw [hx]
          intro hc
          injection hc with hc
          exact hmn hc.symm

/-- C4 helper: Mixins are exempt from deduplication — all are retained. -/
theorem dedup_mixins_retained (props : List HtmlProperty) :
    (removeDuplicateProps props).filter isMixinProp = props.filter isMixinProp := by
  induction props using List.reverseRecOn with
  | nil => simp [dedup_nil]
  | append_singleton ps p ih =>
    match hp : propName? p with
    | none =>
      rw [dedup_snoc_mixin ps p hp]
      simp only [List.filter_append, ih]
    | some m =>
      rw [dedup_snoc_named ps p m hp]
      have hpm : isMixinProp p = false := by
        cases p <;> simp_all [propName?, isMixinProp]
      rw [List.filter_append, filter_filter_of_imp]
      · simp [List.filter_cons, ih, hpm]
      · intro x hx
        have hxn : propName? x = none := by
          cases x <;> simp_all [propName?, isMixinProp]
        simp [hxn]

theorem nonMixinNames_append (l1 l2 : List HtmlProperty) :
    nonMixinNames (l1 ++ l2) = nonMixinNames l1 ++ nonMixinNames l2 := by
  simp [nonMixinNames]

theorem nodupNames_iff (l : List Str) : nodupNames l = true ↔ l.Nodup := by
  induction l with
  | nil => simp [nodupNames]
  | cons n rest ih =>
    simp only [nodupNames, Bool.and_eq_true, Bool.not_eq_true', List.nodup_cons, ih,
      List.contains, List.elem_eq_mem, decide_eq_false_iff_not]

/-- C4 helper: after deduplication the non-Mixin names are pairwise
distinct. -/
theorem dedup_names_nodup (props : List HtmlProperty) :
    (nonMixinNames (removeDuplicateProps props)).Nodup := by
  induction props using List.reverseRecOn with
  | nil => simp [dedup_nil, nonMixinNames]
  | append_singleton ps p ih =>
    match hp : propName? p with
    | none =>
      rw [dedup_snoc_mixin ps p hp]
      simp only [nonMixinNames_append]
      have hsing : nonMixinNames [p] = [] := by simp [nonMixinNames, hp]
      simp [hsing, ih]
    | some m =>
      rw [dedup_snoc_named ps p m hp]
      simp only [nonMixinNames_append]
      have hsing : nonMixinNames [p] = [m] := by simp [nonMixinNames, hp]
      rw [hsing, List.nodup_append]
      refine ⟨?_, List.nodup_singleton m, ?_⟩
      · have hsub : List.Sublist ((removeDuplicateProps ps).filter
            (fun q => decide (propName? q ≠ some m))) (removeDuplicateProps ps) :=
          List.filter_sublist _
        exact ih.sublist (hsub.filterMap propName?)
      · intro a ha hb
        simp only [List.mem_singleton] at hb
        subst hb
        simp only [nonMixinNames, List.mem_filterMap] at ha
        obtain ⟨q, hq, hqn⟩ := ha
        have hne := List.of_mem_filter hq
        simp only [decide_eq_true_eq] at hne
        exact hne hqn

theorem propsPropsUnique_eq_all (l : List HtmlProperty) :
    propsPropsUnique l = l.all propPropsUnique := by
  induction l with
  | nil => rfl
  | cons p rest ih => simp [propsPropsUnique, ih]

theorem contentPropsUnique_eq_all (l : List HtmlContent) :
    contentPropsUnique l = l.all childPropsUnique := by
  induction l with
  | nil => rfl
  | cons c rest ih => simp [contentPropsUnique, ih]

theorem all_of_sublist {α : Type} (p : α → Bool) {l1 l2 : List α}
    (h : List.Sublist l1 l2) (hall : l2.all p = true) : l1.all p = true := by
  simp only [List.all_eq_true] at hall ⊢
  exact fun x hx => hall x (h.subset hx)

theorem dedup_sublist (props : List HtmlProperty) :
    List.Sublist (removeDuplicateProps props) props := by
  unfold removeDuplicateProps
  have h1 := (List.filter_sublist (p := fun iv => match propName? iv.2 with
    | none => true
    | some n => decide (assocGet (lastid props) n = some iv.1)) (enumF 0 props)).map
    (fun iv : Nat × HtmlProperty => iv.2)
  rwa [enumF_map_snd] at h1

theorem propPropsUnique_translateProp (p : HtmlProperty) :
    propPropsUnique (translateProp p) = propPropsUnique p := by
  cases p <;> rfl

theorem elemPropsUnique_dedupEl (t : Str) (P2 : List HtmlProperty)
    (C2 : List HtmlContent) (l : LOC)
    (hP : propsPropsUnique P2 = true) (hC : contentPropsUnique C2 = true) :
    elemPropsUnique (removeDuplicatePropertiesEl (.mk t P2 C2 l)) = true := by
  simp only [removeDuplicatePropertiesEl, elemPropsUnique, Bool.and_eq_true]
  refine ⟨⟨?_, ?_⟩, hC⟩
  · exact (nodupNames_iff _).mpr (dedup_names_nodup P2)
  · rw [propsPropsUnique_eq_all] at hP ⊢
    exact all_of_sublist _ (dedup_sublist P2) hP

theorem elemPropsUnique_nodeOps (t : Str) (P : List HtmlProperty)
    (C : List HtmlContent) (l : LOC)
    (hP : propsPropsUnique P = true) (hC : contentPropsUnique C = true) :
    elemPropsUnique (nodeOps (.mk t P C l)) = true := by
  have hP1 : propsPropsUnique (translatePropsIfHtml t P) = true := by
    unfold translatePropsIfHtml
    by_cases hl : lowerStart t = true
    · simp only [hl, if_pos trivial]
      rw [propsPropsUnique_eq_all, List.all_map] at *
      simp only [List.all_eq_true, Function.comp] at hP ⊢
      intro x hx
      rw [propPropsUnique_translateProp]
      exact hP x hx
    · simp only [hl]
      simpa using hP
  have hC1 : contentPropsUnique (C.filter fun c => !isWsText c) = true := by
    rw [contentPropsUnique_eq_all] at hC ⊢
    exact all_of_sublist _ (List.filter_sublist C) hC
  show elemPropsUnique (removeDuplicatePropertiesEl (promoteInitialTextNodesEl
    (.mk t (translatePropsIfHtml t P) (C.filter fun c => !isWsText c) l))) = true
  unfold promoteInitialTextNodesEl
  cases hshape : (C.filter fun c => !isWsText c) with
  | nil => exact elemPropsUnique_dedupEl t _ _ l hP1 (by simp [contentPropsUnique])
  | cons c rest =>
    rw [hshape] at hC1
    have hcrest : contentPropsUnique rest = true := by
      simp only [contentPropsUnique, Bool.and_eq_true] at hC1
      exact hC1.2
    cases c with
    | htmlText s =>
      by_cases hl : lowerStart t = true
      · simp only [hl, if_pos trivial]
        apply elemPropsUnique_dedupEl
        · rw [propsPropsUnique_eq_all, List.all_append, Bool.and_eq_true]
          refine ⟨?_, by simp [propPropsUnique]⟩
          rw [← propsPropsUnique_eq_all]
          exact hP1
        · exact hcrest
      · simp only [hl]
        exact elemPropsUnique_dedupEl t _ _ l hP1 hC1
    | htmlComment s => exact elemPropsUnique_dedupEl t _ _ l hP1 hC1
    | htmlInsert code cl => exact elemPropsUnique_dedupEl t _ _ l hP1 hC1
    | element e => exact elemPropsUnique_dedupEl t _ _ l hP1 hC1

mutual

theorem transformElement_unique : ∀ e : HtmlElement,
    elemPropsUnique (transformElement e) = true
  | .mk t ps cs l =>
    elemPropsUnique_nodeOps t _ _ l (transformProps_unique ps) (transformContent_unique cs)

theorem transformProps_unique : ∀ ps : List HtmlProperty,
    propsPropsUnique (transformProps ps) = true
  | [] => rfl
  | p :: rest => by
    have h1 := transformProp_unique p
    have h2 := transformProps_unique rest
    simp only [transformProps, propsPropsUnique, h1, h2, Bool.and_self]

theorem transformProp_unique : ∀ p : HtmlProperty,
    propPropsUnique (transformProp p) = true
  | .staticProperty _ _ => rfl
  | .dynamicProperty _ c _ => transformEC_unique c
  | .mixin c _ => transformEC_unique c

theorem transformContent_unique : ∀ cs : List HtmlContent,
    contentPropsUnique (transformContent cs) = true
  | [] => rfl
  | c :: rest => by
    have h1 := transformChild_unique c
    have h2 := transformContent_unique rest
    simp only [transformContent, contentPropsUnique, h1, h2, Bool.and_self]

theorem transformChild_unique : ∀ c : HtmlContent,
    childPropsUnique (transformChild c) = true
  | .htmlText _ => rfl
  | .htmlComment _ => rfl
  | .htmlInsert c _ => transformEC_unique c
  | .element e => transformElement_unique e

theorem transformEC_unique : ∀ c : EmbeddedCode,
    ecPropsUnique (transformEC c) = true
  | .mk segs => transformSegments_unique segs

theorem transformSegments_unique : ∀ ss : List CodeSegment,
    segsPropsUnique (transformSegments ss) = true
  | [] => rfl
  | s :: rest => by
    have h1 := transformSegment_unique s
    have h2 := transformSegments_unique rest
    simp only [transformSegments, segsPropsUnique, h1, h2, Bool.and_self]

theorem transformSegment_unique : ∀ s : CodeSegment,
    segPropsUnique (transformSegment s) = true
  | .codeText _ _ => rfl
  | .element e => transformElement_unique e

end

/-! ## C4 -/

/-- C4: after the transform pipeline runs, every element in the resulting
AST (including elements nested inside embedded code) has pairwise-distinct
non-Mixin property names; `removeDuplicateProperties` keeps, for each name,
exactly the last occurrence in source order; Mixin (spread) properties are
exempt from deduplication and all retained. -/
theorem C4_property_uniqueness :
    (∀ ctl : CodeTopLevel, ctlPropsUnique (transform ctl) = true) ∧
    (∀ (props : List HtmlProperty) (n : Str),
      (removeDuplicateProps props).filter (fun q => decide (propName? q = some n)) =
        ((props.filter fun q => decide (propName? q = some n)).getLast?).toList) ∧
    (∀ props : List HtmlProperty,
      (removeDuplicateProps props).filter isMixinProp = props.filter isMixinProp) :=
  ⟨fun ctl => transformSegments_unique ctl.segments, dedup_keeps_last,
    dedup_mixins_retained⟩

/-! ## C2 : helper lemmas on subcomponent property grouping -/

/-- The grouping `reduce` of `buildSubComponent`: each Mixin contributes one
standalone string group, each maximal run of consecutive non-Mixin
properties contributes one object group. -/
theorem subPropsGo_counts :
    ∀ (fuel : Nat) (opts : Params) (ps : List HtmlProperty) (acc groups : List PropGroup),
    subPropsGo fuel opts ps acc = .ok groups →
    (groups.filter isStrGroup).length =
      (acc.filter isStrGroup).length + (ps.filter isMixinProp).length ∧
    (groups.filter fun g => !isStrGroup g).length =
      (acc.filter fun g => !isStrGroup g).length +
        nonMixinRunCountGo (endsWithObj acc) ps := by
  intro fuel
  induction fuel with
  | zero => intro opts ps acc groups h; exact absurd h (by simp [subPropsGo])
  | succ fuel ih =>
    intro opts ps acc groups h
    match ps with
    | [] =>
      simp only [subPropsGo, Except.ok.injEq] at h
      subst h
      simp [nonMixinRunCountGo]
    | p :: rest =>
      match p with
      | .staticProperty nm v =>
        simp only [subPropsGo, pure, Except.pure, Except.bind] at h
        rcases (ih opts rest _ groups h) with ⟨h1, h2⟩
        constructor
        · rw [h1]
          match hlast : acc.getLast? with
          | none =>
            have hae : acc = [] := by simpa using hlast
            subst hae
            simp [List.filter_append, isStrGroup, isMixinProp, nonMixinRunCountGo]
          | some (PropGroup.str s) =>
            simp [List.filter_append, isStrGroup, isMixinProp]
          | some (PropGroup.obj o) =>
            obtain ⟨ys, hys⟩ := List.getLast?_eq_some_iff.mp hlast
            subst hys
            simp [List.dropLast_concat, List.filter_append, isStrGroup, isMixinProp]
        · rw [h2]
          match hlast : acc.getLast? with
          | none =>
            have hae : acc = [] := by simpa using hlast
            subst hae
            simp [List.filter_append, isStrGroup, isMixinProp, nonMixinRunCountGo,
              endsWithObj, List.getLast?_concat]
          | some (PropGroup.str s) =>
            simp [List.filter_append, isStrGroup, isMixinProp, nonMixinRunCountGo,
              endsWithObj, List.getLast?_concat, hlast] <;> omega
          | some (PropGroup.obj o) =>
            obtain ⟨ys, hys⟩ := List.getLast?_eq_some_iff.mp hlast
            subst hys
            simp [List.dropLast_concat, List.filter_append, isStrGroup, isMixinProp,
              nonMixinRunCountGo, endsWithObj, List.getLast?_concat]
      | .dynamicProperty nm c lc =>
        match c with
        | .mk segs =>
          simp only [subPropsGo, bind, Except.bind] at h
          match hcs : compileSegmentsGo fuel opts segs [] with
          | .error e => rw [hcs] at h; exact absurd h (by simp)
          | .ok v =>
            rw [hcs] at h
            rcases (ih opts rest _ groups h) with ⟨h1, h2⟩
            constructor
            · rw [h1]
              match hlast : acc.getLast? with
              | none =>
                have hae : acc = [] := by simpa using hlast
                subst hae
                simp [List.filter_append, isStrGroup, isMixinProp, nonMixinRunCountGo]
              | some (PropGroup.str s) =>
                simp [List.filter_append, isStrGroup, isMixinProp]
              | some (PropGroup.obj o) =>
                obtain ⟨ys, hys⟩ := List.getLast?_eq_some_iff.mp hlast
                subst hys
                simp [List.dropLast_concat, List.filter_append, isStrGroup, isMixinProp]
            · rw [h2]
              match hlast : acc.getLast? with
              | none =>
                have hae : acc = [] := by simpa using hlast
                subst hae
                simp [List.filter_append, isStrGroup, isMixinProp, nonMixinRunCountGo,
                  endsWithObj, List.getLast?_concat]
              | some (PropGroup.str s) =>
                simp [List.filter_append, isStrGroup, isMixinProp, nonMixinRunCountGo,
                  endsWithObj, List.getLast?_concat, hlast] <;> omega
              | some (PropGroup.obj o) =>
                obtain ⟨ys, hys⟩ := List.getLast?_eq_some_iff.mp hlast
                subst hys
                simp [List.dropLast_concat, List.filter_append, isStrGroup, isMixinProp,
                  nonMixinRunCountGo, endsWithObj, List.getLast?_concat]
      | .mixin c lc =>
        match c with
        | .mk segs =>
          simp only [subPropsGo, bind, Except.bind] at h
          match hcs : compileSegmentsGo fuel opts segs [] with
          | .error e => rw [hcs] at h; exact absurd h (by simp)
          | .ok v =>
            rw [hcs] at h
            rcases (ih opts rest _ groups h) with ⟨h1, h2⟩
            refine ⟨?_, ?_⟩
            · rw [h1]
              simp [List.filter_append, isStrGroup, isMixinProp, nonMixinRunCountGo]
              omega
            · rw [h2]
              simp [List.filter_append, isStrGroup, isMixinProp, nonMixinRunCountGo,
                endsWithObj, List.getLast?_concat]

/-- C2, counterexample: on the claim's own example
`let x = <Foo a="1" \x7b...m\x7d b=\x7by\x7d/>;` the emitted code does not
contain the claimed substring
`Surplus.subcomponent(Foo, [\x7b a: \x271\x27, children: [] \x7d, m, \x7b b: y \x7d])`
(the real output spreads the object groups over `\r\n`-indented lines and
keeps the static value verbatim with its double quotes, `a: "1"`), and the
claimed one-group/many-group dichotomy also fails at zero property groups:
`<Foo/>` makes `emitSubComponent` read `properties[0]` of an empty list
(`undefined`) and throw, rather than emit anything. -/
theorem C2_counterexample :
    preprocess C2input jsxParams = .ok (POut.str C2output) ∧
    containsSub C2output
      (lit "Surplus.subcomponent(Foo, [\x7b a: \x271\x27, children: [] \x7d, m, \x7b b: y \x7d])")
      = false ∧
    preprocess (lit "let x = <Foo/>;") jsxParams =
      .error (lit "TypeError: cannot set property of undefined") :=
  ⟨rfl, by decide, rfl⟩

/-- C2, amended: for an uppercase-tag element, `buildSubComponent`
groups each maximal run of consecutive non-Mixin properties into one
object group and each Mixin into one standalone string group (counts
stated over `subPropsGo`); `emitSubComponent` then throws a TypeError
when there are no groups at all, emits `Name(object)` when there is
exactly one (necessarily object) group, and emits
`Surplus.subcomponent(Name, [group, group, ...])` when there are two or
more groups or the first group is a Mixin string; on the claim's example
the output contains `Surplus.subcomponent(Foo, [` (the groups are laid
out over indented lines, not in the claimed single-line form). -/
theorem C2_subcomponent_grouping :
    (∀ (fuel : Nat) (opts : Params) (ps : List HtmlProperty)
       (groups : List PropGroup),
      subPropsGo fuel opts ps [] = .ok groups →
      (groups.filter isStrGroup).length = (ps.filter isMixinProp).length ∧
      (groups.filter fun g => !isStrGroup g).length = nonMixinRunCount ps) ∧
    (∀ (expr : SubComponent) (ind : Str),
      expr.properties = [] →
      emitSubComponent expr ind =
        .error (lit "TypeError: cannot set property of undefined")) ∧
    (∀ (expr : SubComponent) (ind : Str) (o : List (Str × Str)),
      expr.properties = [PropGroup.obj o] →
      emitSubComponent expr ind = .ok (expr.name ++ lit "(" ++
        renderGroup ind (PropGroup.obj
          (objSet o (lit "children") (childrenExpr ind expr.children))) ++
        lit ")")) ∧
    (∀ (expr : SubComponent) (ind : Str),
      2 ≤ expr.properties.length ∨
        (∃ s, expr.properties.head? = some (PropGroup.str s)) →
      ∃ gs, attachChildren expr.properties (childrenExpr ind expr.children) =
          some gs ∧
        emitSubComponent expr ind = .ok (lit "Surplus.subcomponent(" ++
          expr.name ++ lit ", [" ++
          List.intercalate (lit ", ") (gs.map (renderGroup ind)) ++
          lit "])")) ∧
    preprocess C2input jsxParams = .ok (POut.str C2output) ∧
    containsSub C2output (lit "Surplus.subcomponent(Foo, [") = true := by
  refine ⟨?_, ?_, ?_, ?_, rfl, by decide⟩
  · intro fuel opts ps groups h
    have hc := subPropsGo_counts fuel opts ps [] groups h
    simpa [nonMixinRunCount, endsWithObj] using hc
  · intro expr ind h
    simp [emitSubComponent, attachChildren, h]
  · intro expr ind o h
    simp [emitSubComponent, attachChildren, h, renderGroup]
  · intro expr ind h
    match hp : expr.properties with
    | [] =>
      rw [hp] at h
      rcases h with h | ⟨s, h⟩
      · exact absurd h (by decide)
      · exact absurd h (by simp)
    | PropGroup.str s :: rest =>
      refine ⟨_, rfl, ?_⟩
      simp [emitSubComponent, hp, attachChildren]
    | PropGroup.obj o :: rest =>
      refine ⟨_, rfl, ?_⟩
      have hrest : rest ≠ [] := by
        rw [hp] at h
        rcases h with h | ⟨s, h⟩
        · intro hr; rw [hr] at h; exact absurd h (by simp)
        · exact absurd h (by simp)
      simp [emitSubComponent, hp, attachChildren]
      match rest with
      | [] => exact absurd rfl hrest
      | r :: rs => simp

/-- C2, witness: the amended theorem applied at concrete inputs — a
single static property groups into one object group; `emitSubComponent`
throws on the empty property list, applies the name directly for one
object group, and produces the `Surplus.subcomponent` form when the
first group is a Mixin string. -/
theorem C2_subcomponent_grouping_witness :
    ((([PropGroup.obj [(lit "a", lit "x")]] :
          List PropGroup).filter isStrGroup).length =
        (([HtmlProperty.staticProperty (lit "a") (lit "x")] :
          List HtmlProperty).filter isMixinProp).length ∧
      (([PropGroup.obj [(lit "a", lit "x")]] :
          List PropGroup).filter fun g => !isStrGroup g).length =
        nonMixinRunCount [HtmlProperty.staticProperty (lit "a") (lit "x")]) ∧
    emitSubComponent (SubComponent.mk (lit "Foo") [] []) [] =
      .error (lit "TypeError: cannot set property of undefined") ∧
    emitSubComponent
        (SubComponent.mk (lit "Foo") [PropGroup.obj [(lit "a", lit "x")]] []) [] =
      .ok ((SubComponent.mk (lit "Foo") [PropGroup.obj [(lit "a", lit "x")]]
          []).name ++ lit "(" ++
        renderGroup [] (PropGroup.obj
          (objSet [(lit "a", lit "x")] (lit "children") (childrenExpr [] []))) ++
        lit ")") ∧
    (∃ gs, attachChildren [PropGroup.str (lit "m")] (childrenExpr [] []) =
        some gs ∧
      emitSubComponent (SubComponent.mk (lit "Foo") [PropGroup.str (lit "m")] []) [] =
        .ok (lit "Surplus.subcomponent(" ++
          (SubComponent.mk (lit "Foo") [PropGroup.str (lit "m")] []).name ++
          lit ", [" ++
          List.intercalate (lit ", ") (gs.map (renderGroup [])) ++
          lit "])")) :=
  ⟨C2_subcomponent_grouping.1 2 jsxParams
      [HtmlProperty.staticProperty (lit "a") (lit "x")]
      [PropGroup.obj [(lit "a", lit "x")]] (by rfl),
   C2_subcomponent_grouping.2.1 (SubComponent.mk (lit "Foo") [] []) [] rfl,
   C2_subcomponent_grouping.2.2.1
      (SubComponent.mk (lit "Foo") [PropGroup.obj [(lit "a", lit "x")]] [])
      [] [(lit "a", lit "x")] rfl,
   C2_subcomponent_grouping.2.2.2.1
      (SubComponent.mk (lit "Foo") [PropGroup.str (lit "m")] []) []
      (Or.inr ⟨lit "m", rfl⟩)⟩

/-! ## C6 : helper lemmas — the parser and generator on plain-code streams -/

theorem pState_next_toks (st : PState) (t : Str) (rest : List Str)
    (h : st.toks = t :: rest) : st.next.toks = rest := by
  simp only [PState.next, h]
  split <;> rfl

theorem strSplit_flatten :
    ∀ (toks : List Str) (quote text s : Str) (rest2 : List Str),
    strSplit quote text toks = some (s, rest2) →
    s ++ rest2.flatten = text ++ toks.flatten := by
  intro toks
  induction toks with
  | nil => intro quote text s rest2 h; exact absurd h (by simp [strSplit])
  | cons t rest ih =>
    intro quote text s rest2 h
    cases hc : (t == quote && !stringEscapedEnd text) with
    | true =>
      simp only [strSplit, hc, if_true, Option.some.injEq, Prod.mk.injEq] at h
      rcases h with ⟨h1, h2⟩
      subst h1; subst h2
      simp [List.append_assoc]
    | false =>
      simp only [strSplit, hc, Bool.false_eq_true, if_false] at h
      rw [ih quote (text ++ t) s rest2 h]
      simp [List.append_assoc]

theorem strSplit_length :
    ∀ (toks : List Str) (quote text s : Str) (rest2 : List Str),
    strSplit quote text toks = some (s, rest2) →
    rest2.length < toks.length := by
  intro toks
  induction toks with
  | nil => intro quote text s rest2 h; exact absurd h (by simp [strSplit])
  | cons t rest ih =>
    intro quote text s rest2 h
    cases hc : (t == quote && !stringEscapedEnd text) with
    | true =>
      simp only [strSplit, hc, if_true, Option.some.injEq, Prod.mk.injEq] at h
      rcases h with ⟨h1, h2⟩
      subst h2
      simp
    | false =>
      simp only [strSplit, hc, Bool.false_eq_true, if_false] at h
      have := ih quote (text ++ t) s rest2 h
      simp only [List.length_cons]
      omega

theorem lcSplit_flatten :
    ∀ (toks : List Str) (text : Str),
    (lcSplit text toks).1 ++ (lcSplit text toks).2.flatten =
      text ++ toks.flatten := by
  intro toks
  induction toks with
  | nil => intro text; simp [lcSplit]
  | cons t rest ih =>
    intro text
    cases hc : (t == lit "\n") with
    | true =>
      simp only [lcSplit, hc, if_true]
      simp [List.append_assoc]
    | false =>
      simp only [lcSplit, hc, Bool.false_eq_true, if_false]
      rw [ih (text ++ t)]
      simp [List.append_assoc]

theorem lcSplit_length :
    ∀ (toks : List Str) (text : Str),
    (lcSplit text toks).2.length ≤ toks.length := by
  intro toks
  induction toks with
  | nil => intro text; simp [lcSplit]
  | cons t rest ih =>
    intro text
    cases hc : (t == lit "\n") with
    | true => simp [lcSplit, hc]
    | false =>
      simp only [lcSplit, hc, Bool.false_eq_true, if_false]
      have := ih (text ++ t)
      simp only [List.length_cons]
      omega

theorem bcSplit_flatten :
    ∀ (toks : List Str) (text s : Str) (rest2 : List Str),
    bcSplit text toks = some (s, rest2) →
    s ++ rest2.flatten = text ++ toks.flatten := by
  intro toks
  induction toks with
  | nil => intro text s rest2 h; exact absurd h (by simp [bcSplit])
  | cons t rest ih =>
    intro text s rest2 h
    cases hc : (t == lit "*/") with
    | true =>
      simp only [bcSplit, hc, if_true, Option.some.injEq, Prod.mk.injEq] at h
      rcases h with ⟨h1, h2⟩
      subst h1; subst h2
      simp [List.append_assoc]
    | false =>
      simp only [bcSplit, hc, Bool.false_eq_true, if_false] at h
      rw [ih (text ++ t) s rest2 h]
      simp [List.append_assoc]

theorem bcSplit_length :
    ∀ (toks : List Str) (text s : Str) (rest2 : List Str),
    bcSplit text toks = some (s, rest2) →
    rest2.length < toks.length := by
  intro toks
  induction toks with
  | nil => intro text s rest2 h; exact absurd h (by simp [bcSplit])
  | cons t rest ih =>
    intro text s rest2 h
    cases hc : (t == lit "*/") with
    | true =>
      simp only [bcSplit, hc, if_true, Option.some.injEq, Prod.mk.injEq] at h
      rcases h with ⟨h1, h2⟩
      subst h2
      simp
    | false =>
      simp only [bcSplit, hc, Bool.false_eq_true, if_false] at h
      have := ih (text ++ t) s rest2 h
      simp only [List.length_cons]
      omega

theorem pQuotedLoop_split_some :
    ∀ (toks : List Str) (fuel : Nat) (quote text : Str) (st : PState)
      (s : Str) (rest2 : List Str),
    st.toks = toks → toks.length < fuel →
    strSplit quote text toks = some (s, rest2) →
    ∃ st2, pQuotedLoop fuel quote text st = .ok (s, st2) ∧ st2.toks = rest2 := by
  intro toks
  induction toks with
  | nil => intro fuel quote text st s rest2 hst hf h; exact absurd h (by simp [strSplit])
  | cons t rest ih =>
    intro fuel quote text st s rest2 hst hf h
    cases fuel with
    | zero => exact absurd hf (by omega)
    | succ fl =>
      have heof : st.eof = false := by simp [PState.eof, hst]
      have htok : st.tok = t := by simp [PState.tok, hst]
      have hnext : st.next.toks = rest := pState_next_toks st t rest hst
      cases hc : (t == quote && !stringEscapedEnd text) with
      | true =>
        simp only [strSplit, hc, if_true, Option.some.injEq, Prod.mk.injEq] at h
        rcases h with ⟨h1, h2⟩
        subst h1; subst h2
        have hq : (t == quote) = true := by
          revert hc; cases (t == quote) <;> simp
        have he' : stringEscapedEnd text = false := by
          revert hc; cases (stringEscapedEnd text) <;> simp
        refine ⟨st.next, ?_, hnext⟩
        simp [pQuotedLoop, heof, htok, hq, he']
      | false =>
        simp only [strSplit, hc, Bool.false_eq_true, if_false] at h
        have hcond : (!(t == quote) || stringEscapedEnd text) = true := by
          revert hc
          cases (t == quote) <;> cases (stringEscapedEnd text) <;> simp
        have hloop : pQuotedLoop (fl + 1) quote text st =
            pQuotedLoop fl quote (text ++ t) st.next := by
          simp [pQuotedLoop, heof, htok, hcond]
        rw [hloop]
        exact ih fl quote (text ++ t) st.next s rest2 hnext (by
          simp only [List.length_cons] at hf; omega) h

theorem pQuotedString_split_some :
    ∀ (t : Str) (rest : List Str) (fuel : Nat) (st : PState)
      (s : Str) (rest2 : List Str),
    st.toks = t :: rest → (t = lit "'" ∨ t = lit "\"") →
    rest.length + 2 ≤ fuel →
    strSplit t t rest = some (s, rest2) →
    ∃ st2, pQuotedString fuel st = .ok (s, st2) ∧ st2.toks = rest2 := by
  intro t rest fuel st s rest2 hst ht hf h
  cases fuel with
  | zero => exact absurd hf (by omega)
  | succ fl =>
    have htok : st.tok = t := by simp [PState.tok, hst]
    have hnext : st.next.toks = rest := pState_next_toks st _ _ hst
    have hq : (!(st.is (lit "'")) && !(st.is (lit "\""))) = false := by
      rcases ht with ht | ht <;> simp [PState.is, htok, ht]
    have hqs : pQuotedString (fl + 1) st = pQuotedLoop fl st.tok st.tok st.next := by
      simp [pQuotedString, hq]
    rw [hqs, htok]
    exact pQuotedLoop_split_some rest fl t t st.next s rest2 hnext (by omega) h

theorem pLineCommentLoop_split :
    ∀ (toks : List Str) (fuel : Nat) (text : Str) (st : PState),
    st.toks = toks → toks.length < fuel →
    ∃ st2, pLineCommentLoop fuel text st = .ok ((lcSplit text toks).1, st2) ∧
      st2.toks = (lcSplit text toks).2 := by
  intro toks
  induction toks with
  | nil =>
    intro fuel text st hst hf
    cases fuel with
    | zero => exact absurd hf (by omega)
    | succ fl =>
      have heof : st.eof = true := by simp [PState.eof, hst]
      exact ⟨st, by simp [pLineCommentLoop, heof, lcSplit], by simp [lcSplit, hst]⟩
  | cons t rest ih =>
    intro fuel text st hst hf
    cases fuel with
    | zero => exact absurd hf (by omega)
    | succ fl =>
      have heof : st.eof = false := by simp [PState.eof, hst]
      have htok : st.tok = t := by simp [PState.tok, hst]
      have hnext : st.next.toks = rest := pState_next_toks st t rest hst
      cases hc : (t == lit "\n") with
      | true =>
        refine ⟨st.next, ?_, ?_⟩
        · simp [pLineCommentLoop, heof, PState.is, htok, hc, lcSplit]
        · simp [lcSplit, hc, hnext]
      | false =>
        have hloop : pLineCommentLoop (fl + 1) text st =
            pLineCommentLoop fl (text ++ t) st.next := by
          simp [pLineCommentLoop, heof, PState.is, htok, hc]
        rw [hloop]
        have := ih fl (text ++ t) st.next hnext (by
          simp only [List.length_cons] at hf; omega)
        simpa [lcSplit, hc] using this

theorem pLineComment_split :
    ∀ (rest : List Str) (fuel : Nat) (st : PState),
    st.toks = lit "//" :: rest → rest.length + 3 ≤ fuel →
    ∃ st2, pLineComment fuel st =
        .ok ((lcSplit (lit "//") rest).1, st2) ∧
      st2.toks = (lcSplit (lit "//") rest).2 := by
  intro rest fuel st hst hf
  cases fuel with
  | zero => exact absurd hf (by omega)
  | succ fl =>
    have htok : st.tok = lit "//" := by simp [PState.tok, hst]
    have hlc : pLineComment (fl + 1) st = pLineCommentLoop fl [] st := by
      simp [pLineComment, PState.is, htok]
    rw [hlc]
    have h := pLineCommentLoop_split (lit "//" :: rest) fl [] st hst (by
      simp only [List.length_cons]; omega)
    simpa [lcSplit] using h

theorem pBlockCommentLoop_split_some :
    ∀ (toks : List Str) (fuel : Nat) (text : Str) (st : PState)
      (s : Str) (rest2 : List Str),
    st.toks = toks → toks.length < fuel →
    bcSplit text toks = some (s, rest2) →
    ∃ st2, pBlockCommentLoop fuel text st = .ok (s, st2) ∧ st2.toks = rest2 := by
  intro toks
  induction toks with
  | nil => intro fuel text st s rest2 hst hf h; exact absurd h (by simp [bcSplit])
  | cons t rest ih =>
    intro fuel text st s rest2 hst hf h
    cases fuel with
    | zero => exact absurd hf (by omega)
    | succ fl =>
      have heof : st.eof = false := by simp [PState.eof, hst]
      have htok : st.tok = t := by simp [PState.tok, hst]
      have hnext : st.next.toks = rest := pState_next_toks st t rest hst
      cases hc : (t == lit "*/") with
      | true =>
        simp only [bcSplit, hc, if_true, Option.some.injEq, Prod.mk.injEq] at h
        rcases h with ⟨h1, h2⟩
        subst h1; subst h2
        refine ⟨st.next, ?_, hnext⟩
        simp [pBlockCommentLoop, heof, PState.is, htok, hc]
      | false =>
        simp only [bcSplit, hc, Bool.false_eq_true, if_false] at h
        have hloop : pBlockCommentLoop (fl + 1) text st =
            pBlockCommentLoop fl (text ++ t) st.next := by
          simp [pBlockCommentLoop, heof, PState.is, htok, hc]
        rw [hloop]
        exact ih fl (text ++ t) st.next s rest2 hnext (by
          simp only [List.length_cons] at hf; omega) h

theorem pBlockComment_split_some :
    ∀ (rest : List Str) (fuel : Nat) (st : PState) (s : Str) (rest2 : List Str),
    st.toks = lit "/*" :: rest → rest.length + 3 ≤ fuel →
    bcSplit (lit "/*") rest = some (s, rest2) →
    ∃ st2, pBlockComment fuel st = .ok (s, st2) ∧ st2.toks = rest2 := by
  intro rest fuel st s rest2 hst hf h
  cases fuel with
  | zero => exact absurd hf (by omega)
  | succ fl =>
    have htok : st.tok = lit "/*" := by simp [PState.tok, hst]
    have hbc : pBlockComment (fl + 1) st = pBlockCommentLoop fl [] st := by
      simp [pBlockComment, PState.is, htok]
    rw [hbc]
    refine pBlockCommentLoop_split_some (lit "/*" :: rest) fl [] st s rest2 hst
      (by simp only [List.length_cons]; omega) ?_
    simpa [bcSplit] using h

theorem pCodeTopLevel_nil :
    ∀ (fuel : Nat) (jsx : Bool) (segments : List CodeSegment) (text : Str)
      (loc : LOC) (st : PState),
    st.toks = [] → 1 ≤ fuel →
    pCodeTopLevel fuel jsx segments text loc st =
      .ok ⟨if text.isEmpty then segments
           else segments ++ [CodeSegment.codeText text loc]⟩ := by
  intro fuel jsx segments text loc st hst hf
  cases fuel with
  | zero => exact absurd hf (by omega)
  | succ fl =>
    have heof : st.eof = true := by simp [PState.eof, hst]
    simp [pCodeTopLevel, heof]

/-- On a plain-code token stream, `codeTopLevel` consumes all tokens into
one accumulated text and succeeds with at most one `CodeText` segment. -/
theorem pCodeTopLevel_plain :
    ∀ (n : Nat) (toks : List Str), toks.length ≤ n →
    ∀ (f fuel : Nat) (jsx : Bool) (segments : List CodeSegment) (text : Str)
      (loc : LOC) (st : PState),
    st.toks = toks → 2 * toks.length + 2 ≤ fuel →
    plainScanGo f toks = true →
    pCodeTopLevel fuel jsx segments text loc st =
      .ok ⟨if (text ++ toks.flatten).isEmpty then segments
           else segments ++ [CodeSegment.codeText (text ++ toks.flatten) loc]⟩ := by
  intro n
  induction n with
  | zero =>
    intro toks hlen f fuel jsx segments text loc st hst hf hscan
    have htoks : toks = [] := List.length_eq_zero.mp (Nat.le_zero.mp hlen)
    subst htoks
    rw [pCodeTopLevel_nil fuel jsx segments text loc st hst (by omega)]
    simp
  | succ n ihn =>
    intro toks hlen f fuel jsx segments text loc st hst hf hscan
    match toks, hlen, hst, hf, hscan with
    | [], _, hst, hf, _ =>
      rw [pCodeTopLevel_nil fuel jsx segments text loc st hst (by omega)]
      simp
    | t :: rest, hlen, hst, hf, hscan =>
      cases fuel with
      | zero => exact absurd hf (by omega)
      | succ fl =>
      cases f with
      | zero => exact absurd hscan (by simp [plainScanGo])
      | succ f =>
      have heof : st.eof = false := by simp [PState.eof, hst]
      have htok : st.tok = t := by simp [PState.tok, hst]
      have hnext : st.next.toks = rest := pState_next_toks st t rest hst
      have hlen' : rest.length ≤ n := by
        simp only [List.length_cons] at hlen; omega
      have hfl : 2 * rest.length + 3 ≤ fl := by
        simp only [List.length_cons] at hf; omega
      cases hlt : (t == lit "<") with
      | true => rw [plainScanGo] at hscan; simp [hlt] at hscan
      | false =>
      cases hq : (t == lit "'" || t == lit "\"") with
      | true =>
        rw [plainScanGo] at hscan
        simp only [hlt, Bool.false_eq_true, if_false, hq, if_true] at hscan
        match hsp : strSplit t t rest with
        | none => rw [hsp] at hscan; simp at hscan
        | some (s, rest2) =>
          rw [hsp] at hscan
          simp only [] at hscan
          have ht' : t = lit "'" ∨ t = lit "\"" := by
            cases h1 : (t == lit "'") with
            | true => exact Or.inl (eq_of_beq h1)
            | false =>
              have h2 : (t == lit "\"") = true := by revert hq; rw [h1]; simp
              exact Or.inr (eq_of_beq h2)
          have hcond : (st.is (lit "\"") || st.is (lit "'")) = true := by
            rcases ht' with h | h <;> simp [PState.is, htok, h]
          have hnlt : st.is (lit "<") = false := by
            simp only [PState.is, htok]; exact hlt
          obtain ⟨st2, hqs, hst2⟩ := pQuotedString_split_some t rest fl st s rest2
            hst ht' (by omega) hsp
          have hstep : pCodeTopLevel (fl + 1) jsx segments text loc st =
              pCodeTopLevel fl jsx segments (text ++ s) loc st2 := by
            rw [pCodeTopLevel]
            simp [heof, hnlt, hcond, hqs, bind, Except.bind]
          rw [hstep]
          have hlen2 : rest2.length ≤ n := by
            have := strSplit_length rest t t s rest2 hsp; omega
          have harr : (text ++ s) ++ rest2.flatten = text ++ (t :: rest).flatten := by
            rw [List.append_assoc, strSplit_flatten rest t t s rest2 hsp]
            simp
          rw [ihn rest2 hlen2 f fl jsx segments (text ++ s) loc st2 hst2
            (by have := strSplit_length rest t t s rest2 hsp; omega) hscan]
          rw [harr]
      | false =>
      cases hlc : (t == lit "//") with
      | true =>
        have ht' : t = lit "//" := eq_of_beq hlc
        subst ht'
        rw [plainScanGo] at hscan
        simp only [hlt, Bool.false_eq_true, if_false, hq, hlc, if_true] at hscan
        have hnlt : st.is (lit "<") = false := by
          simp only [PState.is, htok]; exact hlt
        have hnq : (st.is (lit "\"") || st.is (lit "'")) = false := by
          simp only [PState.is, htok]
          decide
        have hislc : st.is (lit "//") = true := by simp [PState.is, htok]
        obtain ⟨st2, hcs, hst2⟩ := pLineComment_split rest fl st hst (by omega)
        have hstep : pCodeTopLevel (fl + 1) jsx segments text loc st =
            pCodeTopLevel fl jsx segments (text ++ (lcSplit (lit "//") rest).1)
              loc st2 := by
          rw [pCodeTopLevel]
          simp [heof, hnlt, hnq, hislc, hcs, bind, Except.bind]
        rw [hstep]
        have hlen2 : (lcSplit (lit "//") rest).2.length ≤ n := by
          have := lcSplit_length rest (lit "//"); omega
        have harr : (text ++ (lcSplit (lit "//") rest).1) ++
            (lcSplit (lit "//") rest).2.flatten =
            text ++ (lit "//" :: rest).flatten := by
          rw [List.append_assoc, lcSplit_flatten rest (lit "//")]
          simp
        rw [ihn ((lcSplit (lit "//") rest).2) hlen2 f fl jsx segments
          (text ++ (lcSplit (lit "//") rest).1) loc st2 hst2
          (by have := lcSplit_length rest (lit "//"); omega) hscan]
        rw [harr]
      | false =>
      cases hbc : (t == lit "/*") with
      | true =>
        have ht' : t = lit "/*" := eq_of_beq hbc
        subst ht'
        rw [plainScanGo] at hscan
        simp only [hlt, Bool.false_eq_true, if_false, hq, hlc, hbc, if_true] at hscan
        match hsp : bcSplit (lit "/*") rest with
        | none => rw [hsp] at hscan; simp at hscan
        | some (s, rest2) =>
          rw [hsp] at hscan
          simp only [] at hscan
          have hnlt : st.is (lit "<") = false := by
            simp only [PState.is, htok]; exact hlt
          have hnq : (st.is (lit "\"") || st.is (lit "'")) = false := by
            simp only [PState.is, htok]; decide
          have hnlc : st.is (lit "//") = false := by
            simp only [PState.is, htok]; decide
          have hisbc : st.is (lit "/*") = true := by simp [PState.is, htok]
          obtain ⟨st2, hcs, hst2⟩ := pBlockComment_split_some rest fl st s rest2
            hst (by omega) hsp
          have hstep : pCodeTopLevel (fl + 1) jsx segments text loc st =
              pCodeTopLevel fl jsx segments (text ++ s) loc st2 := by
            rw [pCodeTopLevel]
            simp [heof, hnlt, hnq, hnlc, hisbc, hcs, bind, Except.bind]
          rw [hstep]
          have hlen2 : rest2.length ≤ n := by
            have := bcSplit_length rest (lit "/*") s rest2 hsp; omega
          have harr : (text ++ s) ++ rest2.flatten =
              text ++ (lit "/*" :: rest).flatten := by
            rw [List.append_assoc, bcSplit_flatten rest (lit "/*") s rest2 hsp]
            simp
          rw [ihn rest2 hlen2 f fl jsx segments (text ++ s) loc st2 hst2
            (by have := bcSplit_length rest (lit "/*") s rest2 hsp; omega) hscan]
          rw [harr]
      | false =>
        rw [plainScanGo] at hscan
        simp only [hlt, Bool.false_eq_true, if_false, hq, hlc, hbc] at hscan
        have hnlt : st.is (lit "<") = false := by
          simp only [PState.is, htok]; exact hlt
        have hnq : (st.is (lit "\"") || st.is (lit "'")) = false := by
          simp only [PState.is, htok]
          revert hq
          cases (t == lit "'") <;> cases (t == lit "\"") <;> simp
        have hnlc : st.is (lit "//") = false := by
          simp only [PState.is, htok]; exact hlc
        have hnbc : st.is (lit "/*") = false := by
          simp only [PState.is, htok]; exact hbc
        have hstep : pCodeTopLevel (fl + 1) jsx segments text loc st =
            pCodeTopLevel fl jsx segments (text ++ t) loc st.next := by
          rw [pCodeTopLevel]
          simp [heof, hnlt, hnq, hnlc, hnbc, htok]
        rw [hstep]
        have harr : (text ++ t) ++ rest.flatten = text ++ (t :: rest).flatten := by
          simp [List.append_assoc]
        rw [ihn rest hlen' f fl jsx segments (text ++ t) loc st.next hnext
          (by omega) hscan]
        rw [harr]

theorem length_le_toksSize : ∀ (toks : List Str), toks.length ≤ toksSize toks := by
  intro toks
  induction toks with
  | nil => simp [toksSize]
  | cons t rest ih =>
    simp only [toksSize, List.foldr_cons, List.length_cons] at *
    omega

theorem compileSegmentsGo_codeText :
    ∀ (fuel : Nat) (opts : Params) (t : Str) (loc : LOC) (res : Str),
    opts.sourcemap = none →
    compileSegmentsGo (fuel + 2) opts [CodeSegment.codeText t loc] res =
      .ok (res ++ t) := by
  intro fuel opts t loc res h
  simp [compileSegmentsGo, compileSegment, markBlockLocs, h, bind, Except.bind]

theorem compile_codeText (opts : Params) (t : Str) (loc : LOC)
    (h : opts.sourcemap = none) :
    compile opts ⟨[CodeSegment.codeText t loc]⟩ = .ok t := by
  show compileSegmentsGo (8 * (sizeSegs [CodeSegment.codeText t loc] + 2)) opts
    [CodeSegment.codeText t loc] [] = .ok t
  have hsz : 8 * (sizeSegs [CodeSegment.codeText t loc] + 2) = 22 + 2 := by
    simp [sizeSegs, sizeSeg]
  rw [hsz, compileSegmentsGo_codeText 22 opts t loc [] h]
  simp

/-- C6, counterexample: the input `"abc` tokenizes to two tokens, neither
of which is a `<` token (so the stream has no element-opening `<` at all,
in particular none outside quoted strings and comments), yet `preprocess`
with no sourcemap fails with `unterminated string` instead of returning
the input unchanged; the amended side condition `plainCodeOk` rejects it. -/
theorem C6_counterexample :
    (tokenize (lit "\"abc")).all (fun t => !(t == lit "<")) = true ∧
    jsxParams.sourcemap = none ∧
    preprocess (lit "\"abc") jsxParams = .error (lit "unterminated string") ∧
    plainCodeOk (tokenize (lit "\"abc")) = false := by
  refine ⟨by decide, rfl, rfl, by decide⟩

/-- C6, amended: for every input string whose token stream passes the
plain-code scan — no `<` token outside quoted strings and comments AND
every quoted string and multi-line comment is terminated before the end
of the stream — `preprocess` with no sourcemap returns the input string
unchanged. -/
theorem C6_plain_roundtrip (s : Str) (opts : Params)
    (hsm : opts.sourcemap = none)
    (hok : plainCodeOk (tokenize s) = true) :
    preprocess s opts = .ok (POut.str s) := by
  have hparse : parse (tokenize s) opts =
      .ok ⟨if s.isEmpty then [] else [CodeSegment.codeText s ⟨0, 0, 0⟩]⟩ := by
    show pCodeTopLevel (16 * (toksSize (tokenize s) + 2)) opts.jsx [] [] ⟨0, 0, 0⟩
      ⟨tokenize s, 0, 0, 0⟩ = _
    rw [pCodeTopLevel_plain (tokenize s).length (tokenize s) le_rfl
      ((tokenize s).length + 1) (16 * (toksSize (tokenize s) + 2)) opts.jsx
      [] [] ⟨0, 0, 0⟩ ⟨tokenize s, 0, 0, 0⟩ rfl
      (by have := length_le_toksSize (tokenize s); omega) hok]
    rw [show ([] : Str) ++ (tokenize s).flatten = s by
      simp [tokenize_join]]
    simp
  cases hs : s.isEmpty with
  | true =>
    have hse : s = [] := by
      cases s with
      | nil => rfl
      | cons c cs => simp at hs
    rw [hse] at hparse ⊢
    simp only [preprocess, hparse, bind, Except.bind]
    simp [transform, transformSegments, hsm]
    rfl
  | false =>
    rw [hs] at hparse
    simp only [preprocess, hparse, bind, Except.bind]
    have htr : transform ⟨[CodeSegment.codeText s ⟨0, 0, 0⟩]⟩ =
        ⟨[CodeSegment.codeText s ⟨0, 0, 0⟩]⟩ := rfl
    simp only [Bool.false_eq_true, if_false, htr,
      compile_codeText opts s ⟨0, 0, 0⟩ hsm, hsm]

/-- C6, witness: the amended round-trip at a concrete input containing
`<` characters inside a quoted string and a line comment. -/
theorem C6_plain_roundtrip_witness :
    preprocess (lit "let a = \"x<y\"; // c<d") jsxParams =
      .ok (POut.str (lit "let a = \"x<y\"; // c<d")) :=
  C6_plain_roundtrip (lit "let a = \"x<y\"; // c<d") jsxParams rfl (by decide)

/-! ## C7 : helper lemmas — list shape of `noAdjTexts` and the `elOk` family -/

theorem noAdjTexts_cons (x : HtmlContent) (l : List HtmlContent) :
    noAdjTexts (x :: l) = (!(isTextChild x && headText l) && noAdjTexts l) := by
  cases l with
  | nil => simp [noAdjTexts, headText]
  | cons y r => simp [noAdjTexts, headText]

theorem headText_cons (x : HtmlContent) (l : List HtmlContent) :
    headText (x :: l) = isTextChild x := by
  simp [headText]

theorem elOkContent_append (a b : List HtmlContent) :
    elOkContent (a ++ b) = (elOkContent a && elOkContent b) := by
  induction a with
  | nil => simp [elOkContent]
  | cons c r ih => simp [elOkContent, ih, Bool.and_assoc]

theorem elOkProps_append (a b : List HtmlProperty) :
    elOkProps (a ++ b) = (elOkProps a && elOkProps b) := by
  induction a with
  | nil => simp [elOkProps]
  | cons c r ih => simp [elOkProps, ih, Bool.and_assoc]

theorem elOkSegs_append (a b : List CodeSegment) :
    elOkSegs (a ++ b) = (elOkSegs a && elOkSegs b) := by
  induction a with
  | nil => simp [elOkSegs]
  | cons c r ih => simp [elOkSegs, ih, Bool.and_assoc]

theorem lastTextChild_concat (l : List HtmlContent) (c : HtmlContent) :
    lastTextChild (l ++ [c]) = isTextChild c := by
  simp [lastTextChild, List.getLast?_concat]

theorem noAdjTexts_concat (l : List HtmlContent) (c : HtmlContent)
    (hl : noAdjTexts l = true)
    (hlast : lastTextChild l = true → isTextChild c = false) :
    noAdjTexts (l ++ [c]) = true := by
  induction l with
  | nil => simp [noAdjTexts]
  | cons x r ih =>
    rw [noAdjTexts_cons] at hl
    rcases Bool.and_eq_true_iff.mp hl with ⟨hx, hr⟩
    cases r with
    | nil =>
      simp only [lastTextChild, List.getLast?_singleton] at hlast
      simp only [List.cons_append, List.nil_append, noAdjTexts, noAdjTexts_cons,
        headText_cons, hr, Bool.and_true]
      cases hxt : isTextChild x with
      | false => simp
      | true => simp [hlast hxt]
    | cons y rr =>
      have hlast' : lastTextChild (y :: rr) = true → isTextChild c = false := by
        intro hy
        apply hlast
        simp only [lastTextChild] at hy ⊢
        rwa [List.getLast?_cons_cons]
      have hthis := ih hr hlast'
      have hx' : (!(isTextChild x && isTextChild y)) = true := by
        simpa [headText_cons] using hx
      simp only [List.cons_append] at hthis ⊢
      rw [noAdjTexts_cons, headText_cons, hthis, hx']
      rfl

/-! The parser invariant: every content list any parser function produces
has no adjacent Text nodes, because `htmlText` stops only at end of
stream, at the close tag, or at a token that starts a non-text child. -/

theorem parser_elOk : ∀ fuel : Nat,
    (∀ jsx text st t st2, pHtmlText fuel jsx text st = .ok (t, st2) →
      textStop jsx st2 = true) ∧
    (∀ jsx endTok segments text loc st t2 segs2 loc2 st2,
      pBalancedLoop fuel jsx endTok segments text loc st = .ok (t2, segs2, loc2, st2) →
      elOkSegs segments = true → elOkSegs segs2 = true) ∧
    (∀ jsx segments text loc st t2 segs2 loc2 st2,
      pBalancedParens fuel jsx segments text loc st = .ok (t2, segs2, loc2, st2) →
      elOkSegs segments = true → elOkSegs segs2 = true) ∧
    (∀ jsx segments text loc st segs2 t2 loc2 st2,
      pEmbeddedLoop fuel jsx segments text loc st = .ok (segs2, t2, loc2, st2) →
      elOkSegs segments = true → elOkSegs segs2 = true) ∧
    (∀ jsx st c st2, pEmbeddedCode fuel jsx st = .ok (c, st2) → elOkEC c = true) ∧
    (∀ jsx st c st2, pJsxEmbeddedCode fuel jsx st = .ok (c, st2) → elOkEC c = true) ∧
    (∀ jsx st c st2, pHtmlInsert fuel jsx st = .ok (c, st2) →
      elOkChild c = true ∧ isTextChild c = false) ∧
    (∀ jsx st c st2, pJsxHtmlInsert fuel jsx st = .ok (c, st2) →
      elOkChild c = true ∧ isTextChild c = false) ∧
    (∀ jsx st p st2, pProperty fuel jsx st = .ok (p, st2) → elOkProp p = true) ∧
    (∀ jsx st p st2, pMixin fuel jsx st = .ok (p, st2) → elOkProp p = true) ∧
    (∀ jsx st p st2, pJsxMixin fuel jsx st = .ok (p, st2) → elOkProp p = true) ∧
    (∀ jsx props st props2 st2, pPropsLoop fuel jsx props st = .ok (props2, st2) →
      elOkProps props = true → elOkProps props2 = true) ∧
    (∀ jsx content st content2 st2,
      pContentLoop fuel jsx content st = .ok (content2, st2) →
      elOkContent content = true → noAdjTexts content = true →
      (lastTextChild content = true → textStop jsx st = true) →
      elOkContent content2 = true ∧ noAdjTexts content2 = true) ∧
    (∀ jsx st el st2, pHtmlElement fuel jsx st = .ok (el, st2) → elOkEl el = true) ∧
    (∀ jsx segments text loc st ctl,
      pCodeTopLevel fuel jsx segments text loc st = .ok ctl →
      elOkSegs segments = true → ctlOk ctl = true) := by
  intro fuel
  induction fuel with
  | zero =>
    refine ⟨?_, ?_, ?_, ?_, ?_, ?_, ?_, ?_, ?_, ?_, ?_, ?_, ?_, ?_, ?_⟩
    · intro jsx text st t st2 h; exact absurd h (by simp [pHtmlText])
    · intro jsx endTok segments text loc st t2 segs2 loc2 st2 h hseg
      exact absurd h (by simp [pBalancedLoop])
    · intro jsx segments text loc st t2 segs2 loc2 st2 h hseg
      exact absurd h (by simp [pBalancedParens])
    · intro jsx segments text loc st segs2 t2 loc2 st2 h hseg
      exact absurd h (by simp [pEmbeddedLoop])
    · intro jsx st c st2 h; exact absurd h (by simp [pEmbeddedCode])
    · intro jsx st c st2 h; exact absurd h (by simp [pJsxEmbeddedCode])
    · intro jsx st c st2 h; exact absurd h (by simp [pHtmlInsert])
    · intro jsx st c st2 h; exact absurd h (by simp [pJsxHtmlInsert])
    · intro jsx st p st2 h; exact absurd h (by simp [pProperty])
    · intro jsx st p st2 h; exact absurd h (by simp [pMixin])
    · intro jsx st p st2 h; exact absurd h (by simp [pJsxMixin])
    · intro jsx props st props2 st2 h hp
      exact absurd h (by simp [pPropsLoop])
    · intro jsx content st content2 st2 h h1 h2 h3
      exact absurd h (by simp [pContentLoop])
    · intro jsx st el st2 h; exact absurd h (by simp [pHtmlElement])
    · intro jsx segments text loc st ctl h hseg
      exact absurd h (by simp [pCodeTopLevel])
  | succ fuel ih =>
    obtain ⟨ihText, ihBL, ihBP, ihEL, ihEC, ihJEC, ihIns, ihJIns, ihProp,
      ihMix, ihJMix, ihPL, ihCL, ihEl, ihTop⟩ := ih
    refine ⟨?_, ?_, ?_, ?_, ?_, ?_, ?_, ?_, ?_, ?_, ?_, ?_, ?_, ?_, ?_⟩
    · -- pHtmlText : stops only at a text stopper
      intro jsx text st t st2 h
      rw [pHtmlText] at h
      by_cases hc : (!st.eof && !(st.is (lit "<")) && !(st.is (lit "<!--")) &&
          (if jsx then !(st.is (lit "\x7b")) else !(st.is (lit "@"))) &&
          !(st.is (lit "</"))) = true
      · rw [if_pos hc] at h
        exact ihText jsx (text ++ st.tok) st.next t st2 h
      · rw [if_neg hc] at h
        simp only [Except.ok.injEq, Prod.mk.injEq] at h
        rcases h with ⟨h1, h2⟩
        subst h2
        simp only [textStop]
        revert hc
        cases st.eof <;> cases st.is (lit "<") <;> cases st.is (lit "<!--") <;>
          cases st.is (lit "</") <;> cases jsx <;>
          cases st.is (lit "\x7b") <;> cases st.is (lit "@") <;> simp
    · -- pBalancedLoop preserves elOkSegs
      intro jsx endTok segments text loc st t2 segs2 loc2 st2 h hseg
      rw [pBalancedLoop] at h
      by_cases hc : (!st.eof && !(st.tok == endTok)) = true
      · rw [if_pos hc] at h
        by_cases hq : (st.is (lit "'") || st.is (lit "\"")) = true
        · rw [if_pos hq] at h
          match hx : pQuotedString fuel st with
          | .error e => rw [hx] at h; exact absurd h (by simp [bind, Except.bind])
          | .ok (q, st3) =>
            rw [hx] at h
            simp only [bind, Except.bind] at h
            exact ihBL jsx endTok segments (text ++ q) loc st3 t2 segs2 loc2 st2 h hseg
        · rw [if_neg hq] at h
          by_cases hlc : (st.is (lit "//")) = true
          · rw [if_pos hlc] at h
            match hx : pLineComment fuel st with
            | .error e => rw [hx] at h; exact absurd h (by simp [bind, Except.bind])
            | .ok (cm, st3) =>
              rw [hx] at h
              simp only [bind, Except.bind] at h
              exact ihBL jsx endTok segments (text ++ cm) loc st3 t2 segs2 loc2 st2 h hseg
          · rw [if_neg hlc] at h
            by_cases hbc : (st.is (lit "/*")) = true
            · rw [if_pos hbc] at h
              match hx : pBlockComment fuel st with
              | .error e => rw [hx] at h; exact absurd h (by simp [bind, Except.bind])
              | .ok (cm, st3) =>
                rw [hx] at h
                simp only [bind, Except.bind] at h
                exact ihBL jsx endTok segments (text ++ cm) loc st3 t2 segs2 loc2 st2 h hseg
            · rw [if_neg hbc] at h
              by_cases hel : (st.is (lit "<")) = true
              · rw [if_pos hel] at h
                match hx : pHtmlElement fuel jsx st with
                | .error e => rw [hx] at h; exact absurd h (by simp [bind, Except.bind])
                | .ok (el, st3) =>
                  rw [hx] at h
                  simp only [bind, Except.bind] at h
                  have hel2 : elOkEl el = true := ihEl jsx st el st3 hx
                  refine ihBL jsx endTok _ [] st3.LOC st3 t2 segs2 loc2 st2 h ?_
                  by_cases ht : text.isEmpty = true
                  · simp only [ht, if_true]
                    simp [elOkSegs_append, hseg, elOkSegs, elOkSeg, hel2]
                  · simp only [ht, Bool.false_eq_true, if_false]
                    simp [elOkSegs_append, hseg, elOkSegs, elOkSeg, hel2]
              · rw [if_neg hel] at h
                by_cases hpe : (parensEnd st.tok).isSome = true
                · rw [if_pos hpe] at h
                  match hx : pBalancedParens fuel jsx segments text loc st with
                  | .error e => rw [hx] at h; exact absurd h (by simp [bind, Except.bind])
                  | .ok (text3, segs3, loc3, st3) =>
                    rw [hx] at h
                    simp only [bind, Except.bind] at h
                    have hs3 : elOkSegs segs3 = true :=
                      ihBP jsx segments text loc st text3 segs3 loc3 st3 hx hseg
                    exact ihBL jsx endTok segs3 text3 loc3 st3 t2 segs2 loc2 st2 h hs3
                · rw [if_neg hpe] at h
                  exact ihBL jsx endTok segments (text ++ st.tok) loc st.next
                    t2 segs2 loc2 st2 h hseg
      · rw [if_neg hc] at h
        by_cases he : st.eof = true
        · rw [if_pos he] at h; exact absurd h (by simp)
        · rw [if_neg he] at h
          simp only [Except.ok.injEq, Prod.mk.injEq] at h
          rcases h with ⟨_, h2, _⟩
          rw [← h2]; exact hseg
    · -- pBalancedParens preserves elOkSegs
      intro jsx segments text loc st t2 segs2 loc2 st2 h hseg
      rw [pBalancedParens] at h
      match hx : parensEnd st.tok with
      | none => rw [hx] at h; exact absurd h (by simp)
      | some endTok =>
        rw [hx] at h
        exact ihBL jsx endTok segments (text ++ st.tok) loc st.next
          t2 segs2 loc2 st2 h hseg
    · -- pEmbeddedLoop preserves elOkSegs
      intro jsx segments text loc st segs2 t2 loc2 st2 h hseg
      rw [pEmbeddedLoop] at h
      by_cases hc : (!st.eof && !(matchCodeTerminator st.tok)) = true
      · rw [if_pos hc] at h
        by_cases hpe : (parensEnd st.tok).isSome = true
        · rw [if_pos hpe] at h
          match hx : pBalancedParens fuel jsx segments text loc st with
          | .error e => rw [hx] at h; exact absurd h (by simp [bind, Except.bind])
          | .ok (text3, segs3, loc3, st3) =>
            rw [hx] at h
            simp only [bind, Except.bind] at h
            have hs3 : elOkSegs segs3 = true :=
              ihBP jsx segments text loc st text3 segs3 loc3 st3 hx hseg
            exact ihEL jsx segs3 text3 loc3 st3 segs2 t2 loc2 st2 h hs3
        · rw [if_neg hpe] at h
          by_cases hq : (st.is (lit "'") || st.is (lit "\"")) = true
          · rw [if_pos hq] at h
            match hx : pQuotedString fuel st with
            | .error e => rw [hx] at h; exact absurd h (by simp [bind, Except.bind])
            | .ok (q, st3) =>
              rw [hx] at h
              simp only [bind, Except.bind] at h
              exact ihEL jsx segments (text ++ q) loc st3 segs2 t2 loc2 st2 h hseg
          · rw [if_neg hq] at h
            exact ihEL jsx segments (text ++ (st.split matchCodeContinuation).1) loc
              (st.split matchCodeContinuation).2 segs2 t2 loc2 st2 h hseg
      · rw [if_neg hc] at h
        simp only [Except.ok.injEq, Prod.mk.injEq] at h
        rcases h with ⟨h1, _⟩
        rw [← h1]; exact hseg
    · -- pEmbeddedCode builds an Ok embedded code
      intro jsx st c st2 h
      rw [pEmbeddedCode] at h
      match hx : pEmbeddedLoop fuel jsx [] [] st.LOC st with
      | .error e => rw [hx] at h; exact absurd h (by simp [bind, Except.bind])
      | .ok (segs3, text3, loc3, st3) =>
        rw [hx] at h
        simp only [bind, Except.bind] at h
        have hs3 : elOkSegs segs3 = true :=
          ihEL jsx [] [] st.LOC st segs3 text3 loc3 st3 hx (by simp [elOkSegs])
        by_cases ht : text3.isEmpty = true
        · simp only [ht, if_true] at h
          by_cases hns : segs3.isEmpty = true
          · rw [if_pos hns] at h; exact absurd h (by simp)
          · rw [if_neg hns] at h
            simp only [Except.ok.injEq, Prod.mk.injEq] at h
            rcases h with ⟨h1, _⟩
            rw [← h1]; simpa [elOkEC] using hs3
        · simp only [ht, Bool.false_eq_true, if_false] at h
          by_cases hns : (segs3 ++ [CodeSegment.codeText text3 loc3]).isEmpty = true
          · rw [if_pos hns] at h; exact absurd h (by simp)
          · rw [if_neg hns] at h
            simp only [Except.ok.injEq, Prod.mk.injEq] at h
            rcases h with ⟨h1, _⟩
            rw [← h1]
            simp [elOkEC, elOkSegs_append, hs3, elOkSegs, elOkSeg]
    · -- pJsxEmbeddedCode builds an Ok embedded code
      intro jsx st c st2 h
      rw [pJsxEmbeddedCode] at h
      by_cases hb : (!(st.is (lit "\x7b")) && !(st.is (lit "\x7b..."))) = true
      · rw [if_pos hb] at h; exact absurd h (by simp)
      · rw [if_neg hb] at h
        simp only [bind, Except.bind] at h
        match hx : pBalancedParens fuel jsx [] [] st.LOC st with
        | .error e => rw [hx] at h; exact absurd h (by simp)
        | .ok (last3, segs3, loc3, st3) =>
          rw [hx] at h
          simp only [] at h
          have hs3 : elOkSegs segs3 = true :=
            ihBP jsx [] [] st.LOC st last3 segs3 loc3 st3 hx (by simp [elOkSegs])
          match hm : segs3 ++ [CodeSegment.codeText last3.dropLast loc3] with
          | [] => rw [hm] at h; exact absurd h (by simp)
          | CodeSegment.element e :: rest => rw [hm] at h; exact absurd h (by simp)
          | CodeSegment.codeText t3 l3 :: rest =>
            rw [hm] at h
            simp only [Except.ok.injEq, Prod.mk.injEq] at h
            rcases h with ⟨h1, _⟩
            rw [← h1]
            have : elOkSegs (CodeSegment.codeText t3 l3 :: rest) = true := by
              rw [← hm]
              simp [elOkSegs_append, hs3, elOkSegs, elOkSeg]
            simp only [elOkSegs, elOkSeg, Bool.true_and] at this
            simpa [elOkEC, elOkSegs, elOkSeg] using this
    · -- pHtmlInsert : an Ok non-text child
      intro jsx st c st2 h
      rw [pHtmlInsert] at h
      by_cases hb : (!(st.is (lit "@"))) = true
      · rw [if_pos hb] at h; exact absurd h (by simp)
      · rw [if_neg hb] at h
        match hx : pEmbeddedCode fuel jsx st.next with
        | .error e => rw [hx] at h; exact absurd h (by simp [bind, Except.bind])
        | .ok (code, st3) =>
          rw [hx] at h
          simp only [bind, Except.bind, Except.ok.injEq, Prod.mk.injEq] at h
          rcases h with ⟨h1, _⟩
          rw [← h1]
          exact ⟨by simpa [elOkChild] using ihEC jsx st.next code st3 hx, rfl⟩
    · -- pJsxHtmlInsert : an Ok non-text child
      intro jsx st c st2 h
      rw [pJsxHtmlInsert] at h
      match hx : pJsxEmbeddedCode fuel jsx st with
      | .error e => rw [hx] at h; exact absurd h (by simp [bind, Except.bind])
      | .ok (code, st3) =>
        rw [hx] at h
        simp only [bind, Except.bind, Except.ok.injEq, Prod.mk.injEq] at h
        rcases h with ⟨h1, _⟩
        rw [← h1]
        exact ⟨by simpa [elOkChild] using ihJEC jsx st code st3 hx, rfl⟩
    · -- pProperty : an Ok property
      intro jsx st p st2 h
      rw [pProperty] at h
      by_cases hb : (matchIdentifier st.tok).isEmpty = true
      · rw [if_pos hb] at h; exact absurd h (by simp)
      · rw [if_neg hb] at h
        simp only [bind, Except.bind] at h
        match hsp : st.split matchIdentifier with
        | (name, st1) =>
        rw [hsp] at h
        simp only [] at h
        match hw : pSkipws fuel st1 with
        | .error e => rw [hw] at h; exact absurd h (by simp)
        | .ok st3 =>
          rw [hw] at h
          simp only [] at h
          by_cases he : (!(st3.is (lit "="))) = true
          · rw [if_pos he] at h; exact absurd h (by simp)
          · rw [if_neg he] at h
            match hw2 : pSkipws fuel st3.next with
            | .error e => rw [hw2] at h; exact absurd h (by simp)
            | .ok st4 =>
              rw [hw2] at h
              simp only [] at h
              by_cases hq : (st4.is (lit "\"") || st4.is (lit "'")) = true
              · rw [if_pos hq] at h
                match hx : pQuotedString fuel st4 with
                | .error e => rw [hx] at h; exact absurd h (by simp [bind, Except.bind])
                | .ok (v, st5) =>
                  rw [hx] at h
                  simp only [bind, Except.bind, Except.ok.injEq, Prod.mk.injEq] at h
                  rcases h with ⟨h1, _⟩
                  rw [← h1]; rfl
              · rw [if_neg hq] at h
                by_cases hj : (jsx && st4.is (lit "\x7b")) = true
                · rw [if_pos hj] at h
                  match hx : pJsxEmbeddedCode fuel jsx st4 with
                  | .error e => rw [hx] at h; exact absurd h (by simp [bind, Except.bind])
                  | .ok (code, st5) =>
                    rw [hx] at h
                    simp only [bind, Except.bind, Except.ok.injEq, Prod.mk.injEq] at h
                    rcases h with ⟨h1, _⟩
                    rw [← h1]
                    simpa [elOkProp] using ihJEC jsx st4 code st5 hx
                · rw [if_neg hj] at h
                  by_cases hn : (!jsx) = true
                  · rw [if_pos hn] at h
                    match hx : pEmbeddedCode fuel jsx st4 with
                    | .error e => rw [hx] at h; exact absurd h (by simp [bind, Except.bind])
                    | .ok (code, st5) =>
                      rw [hx] at h
                      simp only [bind, Except.bind, Except.ok.injEq, Prod.mk.injEq] at h
                      rcases h with ⟨h1, _⟩
                      rw [← h1]
                      simpa [elOkProp] using ihEC jsx st4 code st5 hx
                  · rw [if_neg hn] at h; exact absurd h (by simp)
    · -- pMixin : an Ok property
      intro jsx st p st2 h
      rw [pMixin] at h
      by_cases hb : (!(st.is (lit "@"))) = true
      · rw [if_pos hb] at h; exact absurd h (by simp)
      · rw [if_neg hb] at h
        match hx : pEmbeddedCode fuel jsx st.next with
        | .error e => rw [hx] at h; exact absurd h (by simp [bind, Except.bind])
        | .ok (code, st3) =>
          rw [hx] at h
          simp only [bind, Except.bind, Except.ok.injEq, Prod.mk.injEq] at h
          rcases h with ⟨h1, _⟩
          rw [← h1]
          simpa [elOkProp] using ihEC jsx st.next code st3 hx
    · -- pJsxMixin : an Ok property
      intro jsx st p st2 h
      rw [pJsxMixin] at h
      by_cases hb : (!(st.is (lit "\x7b..."))) = true
      · rw [if_pos hb] at h; exact absurd h (by simp)
      · rw [if_neg hb] at h
        match hx : pJsxEmbeddedCode fuel jsx st with
        | .error e => rw [hx] at h; exact absurd h (by simp [bind, Except.bind])
        | .ok (code, st3) =>
          rw [hx] at h
          simp only [bind, Except.bind, Except.ok.injEq, Prod.mk.injEq] at h
          rcases h with ⟨h1, _⟩
          rw [← h1]
          simpa [elOkProp] using ihJEC jsx st code st3 hx
    · -- pPropsLoop preserves elOkProps
      intro jsx props st props2 st2 h hp
      rw [pPropsLoop] at h
      by_cases hc : (!st.eof && !(st.is (lit ">")) && !(st.is (lit "/>"))) = true
      · rw [if_pos hc] at h
        by_cases h1 : (!(matchIdentifier st.tok).isEmpty) = true
        · rw [if_pos h1] at h
          match hx : pProperty fuel jsx st with
          | .error e => rw [hx] at h; exact absurd h (by simp [bind, Except.bind])
          | .ok (p, st3) =>
            rw [hx] at h
            simp only [bind, Except.bind] at h
            match hw : pSkipws fuel st3 with
            | .error e => rw [hw] at h; exact absurd h (by simp [bind, Except.bind])
            | .ok st4 =>
              rw [hw] at h
              simp only [bind, Except.bind] at h
              refine ihPL jsx (props ++ [p]) st4 props2 st2 h ?_
              simp [elOkProps_append, hp, elOkProps, ihProp jsx st p st3 hx]
        · rw [if_neg h1] at h
          by_cases h2 : (!jsx && st.is (lit "@")) = true
          · rw [if_pos h2] at h
            match hx : pMixin fuel jsx st with
            | .error e => rw [hx] at h; exact absurd h (by simp [bind, Except.bind])
            | .ok (p, st3) =>
              rw [hx] at h
              simp only [bind, Except.bind] at h
              match hw : pSkipws fuel st3 with
              | .error e => rw [hw] at h; exact absurd h (by simp [bind, Except.bind])
              | .ok st4 =>
                rw [hw] at h
                simp only [bind, Except.bind] at h
                refine ihPL jsx (props ++ [p]) st4 props2 st2 h ?_
                simp [elOkProps_append, hp, elOkProps, ihMix jsx st p st3 hx]
          · rw [if_neg h2] at h
            by_cases h3 : (jsx && st.is (lit "\x7b...")) = true
            · rw [if_pos h3] at h
              match hx : pJsxMixin fuel jsx st with
              | .error e => rw [hx] at h; exact absurd h (by simp [bind, Except.bind])
              | .ok (p, st3) =>
                rw [hx] at h
                simp only [bind, Except.bind] at h
                match hw : pSkipws fuel st3 with
                | .error e => rw [hw] at h; exact absurd h (by simp [bind, Except.bind])
                | .ok st4 =>
                  rw [hw] at h
                  simp only [bind, Except.bind] at h
                  refine ihPL jsx (props ++ [p]) st4 props2 st2 h ?_
                  simp [elOkProps_append, hp, elOkProps, ihJMix jsx st p st3 hx]
            · rw [if_neg h3] at h; exact absurd h (by simp [bind, Except.bind])
      · rw [if_neg hc] at h
        simp only [Except.ok.injEq, Prod.mk.injEq] at h
        rcases h with ⟨h1, _⟩
        rw [← h1]; exact hp
    · -- pContentLoop : accumulates Ok content without adjacent texts
      intro jsx content st content2 st2 h h1 h2 h3
      rw [pContentLoop] at h
      by_cases hc : (!st.eof && !(st.is (lit "</"))) = true
      · rw [if_pos hc] at h
        by_cases hel : (st.is (lit "<")) = true
        · rw [if_pos hel] at h
          match hx : pHtmlElement fuel jsx st with
          | .error e => rw [hx] at h; exact absurd h (by simp [bind, Except.bind])
          | .ok (el, st3) =>
            rw [hx] at h
            simp only [bind, Except.bind, pure, Except.pure] at h
            refine ihCL jsx (content ++ [HtmlContent.element el]) st3 content2 st2 h
              ?_ ?_ ?_
            · simp [elOkContent_append, h1, elOkContent, elOkChild,
                ihEl jsx st el st3 hx]
            · exact noAdjTexts_concat content _ h2 (fun _ => rfl)
            · rw [lastTextChild_concat]
              intro hfalse
              exact absurd hfalse (by simp [isTextChild])
        · rw [if_neg hel] at h
          by_cases hin : (!jsx && st.is (lit "@")) = true
          · rw [if_pos hin] at h
            match hx : pHtmlInsert fuel jsx st with
            | .error e => rw [hx] at h; exact absurd h (by simp [bind, Except.bind])
            | .ok (c, st3) =>
              rw [hx] at h
              simp only [bind, Except.bind] at h
              obtain ⟨hcOk, hcNotText⟩ := ihIns jsx st c st3 hx
              refine ihCL jsx (content ++ [c]) st3 content2 st2 h ?_ ?_ ?_
              · simp [elOkContent_append, h1, elOkContent, hcOk]
              · exact noAdjTexts_concat content c h2 (fun _ => hcNotText)
              · rw [lastTextChild_concat, hcNotText]
                intro hfalse; exact absurd hfalse (by simp)
          · rw [if_neg hin] at h
            by_cases hji : (jsx && st.is (lit "\x7b")) = true
            · rw [if_pos hji] at h
              match hx : pJsxHtmlInsert fuel jsx st with
              | .error e => rw [hx] at h; exact absurd h (by simp [bind, Except.bind])
              | .ok (c, st3) =>
                rw [hx] at h
                simp only [bind, Except.bind] at h
                obtain ⟨hcOk, hcNotText⟩ := ihJIns jsx st c st3 hx
                refine ihCL jsx (content ++ [c]) st3 content2 st2 h ?_ ?_ ?_
                · simp [elOkContent_append, h1, elOkContent, hcOk]
                · exact noAdjTexts_concat content c h2 (fun _ => hcNotText)
                · rw [lastTextChild_concat, hcNotText]
                  intro hfalse; exact absurd hfalse (by simp)
            · rw [if_neg hji] at h
              by_cases hcm : (st.is (lit "<!--")) = true
              · rw [if_pos hcm] at h
                match hx : pHtmlComment fuel st with
                | .error e => rw [hx] at h; exact absurd h (by simp [bind, Except.bind])
                | .ok (t, st3) =>
                  rw [hx] at h
                  simp only [bind, Except.bind, pure, Except.pure] at h
                  refine ihCL jsx (content ++ [HtmlContent.htmlComment t]) st3
                    content2 st2 h ?_ ?_ ?_
                  · simp [elOkContent_append, h1, elOkContent, elOkChild]
                  · exact noAdjTexts_concat content _ h2 (fun _ => rfl)
                  · rw [lastTextChild_concat]
                    intro hfalse
                    exact absurd hfalse (by simp [isTextChild])
              · rw [if_neg hcm] at h
                match hx : pHtmlText fuel jsx [] st with
                | .error e => rw [hx] at h; exact absurd h (by simp [bind, Except.bind])
                | .ok (t, st3) =>
                  rw [hx] at h
                  simp only [bind, Except.bind, pure, Except.pure] at h
                  have hstop : textStop jsx st = false := by
                    simp only [textStop]
                    have hc1 := hc
                    revert hc1 hel hin hji hcm
                    cases st.eof <;> cases st.is (lit "<") <;>
                      cases st.is (lit "<!--") <;> cases st.is (lit "</")  <;>
                      cases jsx <;> cases st.is (lit "\x7b") <;>
                      cases st.is (lit "@") <;> simp
                  have hlastF : lastTextChild content = false := by
                    cases hl : lastTextChild content with
                    | false => rfl
                    | true => rw [h3 hl] at hstop; exact absurd hstop (by simp)
                  refine ihCL jsx (content ++ [HtmlContent.htmlText t]) st3
                    content2 st2 h ?_ ?_ ?_
                  · simp [elOkContent_append, h1, elOkContent, elOkChild]
                  · refine noAdjTexts_concat content _ h2 ?_
                    intro hl; rw [hl] at hlastF; exact absurd hlastF (by simp)
                  · rw [lastTextChild_concat]
                    intro _
                    exact ihText jsx [] st t st3 hx
      · rw [if_neg hc] at h
        simp only [Except.ok.injEq, Prod.mk.injEq] at h
        rcases h with ⟨hh, _⟩
        rw [← hh]; exact ⟨h1, h2⟩
    · -- pHtmlElement : an Ok element
      intro jsx st el st2 h
      rw [pHtmlElement] at h
      by_cases hb : (!(st.is (lit "<"))) = true
      · rw [if_pos hb] at h; exact absurd h (by simp)
      · rw [if_neg hb] at h
        simp only [bind, Except.bind] at h
        match hsp : st.next.split matchIdentifier with
        | (tag, st1) =>
        rw [hsp] at h
        simp only [] at h
        by_cases htag : tag.isEmpty = true
        · rw [if_pos htag] at h; exact absurd h (by simp)
        · rw [if_neg htag] at h
          match hw : pSkipws fuel st1 with
          | .error e => rw [hw] at h; exact absurd h (by simp)
          | .ok st3 =>
            rw [hw] at h
            simp only [] at h
            match hx : pPropsLoop fuel jsx [] st3 with
            | .error e => rw [hx] at h; exact absurd h (by simp)
            | .ok (properties, st4) =>
              rw [hx] at h
              simp only [] at h
              have hpOk : elOkProps properties = true :=
                ihPL jsx [] st3 properties st4 hx (by simp [elOkProps])
              by_cases he : st4.eof = true
              · rw [if_pos he] at h; exact absurd h (by simp)
              · rw [if_neg he] at h
                by_cases hhc : st4.is (lit ">") = true
                · simp only [hhc, if_true] at h
                  match hy : pContentLoop fuel jsx [] st4.next with
                  | .error e => rw [hy] at h; exact absurd h (by simp)
                  | .ok (content, st5) =>
                    rw [hy] at h
                    simp only [] at h
                    obtain ⟨hcOk, hcAdj⟩ := ihCL jsx [] st4.next content st5 hy
                      (by simp [elOkContent]) (by simp [noAdjTexts])
                      (by intro hfalse; exact absurd hfalse (by simp [lastTextChild]))
                    by_cases hz : st5.eof = true
                    · rw [if_pos hz] at h; exact absurd h (by simp)
                    · rw [if_neg hz] at h
                      match hsp2 : st5.next.split matchIdentifier with
                      | (tag2, st6) =>
                      rw [hsp2] at h
                      simp only [] at h
                      by_cases hm3 : (!(tag == tag2)) = true
                      · rw [if_pos hm3] at h; exact absurd h (by simp)
                      · rw [if_neg hm3] at h
                        by_cases hm4 : (!(st6.is (lit ">"))) = true
                        · rw [if_pos hm4] at h; exact absurd h (by simp)
                        · rw [if_neg hm4] at h
                          simp only [Except.ok.injEq, Prod.mk.injEq] at h
                          rcases h with ⟨h1, _⟩
                          rw [← h1]
                          simp [elOkEl, hpOk, hcOk, hcAdj]
                · simp only [hhc, Bool.false_eq_true, if_false] at h
                  simp only [Except.ok.injEq, Prod.mk.injEq] at h
                  rcases h with ⟨h1, _⟩
                  rw [← h1]
                  simp [elOkEl, hpOk, elOkContent, noAdjTexts]
    · -- pCodeTopLevel : all segments Ok
      intro jsx segments text loc st ctl h hseg
      rw [pCodeTopLevel] at h
      by_cases hc : (!st.eof) = true
      · rw [if_pos hc] at h
        by_cases hel : (st.is (lit "<")) = true
        · rw [if_pos hel] at h
          match hx : pHtmlElement fuel jsx st with
          | .error e => rw [hx] at h; exact absurd h (by simp [bind, Except.bind])
          | .ok (el, st3) =>
            rw [hx] at h
            simp only [bind, Except.bind] at h
            refine ihTop jsx _ [] st3.LOC st3 ctl h ?_
            have helOk := ihEl jsx st el st3 hx
            by_cases ht : text.isEmpty = true
            · simp only [ht, if_true]
              simp [elOkSegs_append, hseg, elOkSegs, elOkSeg, helOk]
            · simp only [ht, Bool.false_eq_true, if_false]
              simp [elOkSegs_append, hseg, elOkSegs, elOkSeg, helOk]
        · rw [if_neg hel] at h
          by_cases hq : (st.is (lit "\"") || st.is (lit "'")) = true
          · rw [if_pos hq] at h
            match hx : pQuotedString fuel st with
            | .error e => rw [hx] at h; exact absurd h (by simp [bind, Except.bind])
            | .ok (q, st3) =>
              rw [hx] at h
              simp only [bind, Except.bind] at h
              exact ihTop jsx segments (text ++ q) loc st3 ctl h hseg
          · rw [if_neg hq] at h
            by_cases hlc : (st.is (lit "//")) = true
            · rw [if_pos hlc] at h
              match hx : pLineComment fuel st with
              | .error e => rw [hx] at h; exact absurd h (by simp [bind, Except.bind])
              | .ok (cm, st3) =>
                rw [hx] at h
                simp only [bind, Except.bind] at h
                exact ihTop jsx segments (text ++ cm) loc st3 ctl h hseg
            · rw [if_neg hlc] at h
              by_cases hbc : (st.is (lit "/*")) = true
              · rw [if_pos hbc] at h
                match hx : pBlockComment fuel st with
                | .error e => rw [hx] at h; exact absurd h (by simp [bind, Except.bind])
                | .ok (cm, st3) =>
                  rw [hx] at h
                  simp only [bind, Except.bind] at h
                  exact ihTop jsx segments (text ++ cm) loc st3 ctl h hseg
              · rw [if_neg hbc] at h
                exact ihTop jsx segments (text ++ st.tok) loc st.next ctl h hseg
      · rw [if_neg hc] at h
        simp only [Except.ok.injEq] at h
        rw [← h]
        simp only [ctlOk]
        by_cases ht : text.isEmpty = true
        · simpa [ht] using hseg
        · simp [ht, elOkSegs_append, hseg, elOkSegs, elOkSeg]

/-! ## C1 -/

/-- C1, counterexample: for `let x = <div onClick={f}>hi</div>;` under the
default options, the output of `preprocess` does not contain
`Surplus.createTextNode('hi', __)` — the text child is promoted to a
`textContent` property by the transform pipeline, so the claimed
`createTextNode` call is absent. -/
theorem C1_counterexample :
    preprocess C1input jsxParams = .ok (POut.str C1output) ∧
    containsSub C1output (lit "Surplus.createTextNode(\x27hi\x27, __)") = false :=
  ⟨by rfl, by rfl⟩

/-- C1 (amended): for `let x = <div onClick={f}>hi</div>;` under the default
options (jsx dialect, sourcemap null), preprocess returns code containing an
IIFE that declares `__`, contains `__.onclick = f;` emitted as a plain
statement and not wrapped in a `Surplus.S(...)` reactive computation
(because `f` has no parenthesis and passes the no-apparent-signals
heuristic), and promotes the text child `hi` to a static `textContent`
property, emitting `__.textContent = 'hi';` and no `Surplus.createTextNode`
call. -/
theorem C1_promoted_text_plain_onclick :
    preprocess C1input jsxParams = .ok (POut.str C1output) ∧
    containsSub C1output (lit "(function () \x7b") = true ∧
    containsSub C1output (lit "var __;") = true ∧
    containsSub C1output (lit "__.onclick = f;") = true ∧
    containsSub C1output (lit "Surplus.S") = false ∧
    noApparentSignals (lit "f") = true ∧
    containsSub C1output (lit "__.textContent = \x27hi\x27;") = true ∧
    containsSub C1output (lit "Surplus.createTextNode") = false :=
  ⟨by rfl, by rfl, by rfl, by rfl, by rfl, by rfl, by rfl, by rfl⟩

/-! ## C3 -/

/-- C3: every Html-dialect element (tag not starting with an uppercase
letter) with an empty property list and empty content compiles to the single
call `Surplus.createRootElement("tag")` with no IIFE; in particular
`preprocess` of `let x = <div></div>;` yields
`let x = Surplus.createRootElement("div");` containing no IIFE opener and no
reactive computation. -/
theorem C3_leaf_optimization :
    (∀ (fuel : Nat) (opts : Params) (tag : Str) (loc : LOC) (ind : Str),
        opts.sourcemap = none → upperStart tag = false →
        compileHtmlElement (fuel + 1) opts (HtmlElement.mk tag [] [] loc) ind =
          .ok (lit "Surplus.createRootElement(\"" ++ tag ++ lit "\")")) ∧
    preprocess (lit "let x = <div></div>;") jsxParams =
      .ok (POut.str (lit "let x = Surplus.createRootElement(\"div\");")) ∧
    containsSub (outStr (preprocess (lit "let x = <div></div>;") jsxParams))
      (lit "(function") = false ∧
    containsSub (outStr (preprocess (lit "let x = <div></div>;") jsxParams))
      (lit "Surplus.S") = false := by
  refine ⟨?_, by rfl, by rfl, by rfl⟩
  intro fuel opts tag loc ind hsm htag
  simp [compileHtmlElement, htag, markLoc, hsm]

/-- Witness for C3's universal part at a concrete element. -/
theorem C3_leaf_optimization_witness :
    compileHtmlElement 1 jsxParams (HtmlElement.mk (lit "div") [] [] ⟨0, 0, 0⟩) [] =
      .ok (lit "Surplus.createRootElement(\"" ++ lit "div" ++ lit "\")") :=
  C3_leaf_optimization.1 0 jsxParams (lit "div") ⟨0, 0, 0⟩ [] rfl rfl

/-! ## C5 -/

/-- C5, counterexample: in the native dialect, `preprocess` of
`let x = <div>&amp;&#65;</div>;` does not produce the text `&A` anywhere in
its output: the transform pipeline `preprocess` uses (bundle lines 889-895)
contains no HTML-entity translation, so the text is promoted verbatim. -/
theorem C5_counterexample :
    preprocess C5input nativeParams = .ok (POut.str C5output) ∧
    containsSub C5output (lit "&A") = false :=
  ⟨by rfl, by rfl⟩

/-! ## C10 -/

theorem isWsText_transformChild (c : HtmlContent) :
    isWsText (transformChild c) = isWsText c := by
  cases c <;> rfl

theorem filter_transformContent (cs : List HtmlContent) :
    (transformContent cs).filter (fun c => !isWsText c) =
      transformContent (cs.filter fun c => !isWsText c) := by
  induction cs with
  | nil => rfl
  | cons c cs ih =>
    simp only [transformContent, List.filter_cons, isWsText_transformChild]
    by_cases h : isWsText c
    · simp [h, ih]
    · simp only [h]
      simp only [Bool.not_false, if_pos trivial, transformContent, ih]

/-- C10, counterexample: a `div` whose first child is a whitespace-only Text
(followed by a `span`) gets no `textContent` property at all: the
whitespace-removal step deletes that Text before promotion can see it, so
the claim's unconditional promotion of the first Text child fails. -/
theorem C10_counterexample :
    (transformElement C10element).properties = [] ∧
    (transformElement C10element).content =
      [HtmlContent.element (.mk (lit "span") [] [] ⟨0, 0, 0⟩)] :=
  ⟨rfl, rfl⟩

/-- C10 (amended): for every Html-dialect (lowercase-tag) element, when the
first child remaining after whitespace-only Text removal is a Text node, the
transform pipeline promotes that Text to a `StaticProperty` named
`textContent` (value encoded via `codeStr`) appended after the translated
properties and then deduplicated, removes only that child, and keeps the
remaining (whitespace-filtered, recursively transformed) children in
place — whenever that first child is Text, even when the element has
additional children. -/
theorem C10_first_remaining_text_promoted :
    ∀ (tag : Str) (props : List HtmlProperty) (content : List HtmlContent) (loc : LOC)
      (t : Str) (rest : List HtmlContent),
      lowerStart tag = true →
      content.filter (fun c => !isWsText c) = HtmlContent.htmlText t :: rest →
      transformElement (.mk tag props content loc) =
        .mk tag
          (removeDuplicateProps (translatePropsIfHtml tag (transformProps props) ++
            [.staticProperty (lit "textContent") (codeStr t)]))
          (transformContent rest) loc := by
  intro tag props content loc t rest hl hfil
  simp only [transformElement, nodeOps, removeWhitespaceTextNodesEl]
  rw [filter_transformContent, hfil]
  simp only [transformContent, transformChild, translateJSXPropertyNamesEl,
    promoteInitialTextNodesEl, hl, if_pos, removeDuplicatePropertiesEl]

/-- Witness for C10's amended theorem at a concrete element. -/
theorem C10_first_remaining_text_promoted_witness :
    transformElement (.mk (lit "div") [] [HtmlContent.htmlText (lit "a"),
        HtmlContent.element (.mk (lit "span") [] [] ⟨0, 0, 0⟩)] ⟨0, 0, 0⟩) =
      .mk (lit "div")
        (removeDuplicateProps (translatePropsIfHtml (lit "div") (transformProps []) ++
          [.staticProperty (lit "textContent") (codeStr (lit "a"))]))
        (transformContent [HtmlContent.element (.mk (lit "span") [] [] ⟨0, 0, 0⟩)])
        ⟨0, 0, 0⟩ :=
  C10_first_remaining_text_promoted (lit "div") [] _ ⟨0, 0, 0⟩ (lit "a") _ rfl rfl

/-! ## C5 -/

/-- C5 (amended): the transform stage applied by `preprocess` leaves Text
nodes untouched (no HTML-entity translation and no error in any dialect);
in particular, `preprocess` of `let x = <div>&amp;&#65;</div>;` in the
native dialect promotes the untranslated text `&amp;&#65;` to a static
`textContent` property. -/
theorem C5_entities_untranslated :
    (∀ t : Str, transformChild (HtmlContent.htmlText t) = HtmlContent.htmlText t) ∧
    preprocess C5input nativeParams = .ok (POut.str C5output) ∧
    containsSub C5output (lit "__.textContent = \x27&amp;&#65;\x27;") = true :=
  ⟨fun _ => rfl, by rfl, by rfl⟩


/-! ## C7 : transform idempotence on parser outputs -/

theorem char_toNat_le_of_le {c d : Char} (h : c ≤ d) : c.toNat ≤ d.toNat := by
  have := Char.le_def.mp h
  simpa [Char.toNat, UInt32.le_def, BitVec.le_def] using this

theorem upper_shift32_toNat (c : Char) (h2 : c ≤ 'Z') :
    (Char.ofNat (c.toNat + 32)).toNat = c.toNat + 32 := by
  have hle : c.toNat ≤ 90 := by
    have := char_toNat_le_of_le h2
    simpa using this
  have hv : (c.toNat + 32).isValidChar := by
    left
    omega
  rw [Char.ofNat, dif_pos hv]
  simp [Char.ofNatAux, Char.toNat, UInt32.toNat, UInt32.ofNat', BitVec.toNat_ofNatLt]

theorem upper_toLower_not_upper (c : Char) (h : ('A' ≤ c && c ≤ 'Z') = true) :
    ('A' ≤ Char.ofNat (c.toNat + 32) && Char.ofNat (c.toNat + 32) ≤ 'Z') = false := by
  simp only [Bool.and_eq_true, decide_eq_true_eq] at h
  obtain ⟨h1, h2⟩ := h
  have ht := upper_shift32_toNat c h2
  have : ¬ (Char.ofNat (c.toNat + 32) ≤ 'Z') := by
    intro hc
    have h3 := char_toNat_le_of_le hc
    rw [ht] at h3
    have h4 := char_toNat_le_of_le h1
    have hz : ('Z' : Char).toNat = 90 := rfl
    have ha : ('A' : Char).toNat = 65 := rfl
    rw [hz] at h3
    rw [ha] at h4
    omega
  simp [this]

theorem jsxEventProperty_jsToLower (n : Str) (h : jsxEventProperty n = true) :
    jsxEventProperty (jsToLower n) = false := by
  unfold jsxEventProperty at h
  split at h
  · next c rest =>
    simp only [jsToLower, List.map_cons,
      show (('A' ≤ 'o' && 'o' ≤ 'Z')) = false from by decide,
      show (('A' ≤ 'n' && 'n' ≤ 'Z')) = false from by decide,
      Bool.false_eq_true, if_false]
    rw [if_pos h]
    simpa [jsxEventProperty] using upper_toLower_not_upper c h
  · exact absurd h (by simp)

theorem translateName_idem (n : Str) :
    translateJSXPropertyName (translateJSXPropertyName n) =
      translateJSXPropertyName n := by
  by_cases h : jsxEventProperty n = true
  · have hr : jsxEventProperty (translateJSXPropertyName n) = false := by
      rw [translateJSXPropertyName, if_pos h]
      by_cases hd : n = lit "onDoubleClick"
      · rw [if_pos hd]; rfl
      · rw [if_neg hd]
        exact jsxEventProperty_jsToLower n h
    rw [translateJSXPropertyName]
    simp [hr]
  · have h' : jsxEventProperty n = false := by
      revert h; cases jsxEventProperty n <;> simp
    simp [translateJSXPropertyName, h']

theorem translateProp_idem (p : HtmlProperty) :
    translateProp (translateProp p) = translateProp p := by
  cases p with
  | staticProperty n v => rfl
  | dynamicProperty n c l => simp [translateProp, translateName_idem]
  | mixin c l => rfl

theorem transformProp_translateProp (p : HtmlProperty) :
    transformProp (translateProp p) = translateProp (transformProp p) := by
  cases p <;> rfl

theorem transformProps_pointwise (l : List HtmlProperty)
    (h : transformProps l = l) : ∀ q ∈ l, transformProp q = q := by
  induction l with
  | nil => intro q hq; exact absurd hq (by simp)
  | cons p r ih =>
    simp only [transformProps, List.cons.injEq] at h
    obtain ⟨h1, h2⟩ := h
    intro q hq
    rcases List.mem_cons.mp hq with hq | hq
    · rw [hq]; exact h1
    · exact ih h2 q hq

theorem transformProps_of_pointwise (l : List HtmlProperty)
    (h : ∀ q ∈ l, transformProp q = q) : transformProps l = l := by
  induction l with
  | nil => rfl
  | cons p r ih =>
    simp only [transformProps]
    rw [h p (by simp), ih (fun q hq => h q (by simp [hq]))]

theorem transformContent_pointwise (l : List HtmlContent)
    (h : transformContent l = l) : ∀ c ∈ l, transformChild c = c := by
  induction l with
  | nil => intro c hc; exact absurd hc (by simp)
  | cons p r ih =>
    simp only [transformContent, List.cons.injEq] at h
    obtain ⟨h1, h2⟩ := h
    intro c hc
    rcases List.mem_cons.mp hc with hc | hc
    · rw [hc]; exact h1
    · exact ih h2 c hc

theorem transformContent_of_pointwise (l : List HtmlContent)
    (h : ∀ c ∈ l, transformChild c = c) : transformContent l = l := by
  induction l with
  | nil => rfl
  | cons p r ih =>
    simp only [transformContent]
    rw [h p (by simp), ih (fun c hc => h c (by simp [hc]))]

theorem isTextChild_transformChild (c : HtmlContent) :
    isTextChild (transformChild c) = isTextChild c := by cases c <;> rfl

theorem headText_transformContent (l : List HtmlContent) :
    headText (transformContent l) = headText l := by
  cases l with
  | nil => rfl
  | cons c r => simp [transformContent, headText, isTextChild_transformChild]

theorem noAdjTexts_transformContent (l : List HtmlContent) :
    noAdjTexts (transformContent l) = noAdjTexts l := by
  induction l with
  | nil => rfl
  | cons c r ih =>
    rw [transformContent, noAdjTexts_cons, noAdjTexts_cons, ih,
      isTextChild_transformChild, headText_transformContent]

theorem isWsText_of_not_text (c : HtmlContent) (h : isTextChild c = false) :
    isWsText c = false := by
  cases c <;> simp [isTextChild, isWsText] at *

theorem noAdjTexts_filterWs (l : List HtmlContent) (h : noAdjTexts l = true) :
    noAdjTexts (l.filter fun c => !isWsText c) = true := by
  induction l with
  | nil => simpa using h
  | cons c r ih =>
    rw [noAdjTexts_cons] at h
    rcases Bool.and_eq_true_iff.mp h with ⟨hc, hr⟩
    rw [List.filter_cons]
    by_cases hw : (!isWsText c) = true
    · rw [if_pos hw]
      rw [noAdjTexts_cons, ih hr, Bool.and_true]
      cases hct : isTextChild c with
      | false => simp
      | true =>
        have hhr : headText r = false := by
          revert hc; rw [hct]; cases headText r <;> simp
        cases r with
        | nil => simp [headText]
        | cons c2 r2 =>
          have hc2 : isTextChild c2 = false := by
            simpa [headText_cons] using hhr
          have hw2 : (!isWsText c2) = true := by
            rw [isWsText_of_not_text c2 hc2]; rfl
          rw [List.filter_cons, if_pos hw2, headText_cons, hc2]
          simp
    · rw [if_neg hw]
      exact ih hr

theorem promote_nofire_head (tag : Str) (P : List HtmlProperty)
    (C : List HtmlContent) (loc : LOC) (h : headText C = false) :
    promoteInitialTextNodesEl (.mk tag P C loc) = .mk tag P C loc := by
  cases C with
  | nil => rfl
  | cons c r =>
    cases c with
    | htmlText t => simp [headText_cons, isTextChild] at h
    | htmlComment t => rfl
    | htmlInsert code l2 => rfl
    | element e => rfl

theorem promote_nofire_upper (tag : Str) (P : List HtmlProperty)
    (C : List HtmlContent) (loc : LOC) (h : lowerStart tag = false) :
    promoteInitialTextNodesEl (.mk tag P C loc) = .mk tag P C loc := by
  cases C with
  | nil => rfl
  | cons c r =>
    cases c with
    | htmlText t => simp [promoteInitialTextNodesEl, h]
    | htmlComment t => rfl
    | htmlInsert code l2 => rfl
    | element e => rfl

theorem dedup_noop_of_nodup (props : List HtmlProperty)
    (h : (nonMixinNames props).Nodup) :
    removeDuplicateProps props = props := by
  induction props using List.reverseRecOn with
  | nil => exact dedup_nil
  | append_singleton ps p ih =>
    match hp : propName? p with
    | none =>
      rw [dedup_snoc_mixin ps p hp]
      rw [ih (by
        rw [nonMixinNames_append] at h
        simpa [nonMixinNames, hp] using h.sublist (List.sublist_append_left _ _))]
    | some n =>
      rw [dedup_snoc_named ps p n hp]
      rw [nonMixinNames_append] at h
      have hh : (nonMixinNames ps ++ [n]).Nodup := by
        simpa [nonMixinNames, hp] using h
      rw [List.nodup_append] at hh
      obtain ⟨hn1, _, hn3⟩ := hh
      have hnot : n ∉ nonMixinNames ps := by
        intro hmem
        exact (hn3 hmem) (by simp)
      rw [ih hn1]
      have hfil : ps.filter (fun q => decide (propName? q ≠ some n)) = ps := by
        apply List.filter_eq_self.mpr
        intro q hq
        cases hq2 : propName? q with
        | none => simp [hq2]
        | some m =>
          have hm : m ∈ nonMixinNames ps := by
            simp only [nonMixinNames, List.mem_filterMap]
            exact ⟨q, hq, hq2⟩
          have hne : m ≠ n := fun he => hnot (he ▸ hm)
          simp [hq2, hne]
      rw [hfil]

theorem map_id_of_forall {α : Type} (f : α → α) (l : List α)
    (h : ∀ x ∈ l, f x = x) : l.map f = l := by
  induction l with
  | nil => rfl
  | cons x r ih =>
    simp only [List.map_cons]
    rw [h x (by simp), ih (fun y hy => h y (by simp [hy]))]

theorem nodeOps_fixed (tag : Str) (P3 : List HtmlProperty)
    (C2 : List HtmlContent) (loc : LOC)
    (hPfix : ∀ q ∈ P3, transformProp q = q)
    (hPtr : translatePropsIfHtml tag P3 = P3)
    (hPded : removeDuplicateProps P3 = P3)
    (hCfix : ∀ c ∈ C2, transformChild c = c)
    (hCnws : ∀ c ∈ C2, isWsText c = false)
    (hnoprom : promoteInitialTextNodesEl (.mk tag P3 C2 loc) = .mk tag P3 C2 loc) :
    transformElement (.mk tag P3 C2 loc) = .mk tag P3 C2 loc := by
  have hfil : C2.filter (fun c => !isWsText c) = C2 :=
    List.filter_eq_self.mpr (fun c hc => by rw [hCnws c hc]; rfl)
  show nodeOps (.mk tag (transformProps P3) (transformContent C2) loc) = _
  rw [transformProps_of_pointwise P3 hPfix, transformContent_of_pointwise C2 hCfix]
  show removeDuplicatePropertiesEl (promoteInitialTextNodesEl
    (translateJSXPropertyNamesEl (.mk tag P3 (C2.filter fun c => !isWsText c) loc))) = _
  rw [hfil]
  show removeDuplicatePropertiesEl (promoteInitialTextNodesEl
    (.mk tag (translatePropsIfHtml tag P3) C2 loc)) = _
  rw [hPtr, hnoprom]
  show HtmlElement.mk tag (removeDuplicateProps P3) C2 loc = _
  rw [hPded]

theorem transformElement_nodeOps_fixed (tag : Str) (PS : List HtmlProperty)
    (CS : List HtmlContent) (loc : LOC)
    (hP : ∀ q ∈ PS, transformProp q = q)
    (hC : ∀ c ∈ CS, transformChild c = c)
    (hAdj : noAdjTexts CS = true) :
    transformElement (nodeOps (.mk tag PS CS loc)) = nodeOps (.mk tag PS CS loc) := by
  set fc := CS.filter (fun c => !isWsText c) with hfcdef
  set PS1 := translatePropsIfHtml tag PS with hPS1def
  have hfc_mem : ∀ c ∈ fc, c ∈ CS := fun c hc => (List.mem_filter.mp hc).1
  have hfc_nws : ∀ c ∈ fc, isWsText c = false := fun c hc => by
    have := (List.mem_filter.mp hc).2
    simpa using this
  have hAdjfc : noAdjTexts fc = true := noAdjTexts_filterWs CS hAdj
  have hCfc : ∀ c ∈ fc, transformChild c = c := fun c hc => hC c (hfc_mem c hc)
  have hPS1fix : ∀ q ∈ PS1, transformProp q = q := by
    intro q hq
    by_cases hl : lowerStart tag = true
    · rw [hPS1def, translatePropsIfHtml, if_pos hl] at hq
      obtain ⟨x, hx, hxq⟩ := List.mem_map.mp hq
      rw [← hxq, transformProp_translateProp, hP x hx]
    · rw [hPS1def, translatePropsIfHtml, if_neg hl] at hq
      exact hP q hq
  have hPS1tr : lowerStart tag = true → ∀ q ∈ PS1, translateProp q = q := by
    intro hl q hq
    rw [hPS1def, translatePropsIfHtml, if_pos hl] at hq
    obtain ⟨x, hx, hxq⟩ := List.mem_map.mp hq
    rw [← hxq, translateProp_idem]
  have hstep0 : nodeOps (.mk tag PS CS loc) =
      removeDuplicatePropertiesEl (promoteInitialTextNodesEl (.mk tag PS1 fc loc)) := rfl
  by_cases hl : lowerStart tag = true
  · by_cases hh : headText fc = true
    · obtain ⟨t, rest, hfc3⟩ : ∃ t rest, fc = HtmlContent.htmlText t :: rest := by
        match hfc4 : fc with
        | [] => simp [headText] at hh
        | HtmlContent.htmlText t :: r => exact ⟨t, r, rfl⟩
        | HtmlContent.htmlComment t :: r => simp [headText, isTextChild] at hh
        | HtmlContent.htmlInsert code l2 :: r => simp [headText, isTextChild] at hh
        | HtmlContent.element e :: r => simp [headText, isTextChild] at hh
      have hAdjrest : headText rest = false := by
        rw [hfc3, noAdjTexts_cons] at hAdjfc
        rcases Bool.and_eq_true_iff.mp hAdjfc with ⟨h1, _⟩
        revert h1
        simp only [isTextChild, Bool.true_and]
        cases headText rest <;> simp
      have hstep : nodeOps (.mk tag PS CS loc) =
          .mk tag (removeDuplicateProps
              (PS1 ++ [.staticProperty (lit "textContent") (codeStr t)])) rest loc := by
        rw [hstep0, hfc3]
        simp only [promoteInitialTextNodesEl, hl, if_true, removeDuplicatePropertiesEl]
      rw [hstep]
      apply nodeOps_fixed
      · intro q hq
        have hq2 := (dedup_sublist _).subset hq
        rcases List.mem_append.mp hq2 with hq3 | hq3
        · exact hPS1fix q hq3
        · simp only [List.mem_singleton] at hq3
          rw [hq3]; rfl
      · rw [translatePropsIfHtml, if_pos hl]
        apply map_id_of_forall
        intro q hq
        have hq2 := (dedup_sublist _).subset hq
        rcases List.mem_append.mp hq2 with hq3 | hq3
        · exact hPS1tr hl q hq3
        · simp only [List.mem_singleton] at hq3
          rw [hq3]; rfl
      · exact dedup_noop_of_nodup _ (dedup_names_nodup _)
      · intro c hc
        exact hCfc c (by rw [hfc3]; exact List.mem_cons_of_mem _ hc)
      · intro c hc
        exact hfc_nws c (by rw [hfc3]; exact List.mem_cons_of_mem _ hc)
      · exact promote_nofire_head tag _ rest loc hAdjrest
    · have hh' : headText fc = false := by
        revert hh; cases headText fc <;> simp
      have hstep : nodeOps (.mk tag PS CS loc) =
          .mk tag (removeDuplicateProps PS1) fc loc := by
        rw [hstep0, promote_nofire_head tag PS1 fc loc hh']
        rfl
      rw [hstep]
      apply nodeOps_fixed
      · intro q hq
        exact hPS1fix q ((dedup_sublist _).subset hq)
      · rw [translatePropsIfHtml, if_pos hl]
        apply map_id_of_forall
        intro q hq
        exact hPS1tr hl q ((dedup_sublist _).subset hq)
      · exact dedup_noop_of_nodup _ (dedup_names_nodup _)
      · exact fun c hc => hCfc c hc
      · exact fun c hc => hfc_nws c hc
      · exact promote_nofire_head tag _ fc loc hh'
  · have hl' : lowerStart tag = false := by
      revert hl; cases lowerStart tag <;> simp
    have hstep : nodeOps (.mk tag PS CS loc) =
        .mk tag (removeDuplicateProps PS1) fc loc := by
      rw [hstep0, promote_nofire_upper tag PS1 fc loc hl']
      rfl
    rw [hstep]
    apply nodeOps_fixed
    · intro q hq
      exact hPS1fix q ((dedup_sublist _).subset hq)
    · rw [translatePropsIfHtml, if_neg hl]
    · exact dedup_noop_of_nodup _ (dedup_names_nodup _)
    · exact fun c hc => hCfc c hc
    · exact fun c hc => hfc_nws c hc
    · exact promote_nofire_upper tag _ fc loc hl'

mutual

theorem transformElement_idem : ∀ e : HtmlElement, elOkEl e = true →
    transformElement (transformElement e) = transformElement e
  | .mk t ps cs l => fun h => by
    have h1 : elOkProps ps = true := by
      simp only [elOkEl, Bool.and_eq_true] at h; exact h.1.1
    have h2 : elOkContent cs = true := by
      simp only [elOkEl, Bool.and_eq_true] at h; exact h.1.2
    have h3 : noAdjTexts cs = true := by
      simp only [elOkEl, Bool.and_eq_true] at h; exact h.2
    have hPpt := transformProps_pointwise _ (transformProps_idem ps h1)
    have hCpt := transformContent_pointwise _ (transformContent_idem cs h2)
    have hAdj2 : noAdjTexts (transformContent cs) = true := by
      rw [noAdjTexts_transformContent]; exact h3
    exact transformElement_nodeOps_fixed t _ _ l hPpt hCpt hAdj2

theorem transformProps_idem : ∀ ps : List HtmlProperty, elOkProps ps = true →
    transformProps (transformProps ps) = transformProps ps
  | [] => fun _ => rfl
  | p :: rest => fun h => by
    have h1 : elOkProp p = true := by
      simp only [elOkProps, Bool.and_eq_true] at h; exact h.1
    have h2 : elOkProps rest = true := by
      simp only [elOkProps, Bool.and_eq_true] at h; exact h.2
    simp only [transformProps]
    rw [transformProp_idem p h1, transformProps_idem rest h2]

theorem transformProp_idem : ∀ p : HtmlProperty, elOkProp p = true →
    transformProp (transformProp p) = transformProp p
  | .staticProperty _ _ => fun _ => rfl
  | .dynamicProperty n c l => fun h => by
    simp only [transformProp]
    rw [transformEC_idem c (by simpa [elOkProp] using h)]
  | .mixin c l => fun h => by
    simp only [transformProp]
    rw [transformEC_idem c (by simpa [elOkProp] using h)]

theorem transformContent_idem : ∀ cs : List HtmlContent, elOkContent cs = true →
    transformContent (transformContent cs) = transformContent cs
  | [] => fun _ => rfl
  | c :: rest => fun h => by
    have h1 : elOkChild c = true := by
      simp only [elOkContent, Bool.and_eq_true] at h; exact h.1
    have h2 : elOkContent rest = true := by
      simp only [elOkContent, Bool.and_eq_true] at h; exact h.2
    simp only [transformContent]
    rw [transformChild_idem c h1, transformContent_idem rest h2]

theorem transformChild_idem : ∀ c : HtmlContent, elOkChild c = true →
    transformChild (transformChild c) = transformChild c
  | .htmlText _ => fun _ => rfl
  | .htmlComment _ => fun _ => rfl
  | .htmlInsert c l => fun h => by
    simp only [transformChild]
    rw [transformEC_idem c (by simpa [elOkChild] using h)]
  | .element e => fun h => by
    simp only [transformChild]
    rw [transformElement_idem e (by simpa [elOkChild] using h)]

theorem transformEC_idem : ∀ c : EmbeddedCode, elOkEC c = true →
    transformEC (transformEC c) = transformEC c
  | .mk segs => fun h => by
    simp only [transformEC]
    rw [transformSegments_idem segs (by simpa [elOkEC] using h)]

theorem transformSegments_idem : ∀ ss : List CodeSegment, elOkSegs ss = true →
    transformSegments (transformSegments ss) = transformSegments ss
  | [] => fun _ => rfl
  | s :: rest => fun h => by
    have h1 : elOkSeg s = true := by
      simp only [elOkSegs, Bool.and_eq_true] at h; exact h.1
    have h2 : elOkSegs rest = true := by
      simp only [elOkSegs, Bool.and_eq_true] at h; exact h.2
    simp only [transformSegments]
    rw [transformSegment_idem s h1, transformSegments_idem rest h2]

theorem transformSegment_idem : ∀ s : CodeSegment, elOkSeg s = true →
    transformSegment (transformSegment s) = transformSegment s
  | .codeText _ _ => fun _ => rfl
  | .element e => fun h => by
    simp only [transformSegment]
    rw [transformElement_idem e (by simpa [elOkSeg] using h)]

end

theorem transform_idem_of_ctlOk (ctl : CodeTopLevel) (h : ctlOk ctl = true) :
    transform (transform ctl) = transform ctl := by
  cases ctl with
  | mk segs =>
    simp only [transform]
    rw [transformSegments_idem segs (by simpa [ctlOk] using h)]

/-- C7: for every AST the parser can produce, applying the composed
transform pipeline twice yields the same AST as applying it once. -/
theorem C7_transform_idempotent :
    ∀ (toks : List Str) (opts : Params) (ctl : CodeTopLevel),
    parse toks opts = .ok ctl →
    transform (transform ctl) = transform ctl := by
  intro toks opts ctl h
  obtain ⟨_, _, _, _, _, _, _, _, _, _, _, _, _, _, hTop⟩ :=
    parser_elOk (16 * (toksSize toks + 2))
  have h' : pCodeTopLevel (16 * (toksSize toks + 2)) opts.jsx [] [] ⟨0, 0, 0⟩
      ⟨toks, 0, 0, 0⟩ = .ok ctl := h
  exact transform_idem_of_ctlOk ctl
    (hTop opts.jsx [] [] ⟨0, 0, 0⟩ ⟨toks, 0, 0, 0⟩ ctl h' (by simp [elOkSegs]))

/-- C7, witness: the idempotence theorem applied to the parse of
`let x = <div>hi</div>;`. -/
theorem C7_transform_idempotent_witness :
    transform (transform (CodeTopLevel.mk
      [CodeSegment.codeText (lit "let x = ") ⟨0, 0, 0⟩,
       CodeSegment.element (.mk (lit "div") [] [HtmlContent.htmlText (lit "hi")] ⟨0, 8, 8⟩),
       CodeSegment.codeText (lit ";") ⟨0, 21, 21⟩])) =
    transform (CodeTopLevel.mk
      [CodeSegment.codeText (lit "let x = ") ⟨0, 0, 0⟩,
       CodeSegment.element (.mk (lit "div") [] [HtmlContent.htmlText (lit "hi")] ⟨0, 8, 8⟩),
       CodeSegment.codeText (lit ";") ⟨0, 21, 21⟩]) :=
  C7_transform_idempotent (tokenize (lit "let x = <div>hi</div>;")) jsxParams _ rfl


/-! ## C8 : source-map extraction bookkeeping -/

theorem deltasOk_snoc (l : List SegmentRec) (p : Int) (seg : SegmentRec) :
    deltasOk p (l ++ [seg]) =
      (deltasOk p l &&
        (seg.genColDelta == seg.genCol -
          ((l.getLast?.map SegmentRec.genCol).getD p))) := by
  induction l generalizing p with
  | nil => simp [deltasOk]
  | cons a r ih =>
    simp only [List.cons_append, deltasOk, List.append_eq]
    rw [ih a.genCol, Bool.and_assoc]
    cases r with
    | nil => simp [deltasOk]
    | cons b r2 =>
      obtain ⟨x, hx⟩ : ∃ x, (b :: r2).getLast? = some x := by
        cases h : (b :: r2).getLast? with
        | some x => exact ⟨x, rfl⟩
        | none => simp at h
      rw [List.getLast?_cons_cons, hx]
      simp

theorem getLast?_mem' {α : Type} {l : List α} {a : α} (h : l.getLast? = some a) :
    a ∈ l := by
  obtain ⟨ys, rfl⟩ := List.getLast?_eq_some_iff.mp h
  simp

theorem emScanGo_inv : ∀ (fuel : Nat) (s : Str) (st : EMState),
    canonicalMarksGo fuel s = true →
    (st.pos : Int) - st.lineStartPos - st.lineMarksLength = (st.outLineLen : Int) →
    (∀ seg ∈ st.line, seg.genCol = (seg.commentCol : Int) ∧ 0 ≤ seg.genCol ∧
      seg.genCol < (st.outLineLen : Int)) →
    List.Chain' (fun a b => a.genCol < b.genCol) st.line →
    deltasOk 0 st.line = true →
    st.lastGeneratedCol = ((st.line.getLast?).map SegmentRec.genCol).getD 0 →
    (∀ l ∈ st.lines, lineOk l) →
    (∀ l ∈ (emScanGo fuel s st).lines ++ [(emScanGo fuel s st).line], lineOk l) ∧
    (((emScanGo fuel s st).lines ++ [(emScanGo fuel s st).line]).map List.length).sum =
      ((st.lines ++ [st.line]).map List.length).sum + countMarksGo fuel s ∧
    (emScanGo fuel s st).out = st.out ++ replaceMarksGo fuel s := by
  intro fuel
  induction fuel with
  | zero =>
    intro s st hc hA hB hC hD hE hF
    simp only [emScanGo, countMarksGo, replaceMarksGo]
    refine ⟨?_, by simp, by simp⟩
    intro l hl
    rcases List.mem_append.mp hl with hl | hl
    · exact hF l hl
    · simp only [List.mem_singleton] at hl
      subst hl
      exact ⟨fun seg hs => ⟨(hB seg hs).1, (hB seg hs).2.1⟩, hC, hD⟩
  | succ fuel ih =>
    intro s st hc hA hB hC hD hE hF
    match s with
    | [] =>
      simp only [emScanGo, countMarksGo, replaceMarksGo]
      refine ⟨?_, by simp, by simp⟩
      intro l hl
      rcases List.mem_append.mp hl with hl | hl
      · exact hF l hl
      · simp only [List.mem_singleton] at hl
        subst hl
        exact ⟨fun seg hs => ⟨(hB seg hs).1, (hB seg hs).2.1⟩, hC, hD⟩
    | c :: rest =>
      by_cases hnl : c = '\n'
      · simp only [emScanGo, countMarksGo, replaceMarksGo, if_pos hnl]
        simp only [canonicalMarksGo, if_pos hnl] at hc
        have hres := ih rest { st with
            lines := st.lines ++ [st.line], line := [],
            lineStartPos := (st.pos : Int) + 1, lineMarksLength := 0,
            lastGeneratedCol := 0,
            pos := st.pos + 1, out := st.out ++ ['\n'], outLineLen := 0 }
          hc (by push_cast; omega) (by simp) (by simp) (by simp [deltasOk])
          (by simp)
          (by
            intro l hl
            rcases List.mem_append.mp hl with hl | hl
            · exact hF l hl
            · simp only [List.mem_singleton] at hl
              subst hl
              exact ⟨fun seg hs => ⟨(hB seg hs).1, (hB seg hs).2.1⟩, hC, hD⟩)
        obtain ⟨r1, r2, r3⟩ := hres
        refine ⟨r1, ?_, ?_⟩
        · rw [r2]
          simp [List.sum_append] <;> omega
        · rw [r3]
          simp [List.append_assoc]
      · match hm : parseMark (c :: rest) with
        | none =>
          simp only [emScanGo, countMarksGo, replaceMarksGo, if_neg hnl, hm]
          simp only [canonicalMarksGo, if_neg hnl, hm] at hc
          have hres := ih rest { st with
              pos := st.pos + 1
              out := st.out ++ [c]
              outLineLen := st.outLineLen + 1 }
            hc (by push_cast; push_cast at hA; omega)
            (by
              intro seg hs
              refine ⟨(hB seg hs).1, (hB seg hs).2.1, ?_⟩
              have := (hB seg hs).2.2
              push_cast
              omega)
            hC hD hE hF
          obtain ⟨r1, r2, r3⟩ := hres
          exact ⟨r1, by rw [r2], by rw [r3]; simp [List.append_assoc]⟩
        | some (l0, c0, len) =>
          simp only [emScanGo, countMarksGo, replaceMarksGo, if_neg hnl, hm]
          simp only [canonicalMarksGo, if_neg hnl, hm, Bool.and_eq_true] at hc
          obtain ⟨hlen, hc2⟩ := hc
          have hlen' : len = (natToStr l0).length + (natToStr c0).length + 3 := by
            simpa using hlen
          set comment : Str := lit "/*" ++ natToStr l0 ++ [','] ++ natToStr c0 ++
            lit "*/" with hcomdef
          have hclen : comment.length =
              (natToStr l0).length + (natToStr c0).length + 5 := by
            simp only [hcomdef, List.length_append, List.length_cons, List.length_nil,
              show (lit "/*").length = 2 from rfl, show (lit "*/").length = 2 from rfl]
            omega
          set generatedCol : Int :=
            (st.pos : Int) - st.lineStartPos - st.lineMarksLength with hgdef
          have hgencol : generatedCol = (st.outLineLen : Int) := hA
          set seg : SegmentRec := {
            genColDelta := generatedCol - st.lastGeneratedCol,
            srcLineDelta := (l0 : Int) - st.lastSourceLine,
            srcColDelta := (c0 : Int) - st.lastSourceCol,
            genCol := generatedCol,
            commentCol := st.outLineLen } with hsegdef
          have hres := ih ((c :: rest).drop len) { st with
              line := st.line ++ [seg],
              lineMarksLength := st.lineMarksLength - 2,
              lastGeneratedCol := generatedCol,
              lastSourceLine := (l0 : Int), lastSourceCol := (c0 : Int),
              pos := st.pos + len,
              out := st.out ++ comment,
              outLineLen := st.outLineLen + comment.length }
            hc2
            (by
              show ((st.pos + len : Nat) : Int) - st.lineStartPos -
                (st.lineMarksLength - 2) = ((st.outLineLen + comment.length : Nat) : Int)
              push_cast
              rw [hlen', hclen]
              push_cast
              omega)
            (by
              dsimp only
              intro sg hs
              rcases List.mem_append.mp hs with hs | hs
              · obtain ⟨e1, e2, e3⟩ := hB sg hs
                refine ⟨e1, e2, ?_⟩
                push_cast
                omega
              · simp only [List.mem_singleton] at hs
                subst hs
                refine ⟨by simp [hsegdef, hgencol], ?_, ?_⟩
                · simp [hsegdef, hgencol]
                · show generatedCol < ((st.outLineLen + comment.length : Nat) : Int)
                  rw [hgencol]
                  push_cast
                  rw [hclen]
                  push_cast
                  omega)
            (by
              dsimp only
              rw [List.chain'_append]
              refine ⟨hC, by simp, ?_⟩
              intro x hx y hy
              simp only [List.head?_cons, Option.mem_def, Option.some.injEq] at hy
              subst hy
              simp only [Option.mem_def] at hx
              have hxm := getLast?_mem' hx
              have hlt := (hB x hxm).2.2
              simp only [hsegdef, hgencol]
              exact hlt)
            (by
              dsimp only
              rw [deltasOk_snoc, hD]
              simp only [Bool.true_and, hsegdef]
              rw [← hE]
              simp)
            (by
              dsimp only
              simp [List.getLast?_concat, hsegdef])
            hF
          obtain ⟨r1, r2, r3⟩ := hres
          refine ⟨r1, ?_, ?_⟩
          · rw [r2]
            simp only [List.map_append, List.sum_append, List.map_cons,
              List.length_append, List.length_cons, List.length_nil,
              List.sum_cons, List.sum_nil]
            omega
          · rw [r3]
            simp [List.append_assoc]

/-- C8: over a generated string whose location marks are in `locationMark`
form (hypothesis `canonicalMarks`), the extraction pass pushes exactly one
segment per mark into the final mappings (which render those segments
line by line), replaces each mark by its `/*line,col*/` comment, and keeps
the column bookkeeping consistent: every segment's encoded generated
column equals the output column where its comment was inserted, is
non-negative, strictly increases along each generated line, and the
vlq-encoded deltas match those columns. -/
theorem C8_mark_segments (embedded : Str)
    (hc : canonicalMarks embedded = true) :
    (((extractMappings embedded).segLines).map List.length).sum =
      countMarks embedded ∧
    (extractMappings embedded).mappings = List.intercalate [';']
      (((extractMappings embedded).segLines).map fun l =>
        List.intercalate [','] (l.map renderSeg)) ∧
    (extractMappings embedded).src = replaceMarks embedded ∧
    ∀ l ∈ (extractMappings embedded).segLines, lineOk l := by
  have h := emScanGo_inv (embedded.length + 1) embedded emInit hc
    (by simp [emInit]) (by simp [emInit]) (by simp [emInit])
    (by simp [emInit, deltasOk]) (by simp [emInit]) (by simp [emInit])
  obtain ⟨r1, r2, r3⟩ := h
  refine ⟨?_, rfl, ?_, ?_⟩
  · simpa [extractMappings, emScan, countMarks, emInit] using r2
  · simpa [extractMappings, emScan, replaceMarks, emInit] using r3
  · intro l hl
    exact r1 l (by simpa [extractMappings, emScan] using hl)

/-- C8, witness: the theorem at a concrete marked string with three marks
over two generated lines. -/
theorem C8_mark_segments_witness :
    (((extractMappings C8example).segLines).map List.length).sum =
      countMarks C8example ∧
    (extractMappings C8example).mappings = List.intercalate [';']
      (((extractMappings C8example).segLines).map fun l =>
        List.intercalate [','] (l.map renderSeg)) ∧
    (extractMappings C8example).src = replaceMarks C8example ∧
    ∀ l ∈ (extractMappings C8example).segLines, lineOk l :=
  C8_mark_segments C8example (by rfl)

end Surplus
